import Mathlib

/-!
# securefs: path-confined filesystem access

A shallow embedding of `securefs.go` (package `securefs`) together with the
parts of its environment the package is written against:

* `path/filepath` on Unix (`Clean`, `Dir`, `Base`, `Join`), transcribed from the
  Go standard library, over strings represented as lists of characters;
* the Linux system calls the package issues (`openat2` with `RESOLVE_IN_ROOT`,
  `unlinkat`, `mkdirat`, `symlinkat`, `read`, `write`, `fstat`), as a small
  sequential model of a directory tree with regular files and symbolic links.

The Go functions keep their names.  A Go `string` is a `List Char`; a Go `error`
that is a `unix.Errno` is a natural number; a function that can loop forever
(`FS.OpenFile` retries while the kernel answers `EINTR` or `EAGAIN`) takes a
fuel argument and returns `none` when the fuel runs out.
-/

namespace Securefs

/-! ## Strings, error numbers and flag constants (linux/amd64 values of `x/sys/unix`) -/

/-- A Go string: one character per byte. -/
abbrev Str := List Char

/-- A `unix.Errno`. -/
abbrev Errno := Nat

deriving instance DecidableEq for Except

def EPERM : Errno := 1
def ENOENT : Errno := 2
def EINTR : Errno := 4
def EBADF : Errno := 9
def EAGAIN : Errno := 11
def EACCES : Errno := 13
def EBUSY : Errno := 16
def EEXIST : Errno := 17
def ENOTDIR : Errno := 20
def EISDIR : Errno := 21
def EINVAL : Errno := 22
def ENOTEMPTY : Errno := 39
def ELOOP : Errno := 40

def O_RDONLY : Nat := 0x0
def O_WRONLY : Nat := 0x1
def O_RDWR : Nat := 0x2
def O_ACCMODE : Nat := 0x3
def O_CREAT : Nat := 0x40
def O_TRUNC : Nat := 0x200
def O_DIRECTORY : Nat := 0x10000
def O_CLOEXEC : Nat := 0x80000
def O_PATH : Nat := 0x200000
def AT_REMOVEDIR : Nat := 0x200
def RESOLVE_IN_ROOT : Nat := 0x10

/-- Go conversion `uint64(x)` of an `int`. -/
def uint64 (x : Int) : Nat := (x % (2 ^ 64 : Int)).toNat

/-- Go conversion `uint32(x)` of an `os.FileMode` value. -/
def uint32 (x : Nat) : Nat := x % 2 ^ 32

/-! ## `path/filepath` (Unix) -/

/-- `os.IsPathSeparator` on Unix. -/
def IsPathSeparator (c : Char) : Bool := c == '/'

/-- The backtracking loop of the `..` case of `Clean`, after `out.w--`:
`for out.w > dotdot && !os.IsPathSeparator(out.index(out.w)) { out.w-- }`.
Takes the current `w` and returns the final one. -/
def backtrack (dotdot : Nat) (buf : Str) : Nat → Nat
  | 0 => 0
  | w + 1 =>
    if dotdot < w + 1 ∧ buf[w + 1]? ≠ some '/' then backtrack dotdot buf w else w + 1

/-- The main loop `for r < n { switch ... }` of `filepath.Clean`.  `rest` is
`path[r:]`, `out` is the written part `buf[:w]` of the lazy buffer, and the fuel
bounds the number of iterations (each one consumes at least one byte). -/
def cleanLoop (rooted : Bool) : Nat → Str → Str → Nat → Str
  | 0, _, out, _ => out
  | _ + 1, [], out, _ => out
  | fuel + 1, c :: rest, out, dotdot =>
    if IsPathSeparator c then
      -- empty path element
      cleanLoop rooted fuel rest out dotdot
    else if c = '.' ∧ (rest = [] ∨ (rest.head?.map IsPathSeparator) = some true) then
      -- . element
      cleanLoop rooted fuel rest out dotdot
    else if c = '.' ∧ rest.head? = some '.' ∧
        (rest.tail = [] ∨ (rest.tail.head?.map IsPathSeparator) = some true) then
      -- .. element: remove to last separator
      if dotdot < out.length then
        cleanLoop rooted fuel rest.tail
          (out.take (backtrack dotdot out (out.length - 1))) dotdot
      else if rooted = false then
        -- cannot backtrack, but not rooted, so append .. element
        let out1 := if 0 < out.length then out ++ ['/'] else out
        cleanLoop rooted fuel rest.tail (out1 ++ ['.', '.']) (out1.length + 2)
      else
        cleanLoop rooted fuel rest.tail out dotdot
    else
      -- real path element: add slash if needed, then copy the element
      let out1 :=
        if (rooted = true ∧ out.length ≠ 1) ∨ (rooted = false ∧ out.length ≠ 0) then
          out ++ ['/']
        else out
      cleanLoop rooted fuel ((c :: rest).dropWhile (fun x => !IsPathSeparator x))
        (out1 ++ (c :: rest).takeWhile (fun x => !IsPathSeparator x)) dotdot

/-- Go `filepath.Clean` on Unix (no volume name, `FromSlash` is the identity). -/
def Clean (path : Str) : Str :=
  match path with
  | [] => ['.']
  | c :: rest =>
    let out :=
      if IsPathSeparator c then cleanLoop true (c :: rest).length rest ['/'] 1
      else cleanLoop false (c :: rest).length (c :: rest) [] 0
    -- Turn empty string into "."
    if out.length = 0 then ['.'] else out

/-- Go `filepath.Dir`: everything up to and including the last separator, cleaned. -/
def Dir (path : Str) : Str :=
  Clean (path.reverse.dropWhile (fun x => !IsPathSeparator x)).reverse

/-- Go `filepath.Base`: the last element, after stripping trailing separators. -/
def Base (path : Str) : Str :=
  if path = [] then ['.']
  else
    -- Strip trailing slashes.
    let p1 := (path.reverse.dropWhile IsPathSeparator).reverse
    -- Find the last element
    let p2 := (p1.reverse.takeWhile (fun x => !IsPathSeparator x)).reverse
    -- If empty now, it had only slashes.
    if p2 = [] then ['/'] else p2

/-- Go `filepath.Join` on Unix: the first non-empty element and all that follow
it, joined by the separator and cleaned. -/
def Join : List Str → Str
  | [] => []
  | e :: es => if e ≠ [] then Clean (List.intercalate ['/'] (e :: es)) else Join es

/-! ## The kernel: a directory tree with regular files and symbolic links

The model is sequential (one caller, no concurrent change) and covers what the
package relies on: path resolution with symbolic links, `.` and `..`, the
`RESOLVE_IN_ROOT` scoping of `openat2`, creation, truncation, removal, and the
owner read/write permission bits of regular files.  Directories are taken to be
searchable and writable by the caller, there are no hard links or mount points,
and flag words outside the set the package uses are answered `EINVAL`.  The
functions below are the system calls themselves: the wrappers of `x/sys/unix`
first refuse a string that contains a NUL byte with `EINVAL`, and path strings
are taken not to contain one. -/

/-- The name of a directory entry. -/
abbrev Name := Str

/-- The location of an object: its component names from the host root. -/
abbrev Loc := List Name

/-- What a location holds. -/
inductive Node where
  | dir
  | file (mode : Nat) (data : List Nat)
  | symlink (target : Str)
  deriving DecidableEq, Repr

/-- The state of the kernel: the tree, the caller's umask, and whether the
caller bypasses file permission checks (`CAP_DAC_OVERRIDE`). -/
structure Kernel where
  entries : List (Loc × Node)
  umask : Nat
  privileged : Bool
  deriving DecidableEq, Repr

/-- An open file description: the object it denotes and the flags it was
opened with (the close-on-exec bit included). -/
structure File where
  loc : Loc
  flags : Nat
  deriving DecidableEq, Repr

/-- The `struct open_how` argument of `openat2`. -/
structure OpenHow where
  Flags : Nat
  Mode : Nat
  Resolve : Nat
  deriving DecidableEq, Repr

/-- What `fstat` reports. -/
structure FileInfo where
  isDir : Bool
  size : Nat
  mode : Nat
  deriving DecidableEq, Repr

/-- First entry recorded for a location, if any. -/
def lookupLoc : List (Loc × Node) → Loc → Option Node
  | [], _ => none
  | e :: es, l => if e.1 = l then some e.2 else lookupLoc es l

/-- The object at a location; the host root is always a directory. -/
def Kernel.look (k : Kernel) (l : Loc) : Option Node :=
  if l = [] then some Node.dir else lookupLoc k.entries l

/-- Create or replace the object at a location. -/
def Kernel.set (k : Kernel) (l : Loc) (n : Node) : Kernel :=
  { k with entries := (l, n) :: k.entries.filter (fun e => !decide (e.1 = l)) }

/-- Remove the object at a location. -/
def Kernel.del (k : Kernel) (l : Loc) : Kernel :=
  { k with entries := k.entries.filter (fun e => !decide (e.1 = l)) }

/-- No entry lies directly inside `d`. -/
def Kernel.isEmptyDir (k : Kernel) (d : Loc) : Bool :=
  k.entries.all (fun e => decide (e.1 = [] ∨ e.1.dropLast ≠ d))

/-- The names of the entries directly inside `d`. -/
def Kernel.children (k : Kernel) (d : Loc) : List Name :=
  k.entries.filterMap (fun e => if e.1 ≠ [] ∧ e.1.dropLast = d then e.1.getLast? else none)

/-- Whether a bit of a flags word is set. -/
def testFlag (flags bit : Nat) : Bool := flags &&& bit != 0

/-- Splitting at separators, with the component read so far in `acc`. -/
def splitAux : Str → Name → List Name
  | [], acc => if acc = [] then [] else [acc]
  | c :: cs, acc =>
    if c = '/' then (if acc = [] then splitAux cs [] else acc :: splitAux cs [])
    else splitAux cs (acc ++ [c])

/-- The components of a path: the non-empty pieces between separators. -/
def splitPath (s : Str) : List Name := splitAux s []

/-- The components to look up for a path: a trailing separator demands a
directory, which is what a final `.` component does. -/
def pathComps (s : Str) : List Name :=
  splitPath s ++ (if s.getLast? = some '/' then [['.']] else [])

/-- Where a path walk ends: at an object, or at a name that is missing from an
existing directory. -/
inductive Found where
  | obj (l : Loc)
  | absent (parent : Loc) (name : Name)
  deriving DecidableEq, Repr

/-- One level of the kernel's path walk (`link_path_walk`): components are taken
one at a time from the directory `cur`; `..` does not climb above `root`; a
symbolic link is followed by handing its target, then the remaining components,
to the continuation `k`, restarting from `root` when the target is absolute. -/
def walkAux (look : Loc → Option Node) (root : Loc)
    (k : Loc → List Name → Except Errno Found) : Loc → List Name → Except Errno Found
  | cur, [] => .ok (Found.obj cur)
  | cur, c :: rest =>
    if c = ['.'] then walkAux look root k cur rest
    else if c = ['.', '.'] then
      walkAux look root k (if cur = root then root else cur.dropLast) rest
    else
      match look (cur ++ [c]) with
      | none => if rest = [] then .ok (Found.absent cur c) else .error ENOENT
      | some Node.dir => walkAux look root k (cur ++ [c]) rest
      | some (Node.file _ _) =>
        if rest = [] then .ok (Found.obj (cur ++ [c])) else .error ENOTDIR
      | some (Node.symlink t) =>
        if t = [] then .error ENOENT
        else k (if t.head? = some '/' then root else cur) (pathComps t ++ rest)

/-- The path walk with a budget of symbolic links to follow (`MAXSYMLINKS` is
40 in Linux); one more gives `ELOOP`. -/
def walk (look : Loc → Option Node) (root : Loc) :
    Nat → Loc → List Name → Except Errno Found
  | 0 => walkAux look root (fun _ _ => .error ELOOP)
  | n + 1 => walkAux look root (walk look root n)

/-- The checks `openat2` makes on its `open_how` before looking at the path. -/
def validHow (how : OpenHow) : Bool :=
  (how.Flags &&& (O_ACCMODE ||| O_CREAT ||| O_TRUNC ||| O_DIRECTORY ||| O_CLOEXEC ||| O_PATH)
      == how.Flags)
  && (how.Flags &&& O_ACCMODE != O_ACCMODE)
  && (how.Resolve == RESOLVE_IN_ROOT || how.Resolve == 0)
  && (if testFlag how.Flags O_CREAT then how.Mode &&& 0o7777 == how.Mode else how.Mode == 0)
  && !(testFlag how.Flags O_CREAT && testFlag how.Flags O_DIRECTORY)
  && (if testFlag how.Flags O_PATH then
        how.Flags &&& (O_DIRECTORY ||| O_CLOEXEC ||| O_PATH) == how.Flags
      else true)

/-- The permission check on an existing regular file of mode `mode`. -/
def mayOpen (k : Kernel) (flags : Nat) (mode : Nat) : Bool :=
  let acc := flags &&& O_ACCMODE
  let needR := acc == O_RDONLY || acc == O_RDWR
  let needW := acc == O_WRONLY || acc == O_RDWR || testFlag flags O_TRUNC
  k.privileged || ((!needR || testFlag mode 0o400) && (!needW || testFlag mode 0o200))

/-- The last step of an open on an object that exists. -/
def openExisting (k : Kernel) (flags : Nat) (l : Loc) : Kernel × Except Errno File :=
  match k.look l with
  | some Node.dir =>
    if testFlag flags O_PATH then (k, .ok ⟨l, flags⟩)
    else if flags &&& O_ACCMODE != O_RDONLY || testFlag flags O_TRUNC
        || testFlag flags O_CREAT then (k, .error EISDIR)
    else (k, .ok ⟨l, flags⟩)
  | some (Node.file mode _) =>
    if testFlag flags O_DIRECTORY then (k, .error ENOTDIR)
    else if testFlag flags O_PATH then (k, .ok ⟨l, flags⟩)
    else if !mayOpen k flags mode then (k, .error EACCES)
    else if testFlag flags O_TRUNC then (k.set l (Node.file mode []), .ok ⟨l, flags⟩)
    else (k, .ok ⟨l, flags⟩)
  | _ => (k, .error ENOENT)

/-- The root of a resolution by `openat2`: `dirfd` under `RESOLVE_IN_ROOT`, the
host root otherwise. -/
def resolveRoot (how : OpenHow) (dirfd : File) : Loc :=
  if how.Resolve = RESOLVE_IN_ROOT then dirfd.loc else []

/-- The directory a resolution starts from: the root for an absolute path. -/
def resolveStart (how : OpenHow) (dirfd : File) (pathname : Str) : Loc :=
  if pathname.head? = some '/' then resolveRoot how dirfd else dirfd.loc

/-- The components an open looks up. -/
def openComps (how : OpenHow) (pathname : Str) : List Name :=
  if testFlag how.Flags O_CREAT then splitPath pathname else pathComps pathname

/-- The system call `openat2(dirfd, pathname, how)`.  With `RESOLVE_IN_ROOT` the
directory `dirfd` is the root of the resolution: an absolute path, an absolute
link target and `..` at `dirfd` all stay at `dirfd`.  With `O_CREAT` a missing
last component is created as a regular file, and a trailing separator is an
error once the directories before it have been resolved. -/
def openat2 (k : Kernel) (dirfd : File) (pathname : Str) (how : OpenHow) :
    Kernel × Except Errno File :=
  if !validHow how then (k, .error EINVAL)
  else if pathname = [] then (k, .error ENOENT)
  else if k.look dirfd.loc ≠ some Node.dir then (k, .error ENOTDIR)
  else if testFlag how.Flags O_CREAT = true ∧ pathname.getLast? = some '/' then
    match walk k.look (resolveRoot how dirfd) 40 (resolveStart how dirfd pathname)
        ((splitPath pathname).dropLast ++ [['.']]) with
    | .error e => (k, .error e)
    | .ok _ => (k, .error EISDIR)
  else
    match walk k.look (resolveRoot how dirfd) 40 (resolveStart how dirfd pathname)
        (openComps how pathname) with
    | .error e => (k, .error e)
    | .ok (Found.absent parent name) =>
      if testFlag how.Flags O_CREAT then
        (k.set (parent ++ [name])
            (Node.file (how.Mode &&& (0o7777 ^^^ (k.umask % 512))) []),
          .ok ⟨parent ++ [name], how.Flags⟩)
      else (k, .error ENOENT)
    | .ok (Found.obj l) => openExisting k how.Flags l

/-- The kind of the last component of a path given to `mkdirat`, `symlinkat` or
`unlinkat`, with the directory that holds it when it is an ordinary name. -/
inductive Last where
  | root
  | dot
  | dotdot
  | norm (parent : Loc) (name : Name)
  deriving DecidableEq, Repr

/-- Resolution of all but the last component (`filename_parentat`), with the
ordinary scoping: the root is the host root. -/
def parentAt (k : Kernel) (dirfd : File) (pathname : Str) : Except Errno Last :=
  if pathname = [] then .error ENOENT
  else if k.look dirfd.loc ≠ some Node.dir then .error ENOTDIR
  else
    let start : Loc := if pathname.head? = some '/' then [] else dirfd.loc
    match (splitPath pathname).getLast? with
    | none => .ok Last.root
    | some last =>
      match walk k.look [] 40 start ((splitPath pathname).dropLast ++ [['.']]) with
      | .error e => .error e
      | .ok (Found.absent _ _) => .error ENOENT
      | .ok (Found.obj p) =>
        if last = ['.'] then .ok Last.dot
        else if last = ['.', '.'] then .ok Last.dotdot
        else .ok (Last.norm p last)

/-- The system call `mkdirat(dirfd, pathname, mode)`. -/
def mkdirat (k : Kernel) (dirfd : File) (pathname : Str) (_mode : Nat) :
    Kernel × Option Errno :=
  match parentAt k dirfd pathname with
  | .error e => (k, some e)
  | .ok (Last.norm p name) =>
    match k.look (p ++ [name]) with
    | none => (k.set (p ++ [name]) Node.dir, none)
    | some _ => (k, some EEXIST)
  | .ok _ => (k, some EEXIST)

/-- The system call `symlinkat(oldpath, newdirfd, newpath)`. -/
def symlinkat (k : Kernel) (oldpath : Str) (newdirfd : File) (newpath : Str) :
    Kernel × Option Errno :=
  if oldpath = [] then (k, some ENOENT)
  else
    match parentAt k newdirfd newpath with
    | .error e => (k, some e)
    | .ok (Last.norm p name) =>
      match k.look (p ++ [name]) with
      | none =>
        if newpath.getLast? = some '/' then (k, some ENOENT)
        else (k.set (p ++ [name]) (Node.symlink oldpath), none)
      | some _ => (k, some EEXIST)
    | .ok _ => (k, some EEXIST)

/-- The system call `unlinkat(dirfd, pathname, flags)`: `unlink` when `flags`
is 0 and `rmdir` when it is `AT_REMOVEDIR`. -/
def unlinkat (k : Kernel) (dirfd : File) (pathname : Str) (flags : Nat) :
    Kernel × Option Errno :=
  if flags = AT_REMOVEDIR then
    match parentAt k dirfd pathname with
    | .error e => (k, some e)
    | .ok Last.root => (k, some EBUSY)
    | .ok Last.dot => (k, some EINVAL)
    | .ok Last.dotdot => (k, some ENOTEMPTY)
    | .ok (Last.norm p name) =>
      match k.look (p ++ [name]) with
      | none => (k, some ENOENT)
      | some Node.dir =>
        if k.isEmptyDir (p ++ [name]) then (k.del (p ++ [name]), none)
        else (k, some ENOTEMPTY)
      | some _ => (k, some ENOTDIR)
  else if flags = 0 then
    match parentAt k dirfd pathname with
    | .error e => (k, some e)
    | .ok (Last.norm p name) =>
      match k.look (p ++ [name]) with
      | none => (k, some ENOENT)
      | some Node.dir => (k, some EISDIR)
      | some _ =>
        if pathname.getLast? = some '/' then (k, some ENOTDIR)
        else (k.del (p ++ [name]), none)
    | .ok _ => (k, some EISDIR)
  else (k, some EINVAL)

/-- Reading a freshly opened file to its end (`io.ReadAll`). -/
def readAll (k : Kernel) (f : File) : Except Errno (List Nat) :=
  if testFlag f.flags O_PATH || f.flags &&& O_ACCMODE == O_WRONLY then .error EBADF
  else
    match k.look f.loc with
    | some (Node.file _ data) => .ok data
    | some Node.dir => .error EISDIR
    | _ => .error EBADF

/-- Writing `b` at offset 0 of a freshly opened file (`f.Write`). -/
def write (k : Kernel) (f : File) (b : List Nat) : Kernel × Except Errno Nat :=
  if testFlag f.flags O_PATH || f.flags &&& O_ACCMODE == O_RDONLY then (k, .error EBADF)
  else
    match k.look f.loc with
    | some (Node.file mode data) =>
      (k.set f.loc (Node.file mode (b ++ data.drop b.length)), .ok b.length)
    | _ => (k, .error EBADF)

/-- The system call `fstat` on an open file (`f.Stat`). -/
def fstat (k : Kernel) (f : File) : Except Errno FileInfo :=
  match k.look f.loc with
  | some Node.dir => .ok ⟨true, 0, 0⟩
  | some (Node.file mode data) => .ok ⟨false, data.length, mode⟩
  | _ => .error EBADF

/-- Listing an open directory (`f.ReadDir(0)`). -/
def getdents (k : Kernel) (f : File) : Except Errno (List Name) :=
  if testFlag f.flags O_PATH then .error EBADF
  else
    match k.look f.loc with
    | some Node.dir => .ok (k.children f.loc)
    | _ => .error ENOTDIR

/-- The absolute path of a location, as `/proc/self/fd/N` reports it. -/
def procPath : Loc → Str
  | [] => ['/']
  | [n] => '/' :: n
  | n :: m :: rest => '/' :: n ++ procPath (m :: rest)

/-- The close-on-exec flag of a descriptor (`F_GETFD`). -/
def File.cloexec (f : File) : Bool := testFlag f.flags O_CLOEXEC

/-! ## The package `securefs` -/

/-- The Go type `FS`: the root path (informational) and the root descriptor. -/
structure FS where
  root : Str
  dfd : File
  deriving DecidableEq, Repr

/-- The flags `NewFS` opens the root with. -/
def newFSFlags : Nat := O_DIRECTORY ||| O_PATH ||| O_CLOEXEC

/-- Go `NewFS`: `unix.Open(root, O_DIRECTORY|O_PATH|O_CLOEXEC, 0)`, an ordinary
open from the working directory, taken to be the host root. -/
def NewFS (k : Kernel) (root : Str) : Kernel × Except Errno FS :=
  match openat2 k ⟨[], 0⟩ root ⟨newFSFlags, 0, 0⟩ with
  | (k1, .error err) => (k1, .error err)
  | (k1, .ok dfd) => (k1, .ok ⟨root, dfd⟩)

/-- The `unix.OpenHow` that `FS.OpenFile` builds on each attempt; `perm` is a
32-bit `os.FileMode`. -/
def mkOpenHow (flag : Int) (perm : Nat) : OpenHow :=
  { Flags := uint64 flag ||| O_CLOEXEC
    Mode := perm % 2 ^ 32
    Resolve := RESOLVE_IN_ROOT }

/-- Go `FS.OpenFile`, over any implementation `sys` of `unix.Openat2` on a state
`σ`.  `none` means the loop was still retrying when the fuel ran out. -/
def FS.OpenFile {σ : Type} (sys : σ → File → Str → OpenHow → σ × Except Errno File)
    (fs : FS) (name : Str) (flag : Int) (perm : Nat) :
    Nat → σ → Option (σ × Except Errno File)
  | 0, _ => none
  | fuel + 1, s =>
    match sys s fs.dfd name (mkOpenHow flag perm) with
    | (s1, .error err) =>
      if err = EINTR ∨ err = EAGAIN then FS.OpenFile sys fs name flag perm fuel s1
      else some (s1, .error err)
    | (s1, .ok fd) => some (s1, .ok fd)

/-- Go `FS.Open`. -/
def FS.Open (fuel : Nat) (fs : FS) (name : Str) (k : Kernel) :
    Option (Kernel × Except Errno File) :=
  FS.OpenFile openat2 fs name (O_RDONLY : Nat) 0 fuel k

/-- Go `FS.Create`. -/
def FS.Create (fuel : Nat) (fs : FS) (name : Str) (k : Kernel) :
    Option (Kernel × Except Errno File) :=
  FS.OpenFile openat2 fs name (O_RDWR ||| O_CREAT ||| O_TRUNC : Nat) 0o666 fuel k

/-- Go `FS.ReadFile`. -/
def FS.ReadFile (fuel : Nat) (fs : FS) (name : Str) (k : Kernel) :
    Option (Kernel × Except Errno (List Nat)) :=
  match FS.OpenFile openat2 fs name (O_RDONLY : Nat) 0 fuel k with
  | none => none
  | some (k1, .error err) => some (k1, .error err)
  | some (k1, .ok f) => some (k1, readAll k1 f)

/-- Go `FS.WriteFile`. -/
def FS.WriteFile (fuel : Nat) (fs : FS) (name : Str) (data : List Nat) (perm : Nat)
    (k : Kernel) : Option (Kernel × Option Errno) :=
  match FS.OpenFile openat2 fs name (O_WRONLY ||| O_CREAT ||| O_TRUNC : Nat) perm fuel k with
  | none => none
  | some (k1, .error err) => some (k1, some err)
  | some (k1, .ok f) =>
    match write k1 f data with
    | (k2, .error err) => some (k2, some err)
    | (k2, .ok _) => some (k2, none)

/-- Go `FS.openParentOf`. -/
def FS.openParentOf (fuel : Nat) (fs : FS) (name : Str) (k : Kernel) :
    Option (Kernel × Except Errno File) :=
  FS.OpenFile openat2 fs (Dir name) (O_DIRECTORY ||| O_PATH : Nat) 0 fuel k

/-- Go `FS.Remove`. -/
def FS.Remove (fuel : Nat) (fs : FS) (name : Str) (k : Kernel) :
    Option (Kernel × Option Errno) :=
  match FS.openParentOf fuel fs name k with
  | none => none
  | some (k1, .error err) => some (k1, some err)
  | some (k1, .ok parentDfile) =>
    match unlinkat k1 parentDfile (Base name) 0 with
    | (k2, some _) =>
      -- try rmdir like Go
      some (unlinkat k2 parentDfile (Base name) AT_REMOVEDIR)
    | (k2, none) => some (k2, none)

/-- Go `FS.Symlink`. -/
def FS.Symlink (fuel : Nat) (fs : FS) (oldname newname : Str) (k : Kernel) :
    Option (Kernel × Option Errno) :=
  match FS.openParentOf fuel fs newname k with
  | none => none
  | some (k1, .error err) => some (k1, some err)
  | some (k1, .ok parentDfile) => some (symlinkat k1 oldname parentDfile (Base newname))

/-- Go `FS.Mkdir`. -/
def FS.Mkdir (fuel : Nat) (fs : FS) (name : Str) (perm : Nat) (k : Kernel) :
    Option (Kernel × Option Errno) :=
  match FS.openParentOf fuel fs name k with
  | none => none
  | some (k1, .error err) => some (k1, some err)
  | some (k1, .ok parentDfile) => some (mkdirat k1 parentDfile (Base name) (uint32 perm))

/-- Go `FS.MkdirAll`, over any behaviour `mkdir` of `fs.Mkdir` on a state `σ`.
The fuel bounds the depth of the recursion; `none` means it ran out, or that
`mkdir` did not return. -/
def MkdirAll {σ : Type} (mkdir : Str → Nat → σ → Option (σ × Option Errno)) :
    Nat → Str → Nat → σ → Option (σ × Option Errno)
  | 0, _, _, _ => none
  | fuel + 1, path, perm, s =>
    -- end of recursion
    if path = [] ∨ path = ['.'] ∨ path = ['/'] then some (s, none)
    else
      -- try first
      match mkdir path perm s with
      | none => none
      | some (s1, err) =>
        if err = none ∨ err = some EEXIST then some (s1, none)
        else
          -- if it failed, try w/ parent
          match MkdirAll mkdir fuel (Dir path) perm s1 with
          | none => none
          | some (s2, some err2) => some (s2, some err2)
          | some (s2, none) =>
            -- try again
            match mkdir path perm s2 with
            | none => none
            | some (s3, some err3) =>
              if err3 = EEXIST then some (s3, none) else some (s3, some err3)
            | some (s3, none) => some (s3, none)

/-- Go `FS.MkdirAll` on the kernel model, with enough recursion fuel for the
path it is given. -/
def FS.MkdirAll (fuel : Nat) (fs : FS) (path : Str) (perm : Nat) (k : Kernel) :
    Option (Kernel × Option Errno) :=
  Securefs.MkdirAll (FS.Mkdir fuel fs) (path.length + 1) path perm k

/-- Go `FS.ReadDir`. -/
def FS.ReadDir (fuel : Nat) (fs : FS) (name : Str) (k : Kernel) :
    Option (Kernel × Except Errno (List Name)) :=
  match FS.OpenFile openat2 fs name (O_DIRECTORY ||| O_RDONLY : Nat) 0 fuel k with
  | none => none
  | some (k1, .error err) => some (k1, .error err)
  | some (k1, .ok f) => some (k1, getdents k1 f)

/-- Go `FS.Stat`. -/
def FS.Stat (fuel : Nat) (fs : FS) (name : Str) (k : Kernel) :
    Option (Kernel × Except Errno FileInfo) :=
  match FS.OpenFile openat2 fs name (O_PATH : Nat) 0 fuel k with
  | none => none
  | some (k1, .error err) => some (k1, .error err)
  | some (k1, .ok f) => some (k1, fstat k1 f)

/-- Go `FS.ResolvePath`. -/
def FS.ResolvePath (fuel : Nat) (fs : FS) (name : Str) (k : Kernel) :
    Option (Kernel × Except Errno Str) :=
  match FS.OpenFile openat2 fs name (O_PATH : Nat) 0 fuel k with
  | none => none
  | some (k1, .error err) => some (k1, .error err)
  | some (k1, .ok file) => some (k1, .ok (procPath file.loc))

/-! ## Auxiliary definitions for the statements and proofs below -/

/-- 1 when the string ends in a separator, 0 otherwise. -/
def trail (s : Str) : Nat := if s.getLast? = some '/' then 1 else 0

/-- 1 when the next element of `Clean` will be preceded by a separator that has
not been read from the input at this point, 0 otherwise. -/
def slack (rooted : Bool) (rest out : Str) : Nat :=
  if rest = [] ∨ rest.head? = some '/' ∨ (rooted = true ∧ out.length = 1)
      ∨ (rooted = false ∧ out.length = 0) then 0 else 1

/-- A kernel that answers the `i`-th call of `openat2` with `os i`, whatever the
arguments; its state is the number of calls made so far. -/
def scripted (os : Nat → Except Errno File) :
    Nat → File → Str → OpenHow → Nat × Except Errno File :=
  fun i _ _ _ => (i + 1, os i)

/-- A result that `FS.OpenFile` retries on. -/
def transient (r : Except Errno File) : Prop := r = .error EINTR ∨ r = .error EAGAIN

instance (r : Except Errno File) : Decidable (transient r) := by
  unfold transient; infer_instance

/-- The end of a walk lies inside the subtree of `root`. -/
def Found.inside (root : Loc) : Found → Prop
  | Found.obj l => root <+: l
  | Found.absent p _ => root <+: p

/-- The walk result `r` ends at the location `L`: at the object there, or at
its name, missing from its directory. -/
def EndsAt (L : Loc) (r : Except Errno Found) : Prop :=
  r = .ok (Found.obj L) ∨ ∃ p nm, r = .ok (Found.absent p nm) ∧ p ++ [nm] = L

/-- The tree of `k1` is the tree of `k` with, possibly, directories added at
locations that held nothing. -/
def Extends (k k1 : Kernel) : Prop :=
  ∀ l, k1.look l = k.look l ∨ (k.look l = none ∧ k1.look l = some Node.dir)

/-- The state `k1` differs from `k` at most in the entry named `Base name` of
the directory `D` that `FS.openParentOf` returns for `name` in the state `k`,
which lies inside the root of `fs`; and not at all when `Base name` is `/`, `.`
or `..`. -/
def LeafFrame (fuel : Nat) (fs : FS) (name : Str) (k k1 : Kernel) : Prop :=
  k1 = k ∨
    ∃ D : File, FS.openParentOf (fuel + 1) fs name k = some (k, .ok D) ∧
      fs.dfd.loc <+: D.loc ∧ k.look D.loc = some Node.dir ∧ Base name ≠ ['/'] ∧
      Base name ≠ ['.'] ∧ Base name ≠ ['.', '.'] ∧
      ∀ l, l ≠ D.loc ++ [Base name] → k1.look l = k.look l

/-- Every location at which `k1` differs from `k` is the entry named by the leaf
`Base Q` in the directory that `FS.openParentOf` returns for `Q` in the state
`k1`, for a path `Q` among `path`, `Dir path`, `Dir (Dir path)`, ... -/
def ChangedAtLeaves (fuel : Nat) (fs : FS) (path : Str) (k k1 : Kernel) : Prop :=
  ∀ l, k1.look l ≠ k.look l →
    ∃ (i : Nat) (D : File),
      FS.openParentOf (fuel + 1) fs (Dir^[i] path) k1 = some (k1, .ok D) ∧
        l = D.loc ++ [Base (Dir^[i] path)]

/-- The walk result `r` is of the not-found class: a component is missing. -/
def Missing (r : Except Errno Found) : Prop :=
  r = .error ENOENT ∨ ∃ p n, r = .ok (Found.absent p n)

/-- The entry at `L` can be removed by `unlinkat`: it is a regular file, a
symbolic link, or an empty directory. -/
def Removable (k : Kernel) (L : Loc) : Prop :=
  (∃ m d, k.look L = some (Node.file m d)) ∨ (∃ t, k.look L = some (Node.symlink t)) ∨
    (k.look L = some Node.dir ∧ k.isEmptyDir L = true)

/-- The resolution of `name` that the confined operations of `fs` perform: the
walk from the root descriptor with the root descriptor as root. -/
def resolveInRoot (k : Kernel) (fs : FS) (name : Str) : Except Errno Found :=
  walk k.look fs.dfd.loc 40 fs.dfd.loc (pathComps name)

/-- The path `name`, resolved with the root descriptor of `fs` as root, ends at
the location `L`, and `L` is a name missing from an existing directory, or holds
a regular file that the caller may write. -/
def WritableAt (k : Kernel) (fs : FS) (name : Str) (L : Loc) : Prop :=
  (∃ p nm, resolveInRoot k fs name = .ok (Found.absent p nm) ∧ L = p ++ [nm]) ∨
    (resolveInRoot k fs name = .ok (Found.obj L) ∧
      ∃ m d, k.look L = some (Node.file m d) ∧ (k.privileged || testFlag m 0o200) = true)

/-- The ordinary resolution of `name` from the directory `R` (the root is the
host root) ends outside the subtree of `R`. -/
def escapes (k : Kernel) (R : Loc) (name : Str) : Bool :=
  match walk k.look [] 40 (if name.head? = some '/' then [] else R) (pathComps name) with
  | .ok (Found.obj l) => !(R.isPrefixOf l)
  | .ok (Found.absent p _) => !(R.isPrefixOf p)
  | .error _ => false

/-- The last component of `name` (or one before it) is missing when `name` is
resolved with the root descriptor of `fs` as root. -/
def missingInRoot (k : Kernel) (fs : FS) (name : Str) : Prop :=
  resolveInRoot k fs name = .error ENOENT ∨ ∃ p n, resolveInRoot k fs name = .ok (Found.absent p n)

/-- A host with a file `/f` and a directory `/out` holding `/out/secret`, and a
jail `/r` that holds a file `f`, a link `s` to `/f`, a link `esc` to `/out`, a
link `afile` to `/out/secret`, a directory `a` with a file `a/file`, and an empty
directory `e`. -/
def hostTree : Kernel :=
  { entries :=
      [(["f".toList], Node.file 0o644 [104, 111, 115, 116]),
        (["out".toList], Node.dir),
        (["out".toList, "secret".toList], Node.file 0o644 [115, 101, 99]),
        (["r".toList], Node.dir),
        (["r".toList, "f".toList], Node.file 0o644 [106, 97, 105, 108]),
        (["r".toList, "s".toList], Node.symlink "/f".toList),
        (["r".toList, "esc".toList], Node.symlink "/out".toList),
        (["r".toList, "afile".toList], Node.symlink "/out/secret".toList),
        (["r".toList, "a".toList], Node.dir),
        (["r".toList, "a".toList, "file".toList], Node.file 0o600 [104, 105]),
        (["r".toList, "e".toList], Node.dir)]
    umask := 0o022
    privileged := false }

/-- The jail `NewFS("/r")` on `hostTree`. -/
def jail : FS := ⟨"/r".toList, ⟨["r".toList], newFSFlags⟩⟩

/-- The tree `hostTree` after `a/file` in the jail was truncated and the two
bytes `wo` were written to it. -/
def hostTreeWritten : Kernel :=
  (hostTree.set ["r".toList, "a".toList, "file".toList] (Node.file 0o600 [])).set
    ["r".toList, "a".toList, "file".toList] (Node.file 0o600 [119, 111])

/-- The tree `hostTree` after `a/new` in the jail was created with mode 0200 and
the two bytes `wo` were written to it. -/
def hostTreeNew : Kernel :=
  (hostTree.set ["r".toList, "a".toList, "new".toList] (Node.file 0o200 [])).set
    ["r".toList, "a".toList, "new".toList] (Node.file 0o200 [119, 111])

/-- The tree `hostTree` after `a/new` in the jail was created with mode 0644 and
the two bytes `wo` were written to it. -/
def hostTreeCreated : Kernel :=
  (hostTree.set ["r".toList, "a".toList, "new".toList] (Node.file 0o644 [])).set
    ["r".toList, "a".toList, "new".toList] (Node.file 0o644 [119, 111])

/-- The tree `hostTree` with one more file in the jail, `ro`, of mode 0444. -/
def hostTreeRO : Kernel :=
  hostTree.set ["r".toList, "ro".toList] (Node.file 0o444 [114, 111])

/-- The tree `hostTree` after the directories `x` and `x/y` were made in the
jail. -/
def hostTreeXY : Kernel :=
  (hostTree.set ["r".toList, "x".toList] Node.dir).set
    ["r".toList, "x".toList, "y".toList] Node.dir

/-- The tree `hostTree` after the directories `x` and `x/x` were made in the
jail. -/
def hostTreeXX : Kernel :=
  (hostTree.set ["r".toList, "x".toList] Node.dir).set
    ["r".toList, "x".toList, "x".toList] Node.dir

/-! ## Facts about `path/filepath` -/

theorem isPathSeparator_iff (c : Char) : IsPathSeparator c = true ↔ c = '/' := by
  simp [IsPathSeparator]

theorem trail_le_one (s : Str) : trail s ≤ 1 := by
  unfold trail; split <;> omega

theorem trail_nil : trail [] = 0 := by simp [trail]

theorem trail_cons_of_ne (c : Char) (rest : Str) (h : rest ≠ []) :
    trail (c :: rest) = trail rest := by
  cases rest with
  | nil => exact absurd rfl h
  | cons d t => simp [trail, List.getLast?_cons_cons]

theorem trail_cons_le (c : Char) (rest : Str) (h : c ≠ '/') :
    trail (c :: rest) ≤ trail rest := by
  cases rest with
  | nil => simp [trail, h]
  | cons d t => rw [trail_cons_of_ne c (d :: t) (by simp)]

theorem trail_cons_sep_le (c : Char) (rest : Str) :
    trail (c :: rest) ≤ trail rest + (if rest = [] then 1 else 0) := by
  cases rest with
  | nil => simpa using trail_le_one [c]
  | cons d t => rw [trail_cons_of_ne c (d :: t) (by simp)]; simp

theorem trail_dropWhile (l : Str) :
    trail l ≤ trail (l.dropWhile (fun x => !IsPathSeparator x)) := by
  induction l with
  | nil => simp
  | cons a t ih =>
    by_cases ha : a = '/'
    · subst ha; simp [List.dropWhile, IsPathSeparator]
    · have : (a :: t).dropWhile (fun x => !IsPathSeparator x)
          = t.dropWhile (fun x => !IsPathSeparator x) :=
        List.dropWhile_cons_of_pos (by simp [IsPathSeparator, ha])
      rw [this]
      exact le_trans (trail_cons_le a t ha) ih

theorem dropWhile_head (l : Str) :
    l.dropWhile (fun x => !IsPathSeparator x) = [] ∨
      (l.dropWhile (fun x => !IsPathSeparator x)).head? = some '/' := by
  induction l with
  | nil => simp
  | cons a t ih =>
    by_cases ha : a = '/'
    · subst ha; right; simp [List.dropWhile, IsPathSeparator]
    · have : (a :: t).dropWhile (fun x => !IsPathSeparator x)
          = t.dropWhile (fun x => !IsPathSeparator x) :=
        List.dropWhile_cons_of_pos (by simp [IsPathSeparator, ha])
      rw [this]; exact ih

theorem takeWhile_dropWhile_length (l : Str) :
    (l.takeWhile (fun x => !IsPathSeparator x)).length
      + (l.dropWhile (fun x => !IsPathSeparator x)).length = l.length := by
  rw [← List.length_append, List.takeWhile_append_dropWhile]

theorem slack_zero_of_head (rooted : Bool) (rest out : Str)
    (h : rest = [] ∨ rest.head? = some '/') : slack rooted rest out = 0 := by
  unfold slack
  rcases h with h | h <;> simp [h]

theorem slack_le_one (rooted : Bool) (rest out : Str) : slack rooted rest out ≤ 1 := by
  unfold slack; split <;> omega

theorem take_length_le (n : Nat) (l : Str) : (l.take n).length ≤ l.length := by
  simp [List.length_take]

theorem head_sep_iff (l : Str) :
    l.head?.map IsPathSeparator = some true ↔ l.head? = some '/' := by
  cases l with
  | nil => simp
  | cons a t => simp [IsPathSeparator]

theorem slack_cons (rooted : Bool) (c : Char) (rest out : Str) (hc : c ≠ '/') :
    slack rooted (c :: rest) out
      = if (rooted = true ∧ out.length = 1) ∨ (rooted = false ∧ out.length = 0) then 0
        else 1 := by
  simp [slack, hc]

theorem cleanLoop_length (rooted : Bool) :
    ∀ (fuel : Nat) (rest out : Str) (dotdot : Nat), rest.length ≤ fuel →
      (cleanLoop rooted fuel rest out dotdot).length + trail rest
        ≤ out.length + rest.length + slack rooted rest out := by
  intro fuel
  induction fuel with
  | zero =>
    intro rest out dotdot h
    have : rest = [] := List.length_eq_zero.mp (by omega)
    subst this
    simp [cleanLoop, trail_nil]
  | succ fuel ih =>
    intro rest out dotdot h
    cases rest with
    | nil => simp [cleanLoop, trail_nil]
    | cons c rest =>
      rw [cleanLoop]
      simp only [List.length_cons] at h ⊢
      by_cases h1 : IsPathSeparator c = true
      · -- empty path element
        rw [if_pos h1]
        have hc : c = '/' := (isPathSeparator_iff c).mp h1
        have := ih rest out dotdot (by omega)
        have hs : slack rooted (c :: rest) out = 0 :=
          slack_zero_of_head _ _ _ (Or.inr (by simp [hc]))
        have ht := trail_cons_sep_le c rest
        have hsl := slack_le_one rooted rest out
        by_cases hr : rest = []
        · subst hr
          simp [cleanLoop] at this ⊢
          have := trail_le_one [c]
          cases fuel <;> simp [cleanLoop] <;> omega
        · rw [if_neg hr] at ht
          omega
      · rw [if_neg h1]
        have hc : c ≠ '/' := fun e => h1 ((isPathSeparator_iff c).mpr e)
        by_cases h2 : c = '.' ∧ (rest = [] ∨ (rest.head?.map IsPathSeparator) = some true)
        · -- . element
          rw [if_pos h2]
          have hz : slack rooted rest out = 0 :=
            slack_zero_of_head _ _ _ (h2.2.imp id (head_sep_iff rest).mp)
          have := ih rest out dotdot (by omega)
          have ht := trail_cons_le c rest hc
          omega
        · rw [if_neg h2]
          by_cases h3 : c = '.' ∧ rest.head? = some '.' ∧
              (rest.tail = [] ∨ (rest.tail.head?.map IsPathSeparator) = some true)
          · -- .. element
            rw [if_pos h3]
            obtain ⟨_, hhead, htail⟩ := h3
            cases rest with
            | nil => simp at hhead
            | cons d rest2 =>
              simp only [List.head?_cons, Option.some.injEq] at hhead
              subst hhead
              simp only [List.tail_cons, List.length_cons] at htail h ⊢
              have hz : ∀ o : Str, slack rooted rest2 o = 0 := fun o =>
                slack_zero_of_head _ _ _ (htail.imp id (head_sep_iff rest2).mp)
              have ht1 := trail_cons_le c ('.' :: rest2) hc
              have ht2 := trail_cons_le '.' rest2 (by decide)
              have hsl := slack_cons rooted c ('.' :: rest2) out hc
              by_cases h4 : dotdot < out.length
              · rw [if_pos h4]
                have := ih rest2 (out.take (backtrack dotdot out (out.length - 1))) dotdot
                  (by omega)
                have hl := take_length_le (backtrack dotdot out (out.length - 1)) out
                rw [hz] at this
                omega
              · rw [if_neg h4]
                by_cases h5 : rooted = false
                · rw [if_pos h5]
                  by_cases h6 : 0 < out.length
                  · have := ih rest2 ((if 0 < out.length then out ++ ['/'] else out) ++ ['.', '.'])
                      ((if 0 < out.length then out ++ ['/'] else out).length + 2) (by omega)
                    rw [hz] at this
                    simp only [if_pos h6, List.length_append, List.length_cons,
                      List.length_nil] at this ⊢
                    rw [hsl, if_neg (by rintro (⟨h, _⟩ | ⟨_, h⟩) <;> simp_all)]
                    omega
                  · have := ih rest2 ((if 0 < out.length then out ++ ['/'] else out) ++ ['.', '.'])
                      ((if 0 < out.length then out ++ ['/'] else out).length + 2) (by omega)
                    rw [hz] at this
                    simp only [if_neg h6, List.length_append, List.length_cons,
                      List.length_nil] at this ⊢
                    omega
                · rw [if_neg h5]
                  have := ih rest2 out dotdot (by omega)
                  rw [hz] at this
                  omega
          · -- real path element
            rw [if_neg h3]
            have hlen := takeWhile_dropWhile_length (c :: rest)
            have hz : ∀ o : Str,
                slack rooted ((c :: rest).dropWhile (fun x => !IsPathSeparator x)) o = 0 :=
              fun o => slack_zero_of_head _ _ _ (dropWhile_head (c :: rest))
            have ht := trail_dropWhile (c :: rest)
            have hsl := slack_cons rooted c rest out hc
            have hdl : ((c :: rest).dropWhile (fun x => !IsPathSeparator x)).length
                ≤ rest.length := by
              rw [List.dropWhile_cons_of_pos (by simp [IsPathSeparator, hc])]
              exact (List.dropWhile_suffix _).length_le
            simp only [List.length_cons] at hlen
            by_cases h7 : (rooted = true ∧ out.length ≠ 1) ∨ (rooted = false ∧ out.length ≠ 0)
            · have := ih ((c :: rest).dropWhile (fun x => !IsPathSeparator x))
                ((if (rooted = true ∧ out.length ≠ 1) ∨ (rooted = false ∧ out.length ≠ 0) then
                    out ++ ['/'] else out)
                  ++ (c :: rest).takeWhile (fun x => !IsPathSeparator x)) dotdot (by omega)
              rw [hz] at this
              simp only [if_pos h7, List.length_append, List.length_cons,
                List.length_nil] at this ⊢
              rw [hsl, if_neg (by
                rintro (⟨h, h'⟩ | ⟨h, h'⟩) <;> rcases h7 with ⟨g, g'⟩ | ⟨g, g'⟩ <;> simp_all)]
              omega
            · have := ih ((c :: rest).dropWhile (fun x => !IsPathSeparator x))
                ((if (rooted = true ∧ out.length ≠ 1) ∨ (rooted = false ∧ out.length ≠ 0) then
                    out ++ ['/'] else out)
                  ++ (c :: rest).takeWhile (fun x => !IsPathSeparator x)) dotdot (by omega)
              rw [hz] at this
              simp only [if_neg h7, List.length_append, List.length_cons,
                List.length_nil] at this ⊢
              omega

theorem clean_length_trail (q : Str) (hq : q.getLast? = some '/') :
    Clean q = ['.'] ∨ Clean q = ['/'] ∨ (Clean q).length < q.length := by
  cases q with
  | nil => simp at hq
  | cons c rest =>
    unfold Clean
    simp only []
    by_cases hc : IsPathSeparator c = true
    · rw [if_pos hc]
      by_cases hr : rest = []
      · subst hr
        right; left
        have : c = '/' := (isPathSeparator_iff c).mp hc
        subst this
        decide
      · have h := cleanLoop_length true (c :: rest).length rest ['/'] 1 (by simp)
        have ht : trail rest = 1 := by
          have : trail (c :: rest) = 1 := by simp [trail, hq]
          rwa [trail_cons_of_ne c rest hr] at this
        have hs : slack true rest ['/'] = 0 := by simp [slack]
        rw [ht, hs] at h
        simp only [List.length_cons, List.length_nil] at h ⊢
        split
        · left; rfl
        · right; right; omega
    · rw [if_neg hc]
      have h := cleanLoop_length false (c :: rest).length (c :: rest) [] 0 (by simp)
      have ht : trail (c :: rest) = 1 := by simp [trail, hq]
      have hs : slack false (c :: rest) [] = 0 := by simp [slack]
      rw [ht, hs] at h
      simp only [List.length_cons, List.length_nil] at h ⊢
      split
      · left; rfl
      · right; right; omega

theorem dirPrefix_cases (path : Str) :
    (path.reverse.dropWhile (fun x => !IsPathSeparator x)).reverse = [] ∨
      ((path.reverse.dropWhile (fun x => !IsPathSeparator x)).reverse.getLast? = some '/' ∧
        (path.reverse.dropWhile (fun x => !IsPathSeparator x)).reverse.length ≤ path.length) := by
  rcases dropWhile_head path.reverse with h | h
  · left; simp [h]
  · right
    refine ⟨by simpa using h, ?_⟩
    have := (List.dropWhile_suffix (l := path.reverse) (fun x => !IsPathSeparator x)).length_le
    simpa using this

/-- `filepath.Dir` returns `.`, `/`, or a string strictly shorter than its argument. -/
theorem Dir_shorter (path : Str) :
    Dir path = ['.'] ∨ Dir path = ['/'] ∨ (Dir path).length < path.length := by
  unfold Dir
  rcases dirPrefix_cases path with h | ⟨h, hl⟩
  · left; rw [h]; rfl
  · rcases clean_length_trail _ h with h1 | h1 | h1
    · exact Or.inl h1
    · exact Or.inr (Or.inl h1)
    · exact Or.inr (Or.inr (by omega))

theorem MkdirAll_fuel {σ : Type} (mkdir : Str → Nat → σ → Option (σ × Option Errno))
    (hm : ∀ p m s, (mkdir p m s).isSome = true) :
    ∀ (fuel : Nat) (path : Str) (perm : Nat) (s : σ), path.length < fuel →
      (MkdirAll mkdir fuel path perm s).isSome = true := by
  intro fuel
  induction fuel with
  | zero => intro path perm s h; omega
  | succ fuel ih =>
    intro path perm s h
    rw [MkdirAll]
    by_cases hb : path = [] ∨ path = ['.'] ∨ path = ['/']
    · rw [if_pos hb]; rfl
    · rw [if_neg hb]
      have hne : path ≠ [] := fun e => hb (Or.inl e)
      have hpos : 0 < path.length := List.length_pos.mpr hne
      obtain ⟨⟨s1, err⟩, h1⟩ := Option.isSome_iff_exists.mp (hm path perm s)
      simp only [h1]
      by_cases he : err = none ∨ err = some EEXIST
      · rw [if_pos he]; rfl
      · rw [if_neg he]
        have hrec : (MkdirAll mkdir fuel (Dir path) perm s1).isSome = true := by
          rcases Dir_shorter path with hd | hd | hd
          · rw [hd]
            obtain ⟨f, rfl⟩ : ∃ f, fuel = f + 1 := ⟨fuel - 1, by omega⟩
            simp [MkdirAll]
          · rw [hd]
            obtain ⟨f, rfl⟩ : ∃ f, fuel = f + 1 := ⟨fuel - 1, by omega⟩
            simp [MkdirAll]
          · exact ih (Dir path) perm s1 (by omega)
        obtain ⟨⟨s2, r2⟩, h2⟩ := Option.isSome_iff_exists.mp hrec
        simp only [h2]
        cases r2 with
        | some e2 => rfl
        | none =>
          obtain ⟨⟨s3, r3⟩, h3⟩ := Option.isSome_iff_exists.mp (hm path perm s2)
          simp only [h3]
          cases r3 with
          | none => rfl
          | some e3 => simp only []; split <;> rfl

/-! ## The retry loop of `FS.OpenFile` -/

theorem OpenFile_scripted (os : Nat → Except Errno File) (fs : FS) (name : Str)
    (flag : Int) (perm : Nat) (n : Nat) (hn : ¬ transient (os n)) :
    ∀ (fuel i : Nat), i ≤ n → (∀ j, i ≤ j → j < n → transient (os j)) → n - i < fuel →
      FS.OpenFile (scripted os) fs name flag perm fuel i = some (n + 1, os n) := by
  intro fuel
  induction fuel with
  | zero => intro i _ _ h; omega
  | succ fuel ih =>
    intro i hi hpre hf
    rw [FS.OpenFile]
    simp only [scripted]
    rcases Nat.eq_or_lt_of_le hi with heq | hlt
    · subst heq
      cases hr : os i with
      | error err =>
        simp only []
        have : ¬ (err = EINTR ∨ err = EAGAIN) := by
          intro h
          apply hn
          rw [hr]
          rcases h with h | h
          · exact Or.inl (by rw [h])
          · exact Or.inr (by rw [h])
        rw [if_neg this]
      | ok fd => rfl
    · have ht := hpre i (le_refl i) hlt
      have hrec := ih (i + 1) hlt (fun j hj hjn => hpre j (by omega) hjn) (by omega)
      rcases ht with ht | ht
      · rw [ht]; simp only []; rw [if_pos (Or.inl trivial)]; exact hrec
      · rw [ht]; simp only []; rw [if_pos (Or.inr trivial)]; exact hrec

theorem OpenFile_not_transient {σ : Type}
    (sys : σ → File → Str → OpenHow → σ × Except Errno File) (fs : FS) (name : Str)
    (flag : Int) (perm : Nat) :
    ∀ (fuel : Nat) (s s1 : σ) (r : Except Errno File),
      FS.OpenFile sys fs name flag perm fuel s = some (s1, r) → ¬ transient r := by
  intro fuel
  induction fuel with
  | zero => intro s s1 r h; simp [FS.OpenFile] at h
  | succ fuel ih =>
    intro s s1 r h
    rw [FS.OpenFile] at h
    cases hc : sys s fs.dfd name (mkOpenHow flag perm) with
    | mk s2 res =>
      rw [hc] at h
      cases res with
      | error err =>
        simp only [] at h
        by_cases he : err = EINTR ∨ err = EAGAIN
        · rw [if_pos he] at h; exact ih s2 s1 r h
        · rw [if_neg he] at h
          simp only [Option.some.injEq, Prod.mk.injEq] at h
          rw [← h.2]
          rintro (h1 | h1)
          · exact he (Or.inl (by injection h1))
          · exact he (Or.inr (by injection h1))
      | ok fd =>
        simp only [Option.some.injEq, Prod.mk.injEq] at h
        rw [← h.2]
        rintro (h1 | h1) <;> cases h1

/-- C2: whatever sequence `os` of results the kernel gives to the successive
`openat2` calls, `FS.OpenFile` returns the first one that is neither `EINTR` nor
`EAGAIN`, after exactly that many calls (any fuel beyond that index suffices);
and whatever it returns is never `EINTR` or `EAGAIN`. -/
theorem OpenFile_returns_first_definitive (os : Nat → Except Errno File) (fs : FS)
    (name : Str) (flag : Int) (perm : Nat) :
    (∀ n, (∀ j, j < n → transient (os j)) → ¬ transient (os n) →
        ∀ fuel, n < fuel →
          FS.OpenFile (scripted os) fs name flag perm fuel 0 = some (n + 1, os n)) ∧
    (∀ fuel s r, FS.OpenFile (scripted os) fs name flag perm fuel 0 = some (s, r) →
        r ≠ .error EINTR ∧ r ≠ .error EAGAIN) := by
  refine ⟨?_, ?_⟩
  · intro n hpre hn fuel hf
    exact OpenFile_scripted os fs name flag perm n hn fuel 0 (Nat.zero_le n)
      (fun j _ hj => hpre j hj) (by omega)
  · intro fuel s r h
    have := OpenFile_not_transient (scripted os) fs name flag perm fuel 0 s r h
    exact ⟨fun e => this (Or.inl e), fun e => this (Or.inr e)⟩

/-- C2, at a kernel that answers `EINTR`, `EAGAIN`, `EINTR`, then `EACCES`: the
fourth result is returned, after four calls. -/
theorem OpenFile_returns_first_definitive_witness :
    FS.OpenFile
        (scripted (fun i => if i = 0 ∨ i = 2 then .error EINTR
          else if i = 1 then .error EAGAIN else .error EACCES))
        ⟨['/'], ⟨[], O_CLOEXEC⟩⟩ ['a'] 0 0 10 0
      = some (4, .error EACCES) :=
  (OpenFile_returns_first_definitive
      (fun i => if i = 0 ∨ i = 2 then .error EINTR
        else if i = 1 then .error EAGAIN else .error EACCES)
      ⟨['/'], ⟨[], O_CLOEXEC⟩⟩ ['a'] 0 0).1 3
    (by intro j hj; interval_cases j <;> simp [transient])
    (by simp [transient, EACCES, EINTR, EAGAIN]) 10 (by decide)

/-! ## Termination of `MkdirAll` -/

/-- C10: for every path and every behaviour of `Mkdir` that returns, `MkdirAll`
returns within a recursion depth of `len(path) + 1`: each recursive call is on
`filepath.Dir(path)`, which is `.` or `/` (base cases) or strictly shorter than
`path`. -/
theorem MkdirAll_terminates {σ : Type}
    (mkdir : Str → Nat → σ → Option (σ × Option Errno))
    (hm : ∀ p m s, (mkdir p m s).isSome = true) (path : Str) (perm : Nat) (s : σ) :
    (MkdirAll mkdir (path.length + 1) path perm s).isSome = true ∧
      (Dir path = ['.'] ∨ Dir path = ['/'] ∨ (Dir path).length < path.length) :=
  ⟨MkdirAll_fuel mkdir hm (path.length + 1) path perm s (Nat.lt_succ_self _),
    Dir_shorter path⟩

/-- C10, with a `Mkdir` that always fails with `EPERM`, on the path `a/b/c`. -/
theorem MkdirAll_terminates_witness :
    (MkdirAll (fun _ _ (s : Unit) => some (s, some EPERM)) ("a/b/c".toList.length + 1)
        "a/b/c".toList 0o700 ()).isSome = true ∧
      (Dir "a/b/c".toList = ['.'] ∨ Dir "a/b/c".toList = ['/'] ∨
        (Dir "a/b/c".toList).length < "a/b/c".toList.length) :=
  MkdirAll_terminates (fun _ _ (s : Unit) => some (s, some EPERM)) (fun _ _ _ => rfl)
    "a/b/c".toList 0o700 ()

/-! ## The parent and leaf of a target -/

/-- C9 (failing input `a/`): `filepath.Dir` gives `a` and `filepath.Base` gives
`a`, so the pair denotes `a/a`, while `filepath.Clean` gives `a`; in the jail
`/r`, where `a` is a directory, `Mkdir("a/")` does not answer `EEXIST` but makes
a directory `a/a`. -/
theorem Join_Dir_Base_trailing_separator :
    Dir "a/".toList = "a".toList ∧ Base "a/".toList = "a".toList ∧
      Join [Dir "a/".toList, Base "a/".toList] = "a/a".toList ∧
      Clean "a/".toList = "a".toList ∧
      hostTree.look ["r".toList, "a".toList] = some Node.dir ∧
      FS.Mkdir 1 jail "a/".toList 0o700 hostTree
        = some (hostTree.set ["r".toList, "a".toList, "a".toList] Node.dir, none) := by
  decide

/-! ## Facts about the kernel model -/

theorem lookupLoc_filter_ne (es : List (Loc × Node)) (l l1 : Loc) (h : l1 ≠ l) :
    lookupLoc (es.filter (fun e => !decide (e.1 = l))) l1 = lookupLoc es l1 := by
  induction es with
  | nil => rfl
  | cons e es ih =>
    by_cases he : e.1 = l
    · have h2 : e.1 ≠ l1 := fun e1 => h (e1.symm.trans he)
      rw [List.filter_cons_of_neg (by simp [he]), ih, lookupLoc, if_neg h2]
    · rw [List.filter_cons_of_pos (by simp [he]), lookupLoc, lookupLoc, ih]

theorem lookupLoc_filter_eq (es : List (Loc × Node)) (l : Loc) :
    lookupLoc (es.filter (fun e => !decide (e.1 = l))) l = none := by
  induction es with
  | nil => rfl
  | cons e es ih =>
    by_cases he : e.1 = l
    · simp [List.filter, he, ih]
    · simp [List.filter, he, lookupLoc, ih]

theorem look_set (k : Kernel) (l : Loc) (n : Node) (l1 : Loc) (hl : l ≠ []) :
    (k.set l n).look l1 = if l1 = l then some n else k.look l1 := by
  unfold Kernel.look Kernel.set
  by_cases h1 : l1 = l
  · subst h1
    simp [hl, lookupLoc]
  · by_cases h0 : l1 = []
    · subst h0
      simp [Ne.symm hl]
    · simp only [h0, h1, if_false, lookupLoc]
      rw [if_neg (fun e => h1 e.symm)]
      exact lookupLoc_filter_ne _ _ _ h1

theorem look_del (k : Kernel) (l : Loc) (l1 : Loc) (hl : l ≠ []) :
    (k.del l).look l1 = if l1 = l then none else k.look l1 := by
  unfold Kernel.look Kernel.del
  by_cases h1 : l1 = l
  · subst h1
    simp [hl, lookupLoc_filter_eq]
  · by_cases h0 : l1 = []
    · subst h0
      simp [Ne.symm hl]
    · simp only [h0, h1, if_false]
      exact lookupLoc_filter_ne _ _ _ h1

theorem append_singleton_ne_nil (p : Loc) (n : Name) : p ++ [n] ≠ [] := by simp

theorem prefix_dropLast (root cur : Loc) (h : root <+: cur) (hne : cur ≠ root) :
    root <+: cur.dropLast := by
  obtain ⟨t, rfl⟩ := h
  have ht : t ≠ [] := by
    intro e; apply hne; simp [e]
  rw [List.dropLast_append_of_ne_nil _ ht]
  exact List.prefix_append _ _

theorem prefix_snoc (root cur : Loc) (c : Name) (h : root <+: cur) : root <+: cur ++ [c] :=
  h.trans (List.prefix_append _ _)

theorem walkAux_dot (look : Loc → Option Node) (root : Loc)
    (k : Loc → List Name → Except Errno Found) (cur : Loc) (rest : List Name) :
    walkAux look root k cur (['.'] :: rest) = walkAux look root k cur rest := by
  rw [walkAux, if_pos rfl]

theorem walkAux_dotdot (look : Loc → Option Node) (root : Loc)
    (k : Loc → List Name → Except Errno Found) (cur : Loc) (rest : List Name) :
    walkAux look root k cur (['.', '.'] :: rest)
      = walkAux look root k (if cur = root then root else cur.dropLast) rest := by
  rw [walkAux, if_neg (by decide), if_pos rfl]

theorem walkAux_name (look : Loc → Option Node) (root : Loc)
    (k : Loc → List Name → Except Errno Found) (cur : Loc) (c : Name) (rest : List Name)
    (h1 : c ≠ ['.']) (h2 : c ≠ ['.', '.']) :
    walkAux look root k cur (c :: rest)
      = match look (cur ++ [c]) with
        | none => if rest = [] then .ok (Found.absent cur c) else .error ENOENT
        | some Node.dir => walkAux look root k (cur ++ [c]) rest
        | some (Node.file _ _) =>
          if rest = [] then .ok (Found.obj (cur ++ [c])) else .error ENOTDIR
        | some (Node.symlink t) =>
          if t = [] then .error ENOENT
          else k (if t.head? = some '/' then root else cur) (pathComps t ++ rest) := by
  rw [walkAux, if_neg h1, if_neg h2]

theorem dotdot_inside (root cur : Loc) (hc : root <+: cur) :
    root <+: (if cur = root then root else cur.dropLast) := by
  by_cases h : cur = root
  · rw [if_pos h]
  · rw [if_neg h]; exact prefix_dropLast root cur hc h

theorem walkAux_inside (look : Loc → Option Node) (root : Loc)
    (k : Loc → List Name → Except Errno Found)
    (hk : ∀ cur comps r, root <+: cur → k cur comps = .ok r → r.inside root) :
    ∀ (comps : List Name) (cur : Loc) (r : Found), root <+: cur →
      walkAux look root k cur comps = .ok r → r.inside root := by
  intro comps
  induction comps with
  | nil =>
    intro cur r hc h
    simp only [walkAux, Except.ok.injEq] at h
    subst h; exact hc
  | cons c rest ih =>
    intro cur r hc h
    by_cases h1 : c = ['.']
    · subst h1; rw [walkAux_dot] at h; exact ih cur r hc h
    · by_cases h2 : c = ['.', '.']
      · subst h2; rw [walkAux_dotdot] at h
        exact ih _ r (dotdot_inside root cur hc) h
      · rw [walkAux_name _ _ _ _ _ _ h1 h2] at h
        cases hl : look (cur ++ [c]) with
        | none =>
          rw [hl] at h; simp only [] at h
          by_cases hr : rest = []
          · rw [if_pos hr] at h; cases h; exact hc
          · rw [if_neg hr] at h; cases h
        | some nd =>
          rw [hl] at h
          cases nd with
          | dir => exact ih _ r (prefix_snoc root cur c hc) h
          | file m d =>
            simp only [] at h
            by_cases hr : rest = []
            · rw [if_pos hr] at h; cases h; exact prefix_snoc root cur c hc
            · rw [if_neg hr] at h; cases h
          | symlink t =>
            simp only [] at h
            by_cases ht : t = []
            · rw [if_pos ht] at h; cases h
            · rw [if_neg ht] at h
              refine hk _ _ r ?_ h
              by_cases ha : t.head? = some '/'
              · rw [if_pos ha]
              · rw [if_neg ha]; exact hc

/-- A walk that starts inside the subtree of `root` ends inside it. -/
theorem walk_inside (look : Loc → Option Node) (root : Loc) :
    ∀ (n : Nat) (cur : Loc) (comps : List Name) (r : Found), root <+: cur →
      walk look root n cur comps = .ok r → r.inside root := by
  intro n
  induction n with
  | zero =>
    intro cur comps r hc h
    exact walkAux_inside look root _ (fun _ _ _ _ h => by cases h) comps cur r hc h
  | succ n ih =>
    intro cur comps r hc h
    exact walkAux_inside look root _ (fun cur comps r hc h => ih cur comps r hc h)
      comps cur r hc h

theorem walkAux_error (look : Loc → Option Node) (root : Loc)
    (k : Loc → List Name → Except Errno Found)
    (hk : ∀ cur comps e, k cur comps = .error e → e = ENOENT ∨ e = ENOTDIR ∨ e = ELOOP) :
    ∀ (comps : List Name) (cur : Loc) (e : Errno),
      walkAux look root k cur comps = .error e → e = ENOENT ∨ e = ENOTDIR ∨ e = ELOOP := by
  intro comps
  induction comps with
  | nil => intro cur e h; simp [walkAux] at h
  | cons c rest ih =>
    intro cur e h
    by_cases h1 : c = ['.']
    · subst h1; rw [walkAux_dot] at h; exact ih cur e h
    · by_cases h2 : c = ['.', '.']
      · subst h2; rw [walkAux_dotdot] at h; exact ih _ e h
      · rw [walkAux_name _ _ _ _ _ _ h1 h2] at h
        cases hl : look (cur ++ [c]) with
        | none =>
          rw [hl] at h; simp only [] at h
          by_cases hr : rest = []
          · rw [if_pos hr] at h; cases h
          · rw [if_neg hr] at h; cases h; exact Or.inl rfl
        | some nd =>
          rw [hl] at h
          cases nd with
          | dir => exact ih _ e h
          | file m d =>
            simp only [] at h
            by_cases hr : rest = []
            · rw [if_pos hr] at h; cases h
            · rw [if_neg hr] at h; cases h; exact Or.inr (Or.inl rfl)
          | symlink t =>
            simp only [] at h
            by_cases ht : t = []
            · rw [if_pos ht] at h; cases h; exact Or.inl rfl
            · rw [if_neg ht] at h; exact hk _ _ e h

/-- The only errors of a walk are `ENOENT`, `ENOTDIR` and `ELOOP`. -/
theorem walk_error (look : Loc → Option Node) (root : Loc) :
    ∀ (n : Nat) (cur : Loc) (comps : List Name) (e : Errno),
      walk look root n cur comps = .error e → e = ENOENT ∨ e = ENOTDIR ∨ e = ELOOP := by
  intro n
  induction n with
  | zero =>
    intro cur comps e h
    exact walkAux_error look root _
      (fun _ _ e h => by simp only [Except.error.injEq] at h; exact Or.inr (Or.inr h.symm))
      comps cur e h
  | succ n ih =>
    intro cur comps e h
    exact walkAux_error look root _ (fun cur comps e h => ih cur comps e h) comps cur e h

theorem openExisting_error_set (k : Kernel) (flags : Nat) (l : Loc) (k1 : Kernel) (e : Errno)
    (h : openExisting k flags l = (k1, .error e)) :
    k1 = k ∧ e ∈ [EINVAL, ENOENT, ENOTDIR, ELOOP, EISDIR, EACCES] := by
  unfold openExisting at h
  split at h
  · split_ifs at h <;> cases h
    exact ⟨rfl, by decide⟩
  · split_ifs at h <;> cases h
    · exact ⟨rfl, by decide⟩
    · exact ⟨rfl, by decide⟩
  · cases h; exact ⟨rfl, by decide⟩

theorem openExisting_ok (k : Kernel) (flags : Nat) (l : Loc) (k1 : Kernel) (f : File)
    (h : openExisting k flags l = (k1, .ok f)) :
    f = ⟨l, flags⟩ ∧
      ((k1 = k ∧ (testFlag flags O_TRUNC = false ∨ testFlag flags O_PATH = true
          ∨ k.look l = some Node.dir)) ∨
        (∃ m d, k.look l = some (Node.file m d) ∧ testFlag flags O_TRUNC = true ∧
          k1 = k.set l (Node.file m []))) ∧
      ((k.look l = some Node.dir ∧
          (testFlag flags O_PATH = true ∨
            (flags &&& O_ACCMODE != O_RDONLY || testFlag flags O_TRUNC
              || testFlag flags O_CREAT) = false)) ∨
        (∃ m d, k.look l = some (Node.file m d) ∧ testFlag flags O_DIRECTORY = false ∧
          (testFlag flags O_PATH = true ∨ mayOpen k flags m = true))) := by
  unfold openExisting at h
  split at h
  next hl =>
    split_ifs at h with h1 h2
    · cases h
      exact ⟨rfl, Or.inl ⟨rfl, Or.inr (Or.inr hl)⟩, Or.inl ⟨hl, Or.inl h1⟩⟩
    · cases h
    · cases h
      exact ⟨rfl, Or.inl ⟨rfl, Or.inr (Or.inr hl)⟩, Or.inl ⟨hl, Or.inr (by simpa using h2)⟩⟩
  next m d hl =>
    split_ifs at h with h1 h2 h3 h4
    · cases h
    · cases h
      exact ⟨rfl, Or.inl ⟨rfl, Or.inr (Or.inl h2)⟩,
        Or.inr ⟨m, d, hl, by simpa using h1, Or.inl h2⟩⟩
    · cases h
    · cases h
      exact ⟨rfl, Or.inr ⟨m, d, hl, h4, rfl⟩,
        Or.inr ⟨m, d, hl, by simpa using h1, Or.inr (by simpa using h3)⟩⟩
    · cases h
      exact ⟨rfl, Or.inl ⟨rfl, Or.inl (by simpa using h4)⟩,
        Or.inr ⟨m, d, hl, by simpa using h1, Or.inr (by simpa using h3)⟩⟩
  next => cases h

/-- The body of `openat2` once its argument checks have passed. -/
theorem openat2_main (k : Kernel) (dirfd : File) (pathname : Str) (how : OpenHow)
    (hv : validHow how = true) (hp : pathname ≠ []) (hd : k.look dirfd.loc = some Node.dir)
    (ht : ¬ (testFlag how.Flags O_CREAT = true ∧ pathname.getLast? = some '/')) :
    openat2 k dirfd pathname how =
      match walk k.look (resolveRoot how dirfd) 40 (resolveStart how dirfd pathname)
          (openComps how pathname) with
      | .error e => (k, .error e)
      | .ok (Found.absent parent name) =>
        if testFlag how.Flags O_CREAT then
          (k.set (parent ++ [name])
              (Node.file (how.Mode &&& (0o7777 ^^^ (k.umask % 512))) []),
            .ok ⟨parent ++ [name], how.Flags⟩)
        else (k, .error ENOENT)
      | .ok (Found.obj l) => openExisting k how.Flags l := by
  unfold openat2
  rw [if_neg (by simp [hv]), if_neg hp, if_neg (by simp [hd]), if_neg ht]

theorem walk_error_set (look : Loc → Option Node) (root : Loc) (n : Nat) (cur : Loc)
    (comps : List Name) (e : Errno) (h : walk look root n cur comps = .error e) :
    e ∈ [EINVAL, ENOENT, ENOTDIR, ELOOP, EISDIR, EACCES] := by
  rcases walk_error look root n cur comps e h with h | h | h <;> subst h <;> decide

/-- A failing `openat2` leaves the state as it was, and these are its errors. -/
theorem openat2_error_set (k : Kernel) (dirfd : File) (pathname : Str) (how : OpenHow)
    (k1 : Kernel) (e : Errno) (h : openat2 k dirfd pathname how = (k1, .error e)) :
    k1 = k ∧ e ∈ [EINVAL, ENOENT, ENOTDIR, ELOOP, EISDIR, EACCES] := by
  by_cases h1 : validHow how = true
  swap
  · unfold openat2 at h
    rw [if_pos (by simpa using h1)] at h
    cases h; exact ⟨rfl, by decide⟩
  by_cases h2 : pathname = []
  · unfold openat2 at h
    rw [if_neg (by simp [h1]), if_pos h2] at h
    cases h; exact ⟨rfl, by decide⟩
  by_cases h3 : k.look dirfd.loc = some Node.dir
  swap
  · unfold openat2 at h
    rw [if_neg (by simp [h1]), if_neg h2, if_pos h3] at h
    cases h; exact ⟨rfl, by decide⟩
  by_cases h4 : testFlag how.Flags O_CREAT = true ∧ pathname.getLast? = some '/'
  · unfold openat2 at h
    rw [if_neg (by simp [h1]), if_neg h2, if_neg (by simp [h3]), if_pos h4] at h
    split at h
    next e1 hw => cases h; exact ⟨rfl, walk_error_set _ _ _ _ _ _ hw⟩
    next => cases h; exact ⟨rfl, by decide⟩
  · rw [openat2_main k dirfd pathname how h1 h2 h3 h4] at h
    split at h
    next e1 hw => cases h; exact ⟨rfl, walk_error_set _ _ _ _ _ _ hw⟩
    next parent name hw =>
      by_cases h5 : testFlag how.Flags O_CREAT = true
      · rw [if_pos h5] at h; cases h
      · rw [if_neg h5] at h; cases h; exact ⟨rfl, by decide⟩
    next l hw => exact openExisting_error_set k how.Flags l k1 e h

theorem openat2_error (k : Kernel) (dirfd : File) (pathname : Str) (how : OpenHow)
    (k1 : Kernel) (e : Errno) (h : openat2 k dirfd pathname how = (k1, .error e)) :
    k1 = k ∧ e ≠ EINTR ∧ e ≠ EAGAIN := by
  obtain ⟨h1, h2⟩ := openat2_error_set k dirfd pathname how k1 e h
  refine ⟨h1, ?_, ?_⟩
  · rintro rfl; revert h2; decide
  · rintro rfl; revert h2; decide

/-- What a successful `openat2` did: the path walk ended at an existing object,
which was then opened, or, with `O_CREAT`, at a missing name, which was created
as an empty regular file. -/
theorem openat2_ok (k : Kernel) (dirfd : File) (pathname : Str) (how : OpenHow)
    (k1 : Kernel) (f : File) (h : openat2 k dirfd pathname how = (k1, .ok f)) :
    validHow how = true ∧ pathname ≠ [] ∧ k.look dirfd.loc = some Node.dir ∧
      ¬ (testFlag how.Flags O_CREAT = true ∧ pathname.getLast? = some '/') ∧
      ((∃ parent name,
          walk k.look (resolveRoot how dirfd) 40 (resolveStart how dirfd pathname)
            (openComps how pathname) = .ok (Found.absent parent name) ∧
          testFlag how.Flags O_CREAT = true ∧ f = ⟨parent ++ [name], how.Flags⟩ ∧
          k1 = k.set (parent ++ [name])
            (Node.file (how.Mode &&& (0o7777 ^^^ (k.umask % 512))) [])) ∨
        (∃ l,
          walk k.look (resolveRoot how dirfd) 40 (resolveStart how dirfd pathname)
            (openComps how pathname) = .ok (Found.obj l) ∧
          openExisting k how.Flags l = (k1, .ok f))) := by
  by_cases h1 : validHow how = true
  swap
  · unfold openat2 at h
    rw [if_pos (by simpa using h1)] at h
    cases h
  by_cases h2 : pathname = []
  · unfold openat2 at h
    rw [if_neg (by simp [h1]), if_pos h2] at h
    cases h
  by_cases h3 : k.look dirfd.loc = some Node.dir
  swap
  · unfold openat2 at h
    rw [if_neg (by simp [h1]), if_neg h2, if_pos h3] at h
    cases h
  by_cases h4 : testFlag how.Flags O_CREAT = true ∧ pathname.getLast? = some '/'
  · unfold openat2 at h
    rw [if_neg (by simp [h1]), if_neg h2, if_neg (by simp [h3]), if_pos h4] at h
    split at h <;> cases h
  · refine ⟨h1, h2, h3, h4, ?_⟩
    rw [openat2_main k dirfd pathname how h1 h2 h3 h4] at h
    split at h
    next e1 hw => cases h
    next parent name hw =>
      by_cases h5 : testFlag how.Flags O_CREAT = true
      · rw [if_pos h5] at h; cases h
        exact Or.inl ⟨parent, name, hw, h5, rfl, rfl⟩
      · rw [if_neg h5] at h; cases h
    next l hw => exact Or.inr ⟨l, hw, h⟩

/-- On the kernel model the retry loop of `FS.OpenFile` makes one call. -/
theorem OpenFile_model (fs : FS) (name : Str) (flag : Int) (perm : Nat) (fuel : Nat)
    (k : Kernel) :
    FS.OpenFile openat2 fs name flag perm (fuel + 1) k
      = some (openat2 k fs.dfd name (mkOpenHow flag perm)) := by
  rw [FS.OpenFile]
  cases hc : openat2 k fs.dfd name (mkOpenHow flag perm) with
  | mk k1 r =>
    cases r with
    | error e =>
      simp only []
      have := (openat2_error k fs.dfd name _ k1 e hc).2
      rw [if_neg (by rintro (h | h); exact this.1 h; exact this.2 h)]
    | ok f => rfl

theorem OpenFile_zero (fs : FS) (name : Str) (flag : Int) (perm : Nat) (k : Kernel) :
    FS.OpenFile openat2 fs name flag perm 0 k = none := by
  rw [FS.OpenFile]

/-! ## Close-on-exec -/

theorem or_and_self (x c : Nat) : (x ||| c) &&& c = c := by
  apply Nat.eq_of_testBit_eq
  intro i
  simp only [Nat.testBit_and, Nat.testBit_or]
  cases x.testBit i <;> cases c.testBit i <;> rfl

theorem openat2_ok_flags (k : Kernel) (dirfd : File) (pathname : Str) (how : OpenHow)
    (k1 : Kernel) (f : File) (h : openat2 k dirfd pathname how = (k1, .ok f)) :
    f.flags = how.Flags := by
  obtain ⟨_, _, _, _, h5⟩ := openat2_ok k dirfd pathname how k1 f h
  rcases h5 with ⟨parent, name, _, _, hf, _⟩ | ⟨l, _, ho⟩
  · rw [hf]
  · rw [(openExisting_ok k how.Flags l k1 f ho).1]

theorem OpenFile_ok_flags {σ : Type} (sys : σ → File → Str → OpenHow → σ × Except Errno File)
    (hsys : ∀ s d p how s1 f, sys s d p how = (s1, .ok f) → f.flags = how.Flags)
    (fs : FS) (name : Str) (flag : Int) (perm : Nat) :
    ∀ (fuel : Nat) (s s1 : σ) (f : File),
      FS.OpenFile sys fs name flag perm fuel s = some (s1, .ok f) →
        f.flags = (mkOpenHow flag perm).Flags := by
  intro fuel
  induction fuel with
  | zero => intro s s1 f h; simp [FS.OpenFile] at h
  | succ fuel ih =>
    intro s s1 f h
    rw [FS.OpenFile] at h
    cases hc : sys s fs.dfd name (mkOpenHow flag perm) with
    | mk s2 res =>
      rw [hc] at h
      cases res with
      | error err =>
        simp only [] at h
        by_cases he : err = EINTR ∨ err = EAGAIN
        · rw [if_pos he] at h; exact ih s2 s1 f h
        · rw [if_neg he] at h; cases h
      | ok fd =>
        cases h
        exact hsys _ _ _ _ _ _ hc

/-- C7: for every flag value the flags word that `FS.OpenFile` gives to
`openat2` has the `O_CLOEXEC` bit and the resolve mode is `RESOLVE_IN_ROOT`;
`NewFS` opens the root with `O_CLOEXEC`; hence every file that `FS.OpenFile`
returns, and the root descriptor of every `FS` that `NewFS` returns, has
close-on-exec set. -/
theorem cloexec_always (flag : Int) (perm : Nat) :
    (mkOpenHow flag perm).Flags &&& O_CLOEXEC = O_CLOEXEC ∧
    (mkOpenHow flag perm).Resolve = RESOLVE_IN_ROOT ∧
    newFSFlags &&& O_CLOEXEC = O_CLOEXEC ∧
    (∀ (fs : FS) (name : Str) (fuel : Nat) (k k1 : Kernel) (f : File),
      FS.OpenFile openat2 fs name flag perm fuel k = some (k1, .ok f) → f.cloexec = true) ∧
    (∀ (k k1 : Kernel) (root : Str) (fs : FS),
      NewFS k root = (k1, .ok fs) → fs.dfd.cloexec = true) := by
  refine ⟨or_and_self _ _, rfl, by decide, ?_, ?_⟩
  · intro fs name fuel k k1 f h
    have := OpenFile_ok_flags openat2 openat2_ok_flags fs name flag perm fuel k k1 f h
    unfold File.cloexec testFlag
    rw [this]
    show ((uint64 flag ||| O_CLOEXEC) &&& O_CLOEXEC != 0) = true
    rw [or_and_self]
    decide
  · intro k k1 root fs h
    unfold NewFS at h
    cases hc : openat2 k ⟨[], 0⟩ root ⟨newFSFlags, 0, 0⟩ with
    | mk k2 res =>
      rw [hc] at h
      cases res with
      | error err => cases h
      | ok dfd =>
        cases h
        have := openat2_ok_flags _ _ _ _ _ _ hc
        unfold File.cloexec testFlag
        simp only []
        rw [this]
        decide

/-- C7, at the jail `/r`: opening `a/file` read-write returns a close-on-exec
file, and so does `NewFS`. -/
theorem cloexec_always_witness :
    FS.OpenFile openat2 jail "a/file".toList 2 0 1 hostTree
        = some (hostTree, .ok ⟨["r".toList, "a".toList, "file".toList], 0x80002⟩) ∧
      (⟨["r".toList, "a".toList, "file".toList], 0x80002⟩ : File).cloexec = true ∧
      NewFS hostTree "/r".toList = (hostTree, .ok jail) ∧ jail.dfd.cloexec = true :=
  have h1 : FS.OpenFile openat2 jail "a/file".toList 2 0 1 hostTree
      = some (hostTree, .ok ⟨["r".toList, "a".toList, "file".toList], 0x80002⟩) := by decide
  have h2 : NewFS hostTree "/r".toList = (hostTree, .ok jail) := by decide
  ⟨h1, (cloexec_always 2 0).2.2.2.1 jail _ 1 hostTree hostTree _ h1, h2,
    (cloexec_always 2 0).2.2.2.2 hostTree hostTree _ jail h2⟩

/-! ## Confinement -/

theorem resolve_inRoot (how : OpenHow) (dirfd : File) (name : Str)
    (hr : how.Resolve = RESOLVE_IN_ROOT) :
    resolveRoot how dirfd = dirfd.loc ∧ resolveStart how dirfd name = dirfd.loc := by
  have hroot : resolveRoot how dirfd = dirfd.loc := by simp [resolveRoot, hr]
  refine ⟨hroot, ?_⟩
  unfold resolveStart; rw [hroot]; split <;> rfl

theorem openat2_ok_inside (k : Kernel) (dirfd : File) (pathname : Str) (how : OpenHow)
    (k1 : Kernel) (f : File) (hr : how.Resolve = RESOLVE_IN_ROOT)
    (h : openat2 k dirfd pathname how = (k1, .ok f)) : dirfd.loc <+: f.loc := by
  obtain ⟨_, _, _, _, h5⟩ := openat2_ok k dirfd pathname how k1 f h
  have hroot : resolveRoot how dirfd = dirfd.loc := by simp [resolveRoot, hr]
  have hstart : resolveStart how dirfd pathname = dirfd.loc := by
    unfold resolveStart; rw [hroot]; split <;> rfl
  rw [hroot, hstart] at h5
  rcases h5 with ⟨parent, name, hw, _, hf, _⟩ | ⟨l, hw, ho⟩
  · have := walk_inside _ _ _ _ _ _ (List.prefix_refl _) hw
    rw [hf]
    exact prefix_snoc _ _ _ this
  · have := walk_inside _ _ _ _ _ _ (List.prefix_refl _) hw
    rw [(openExisting_ok k how.Flags l k1 f ho).1]
    exact this

theorem OpenFile_ok_inside (fs : FS) (name : Str) (flag : Int) (perm : Nat) (fuel : Nat)
    (k k1 : Kernel) (f : File)
    (h : FS.OpenFile openat2 fs name flag perm fuel k = some (k1, .ok f)) :
    fs.dfd.loc <+: f.loc := by
  cases fuel with
  | zero => rw [OpenFile_zero] at h; cases h
  | succ fuel =>
    rw [OpenFile_model] at h
    simp only [Option.some.injEq] at h
    exact openat2_ok_inside k fs.dfd name _ k1 f rfl h

theorem pathComps_of_no_trailing (name : Str) (h : name.getLast? ≠ some '/') :
    pathComps name = splitPath name := by
  unfold pathComps
  rw [if_neg h, List.append_nil]

theorem openat2_missing (k : Kernel) (dirfd : File) (name : Str) (how : OpenHow)
    (hv : validHow how = true) (hr : how.Resolve = RESOLVE_IN_ROOT)
    (hd : k.look dirfd.loc = some Node.dir)
    (hc : testFlag how.Flags O_CREAT = false)
    (hw : walk k.look dirfd.loc 40 dirfd.loc (pathComps name) = .error ENOENT ∨
      ∃ p n, walk k.look dirfd.loc 40 dirfd.loc (pathComps name) = .ok (Found.absent p n)) :
    openat2 k dirfd name how = (k, .error ENOENT) := by
  by_cases hn : name = []
  · unfold openat2
    rw [if_neg (by simp [hv]), if_pos hn]
  · rw [openat2_main k dirfd name how hv hn hd (by simp [hc])]
    have hroot : resolveRoot how dirfd = dirfd.loc := by simp [resolveRoot, hr]
    have hstart : resolveStart how dirfd name = dirfd.loc := by
      unfold resolveStart; rw [hroot]; split <;> rfl
    have hcomps : openComps how name = pathComps name := by simp [openComps, hc]
    rw [hroot, hstart, hcomps]
    rcases hw with hw | ⟨p, n, hw⟩
    · rw [hw]
    · rw [hw]; simp [hc]

theorem openat2_missing_dir (k : Kernel) (dirfd : File) (name : Str) (how : OpenHow)
    (hv : validHow how = true) (hr : how.Resolve = RESOLVE_IN_ROOT)
    (hd : k.look dirfd.loc = some Node.dir) (ht : name.getLast? ≠ some '/')
    (hw : walk k.look dirfd.loc 40 dirfd.loc (pathComps name) = .error ENOENT) :
    openat2 k dirfd name how = (k, .error ENOENT) := by
  by_cases hn : name = []
  · unfold openat2
    rw [if_neg (by simp [hv]), if_pos hn]
  · rw [openat2_main k dirfd name how hv hn hd (fun h => ht h.2)]
    have hroot : resolveRoot how dirfd = dirfd.loc := by simp [resolveRoot, hr]
    have hstart : resolveStart how dirfd name = dirfd.loc := by
      unfold resolveStart; rw [hroot]; split <;> rfl
    have hcomps : openComps how name = pathComps name := by
      unfold openComps; split
      · exact (pathComps_of_no_trailing name ht).symm
      · rfl
    rw [hroot, hstart, hcomps, hw]

theorem validHow_create (flags perm : Nat) (hf : flags = 0x80242 ∨ flags = 0x80241)
    (hp : perm &&& 0o7777 = perm) : validHow ⟨flags, perm % 2 ^ 32, RESOLVE_IN_ROOT⟩ = true := by
  have hle : perm ≤ 0o7777 := by
    have := Nat.and_le_right (n := perm) (m := 0o7777)
    omega
  have hm : perm % 2 ^ 32 = perm := Nat.mod_eq_of_lt (by omega)
  rw [hm]
  rcases hf with hf | hf <;> subst hf <;>
    simp [validHow, testFlag, O_ACCMODE, O_CREAT, O_TRUNC, O_DIRECTORY, O_CLOEXEC, O_PATH,
      RESOLVE_IN_ROOT, hp] <;> decide

theorem validHow_cases (how : OpenHow) : validHow how = true ∨ validHow how = false := by
  cases validHow how <;> simp

theorem openat2_invalid (k : Kernel) (dirfd : File) (name : Str) (how : OpenHow)
    (hv : validHow how = false) : openat2 k dirfd name how = (k, .error EINVAL) := by
  unfold openat2
  rw [if_pos (by simp [hv])]

theorem mkOpenHow_write (perm : Nat) :
    mkOpenHow ((O_WRONLY ||| O_CREAT ||| O_TRUNC : Nat) : Int) perm
      = ⟨0x80241, perm % 2 ^ 32, RESOLVE_IN_ROOT⟩ := by
  have : uint64 ((O_WRONLY ||| O_CREAT ||| O_TRUNC : Nat) : Int) ||| O_CLOEXEC = 0x80241 := by
    decide
  unfold mkOpenHow
  rw [this]

theorem mkOpenHow_read :
    mkOpenHow ((O_RDONLY : Nat) : Int) 0 = ⟨0x80000, 0, RESOLVE_IN_ROOT⟩ := by
  decide

theorem mkOpenHow_parent :
    mkOpenHow ((O_DIRECTORY ||| O_PATH : Nat) : Int) 0 = ⟨0x290000, 0, RESOLVE_IN_ROOT⟩ := by
  decide

theorem OpenFile_missing (fs : FS) (name : Str) (k : Kernel) (fuel : Nat) (flag : Int)
    (hd : k.look fs.dfd.loc = some Node.dir) (hm : missingInRoot k fs name)
    (hv : validHow (mkOpenHow flag 0) = true)
    (hc : testFlag (mkOpenHow flag 0).Flags O_CREAT = false) :
    FS.OpenFile openat2 fs name flag 0 (fuel + 1) k = some (k, .error ENOENT) := by
  rw [OpenFile_model, openat2_missing k fs.dfd name _ hv rfl hd hc hm]

theorem validHow_rdonly : validHow (mkOpenHow ((O_RDONLY : Nat) : Int) 0) = true := by decide

theorem validHow_path : validHow (mkOpenHow ((O_PATH : Nat) : Int) 0) = true := by decide

theorem validHow_dir :
    validHow (mkOpenHow ((O_DIRECTORY ||| O_RDONLY : Nat) : Int) 0) = true := by decide

theorem validHow_rdwr_create :
    validHow (mkOpenHow ((O_RDWR ||| O_CREAT ||| O_TRUNC : Nat) : Int) 0o666) = true := by
  decide

theorem noCreat_rdonly :
    testFlag (mkOpenHow ((O_RDONLY : Nat) : Int) 0).Flags O_CREAT = false := by decide

theorem noCreat_path :
    testFlag (mkOpenHow ((O_PATH : Nat) : Int) 0).Flags O_CREAT = false := by decide

theorem noCreat_dir :
    testFlag (mkOpenHow ((O_DIRECTORY ||| O_RDONLY : Nat) : Int) 0).Flags O_CREAT = false := by
  decide

/-! How each operation continues from the result of its `FS.OpenFile`. -/

theorem ReadFile_of_error (fuel : Nat) (fs : FS) (name : Str) (k k1 : Kernel) (e : Errno)
    (h : FS.OpenFile openat2 fs name (O_RDONLY : Nat) 0 fuel k = some (k1, .error e)) :
    FS.ReadFile fuel fs name k = some (k1, .error e) := by
  unfold FS.ReadFile; rw [h]

theorem ReadFile_of_ok (fuel : Nat) (fs : FS) (name : Str) (k k1 : Kernel) (f : File)
    (h : FS.OpenFile openat2 fs name (O_RDONLY : Nat) 0 fuel k = some (k1, .ok f)) :
    FS.ReadFile fuel fs name k = some (k1, readAll k1 f) := by
  unfold FS.ReadFile; rw [h]

theorem Stat_of_error (fuel : Nat) (fs : FS) (name : Str) (k k1 : Kernel) (e : Errno)
    (h : FS.OpenFile openat2 fs name (O_PATH : Nat) 0 fuel k = some (k1, .error e)) :
    FS.Stat fuel fs name k = some (k1, .error e) := by
  unfold FS.Stat; rw [h]

theorem Stat_of_ok (fuel : Nat) (fs : FS) (name : Str) (k k1 : Kernel) (f : File)
    (h : FS.OpenFile openat2 fs name (O_PATH : Nat) 0 fuel k = some (k1, .ok f)) :
    FS.Stat fuel fs name k = some (k1, fstat k1 f) := by
  unfold FS.Stat; rw [h]

theorem ReadDir_of_error (fuel : Nat) (fs : FS) (name : Str) (k k1 : Kernel) (e : Errno)
    (h : FS.OpenFile openat2 fs name (O_DIRECTORY ||| O_RDONLY : Nat) 0 fuel k
      = some (k1, .error e)) :
    FS.ReadDir fuel fs name k = some (k1, .error e) := by
  unfold FS.ReadDir; rw [h]

theorem ResolvePath_of_error (fuel : Nat) (fs : FS) (name : Str) (k k1 : Kernel) (e : Errno)
    (h : FS.OpenFile openat2 fs name (O_PATH : Nat) 0 fuel k = some (k1, .error e)) :
    FS.ResolvePath fuel fs name k = some (k1, .error e) := by
  unfold FS.ResolvePath; rw [h]

theorem WriteFile_of_error (fuel : Nat) (fs : FS) (name : Str) (data : List Nat) (perm : Nat)
    (k k1 : Kernel) (e : Errno)
    (h : FS.OpenFile openat2 fs name (O_WRONLY ||| O_CREAT ||| O_TRUNC : Nat) perm fuel k
      = some (k1, .error e)) :
    FS.WriteFile fuel fs name data perm k = some (k1, some e) := by
  unfold FS.WriteFile; rw [h]

theorem WriteFile_of_ok (fuel : Nat) (fs : FS) (name : Str) (data : List Nat) (perm : Nat)
    (k k1 : Kernel) (f : File)
    (h : FS.OpenFile openat2 fs name (O_WRONLY ||| O_CREAT ||| O_TRUNC : Nat) perm fuel k
      = some (k1, .ok f)) :
    FS.WriteFile fuel fs name data perm k =
      match write k1 f data with
      | (k2, .error err) => some (k2, some err)
      | (k2, .ok _) => some (k2, none) := by
  unfold FS.WriteFile; rw [h]

theorem Open_missing (fs : FS) (name : Str) (k : Kernel) (fuel : Nat)
    (hd : k.look fs.dfd.loc = some Node.dir) (hm : missingInRoot k fs name) :
    FS.Open (fuel + 1) fs name k = some (k, .error ENOENT) :=
  OpenFile_missing fs name k fuel _ hd hm validHow_rdonly noCreat_rdonly

theorem ReadFile_missing (fs : FS) (name : Str) (k : Kernel) (fuel : Nat)
    (hd : k.look fs.dfd.loc = some Node.dir) (hm : missingInRoot k fs name) :
    FS.ReadFile (fuel + 1) fs name k = some (k, .error ENOENT) :=
  ReadFile_of_error _ _ _ _ _ _
    (OpenFile_missing fs name k fuel _ hd hm validHow_rdonly noCreat_rdonly)

theorem Stat_missing (fs : FS) (name : Str) (k : Kernel) (fuel : Nat)
    (hd : k.look fs.dfd.loc = some Node.dir) (hm : missingInRoot k fs name) :
    FS.Stat (fuel + 1) fs name k = some (k, .error ENOENT) :=
  Stat_of_error _ _ _ _ _ _
    (OpenFile_missing fs name k fuel _ hd hm validHow_path noCreat_path)

theorem ReadDir_missing (fs : FS) (name : Str) (k : Kernel) (fuel : Nat)
    (hd : k.look fs.dfd.loc = some Node.dir) (hm : missingInRoot k fs name) :
    FS.ReadDir (fuel + 1) fs name k = some (k, .error ENOENT) :=
  ReadDir_of_error _ _ _ _ _ _
    (OpenFile_missing fs name k fuel _ hd hm validHow_dir noCreat_dir)

theorem ResolvePath_missing (fs : FS) (name : Str) (k : Kernel) (fuel : Nat)
    (hd : k.look fs.dfd.loc = some Node.dir) (hm : missingInRoot k fs name) :
    FS.ResolvePath (fuel + 1) fs name k = some (k, .error ENOENT) :=
  ResolvePath_of_error _ _ _ _ _ _
    (OpenFile_missing fs name k fuel _ hd hm validHow_path noCreat_path)

theorem Create_missing (fs : FS) (name : Str) (k : Kernel) (fuel : Nat)
    (hd : k.look fs.dfd.loc = some Node.dir)
    (hm : resolveInRoot k fs name = .error ENOENT) (ht : name.getLast? ≠ some '/') :
    FS.Create (fuel + 1) fs name k = some (k, .error ENOENT) := by
  unfold FS.Create
  rw [OpenFile_model, openat2_missing_dir k fs.dfd name _ validHow_rdwr_create rfl hd ht hm]

theorem WriteFile_missing (fs : FS) (name : Str) (k : Kernel) (fuel : Nat)
    (hd : k.look fs.dfd.loc = some Node.dir)
    (hm : resolveInRoot k fs name = .error ENOENT) (ht : name.getLast? ≠ some '/')
    (data : List Nat) (perm : Nat) (hp : perm &&& 0o7777 = perm) :
    FS.WriteFile (fuel + 1) fs name data perm k = some (k, some ENOENT) := by
  apply WriteFile_of_error
  rw [OpenFile_model, mkOpenHow_write,
    openat2_missing_dir k fs.dfd name _ (validHow_create _ perm (Or.inr rfl) hp) rfl hd ht hm]

theorem validHow_badMode (perm : Nat) (hp : perm &&& 0o7777 ≠ perm) :
    validHow ⟨0x80241, perm, RESOLVE_IN_ROOT⟩ = false := by
  have hcreat : testFlag 0x80241 O_CREAT = true := by decide
  unfold validHow
  simp only [hcreat, if_true]
  have : (perm &&& 0o7777 == perm) = false := by simpa using hp
  rw [this]
  simp

theorem WriteFile_badMode (fs : FS) (name : Str) (k : Kernel) (fuel : Nat)
    (data : List Nat) (perm : Nat) (hlt : perm < 2 ^ 32) (hp : perm &&& 0o7777 ≠ perm) :
    FS.WriteFile (fuel + 1) fs name data perm k = some (k, some EINVAL) := by
  apply WriteFile_of_error
  have hm : perm % 2 ^ 32 = perm := Nat.mod_eq_of_lt hlt
  rw [OpenFile_model, mkOpenHow_write, hm, openat2_invalid k fs.dfd name _ (validHow_badMode perm hp)]

/-- C1 (amended): the confined operations resolve the path with the root
descriptor as root, so a path whose ordinary resolution leaves the root is
re-scoped, not rejected.  For every flag word the resolution that `FS.OpenFile`
asks for is rooted at, and starts from, the root descriptor, and every resolution
so rooted ends inside the subtree of the root; no file that `FS.OpenFile` returns
(so also none from `Open` and `Create`) lies outside it.  For a path without NUL
byte, in a jail whose root descriptor denotes a directory: the reading operations
fail with `ENOENT` when the re-scoped path has a missing component; `Create`, and
`WriteFile` with a `perm` that has no bits outside 07777, do when a component
before the last is missing and the path does not end in a separator.
`WriteFile` with other bits in `perm` fails with `EINVAL`, whatever the path. -/
theorem confined_stays_in_root (fs : FS) (name : Str) (k : Kernel) (fuel : Nat) :
    (∀ flag perm, (mkOpenHow flag perm).Resolve = RESOLVE_IN_ROOT ∧
      resolveRoot (mkOpenHow flag perm) fs.dfd = fs.dfd.loc ∧
      resolveStart (mkOpenHow flag perm) fs.dfd name = fs.dfd.loc) ∧
    (∀ comps r, walk k.look fs.dfd.loc 40 fs.dfd.loc comps = .ok r →
      Found.inside fs.dfd.loc r) ∧
    (∀ flag perm k1 f,
      FS.OpenFile openat2 fs name flag perm fuel k = some (k1, .ok f) →
        fs.dfd.loc <+: f.loc) ∧
    ((Char.ofNat 0) ∉ name → k.look fs.dfd.loc = some Node.dir → missingInRoot k fs name →
      FS.Open (fuel + 1) fs name k = some (k, .error ENOENT) ∧
      FS.ReadFile (fuel + 1) fs name k = some (k, .error ENOENT) ∧
      FS.Stat (fuel + 1) fs name k = some (k, .error ENOENT) ∧
      FS.ReadDir (fuel + 1) fs name k = some (k, .error ENOENT) ∧
      FS.ResolvePath (fuel + 1) fs name k = some (k, .error ENOENT)) ∧
    ((Char.ofNat 0) ∉ name → k.look fs.dfd.loc = some Node.dir →
      resolveInRoot k fs name = .error ENOENT → name.getLast? ≠ some '/' →
      FS.Create (fuel + 1) fs name k = some (k, .error ENOENT) ∧
      (∀ data perm, perm &&& 0o7777 = perm →
        FS.WriteFile (fuel + 1) fs name data perm k = some (k, some ENOENT)) ∧
      (∀ flag perm,
        FS.OpenFile openat2 fs name flag perm (fuel + 1) k = some (k, .error ENOENT) ∨
        FS.OpenFile openat2 fs name flag perm (fuel + 1) k = some (k, .error EINVAL))) ∧
    (∀ data perm, perm < 2 ^ 32 → perm &&& 0o7777 ≠ perm →
      FS.WriteFile (fuel + 1) fs name data perm k = some (k, some EINVAL)) := by
  refine ⟨?_, ?_, ?_, ?_, ?_, ?_⟩
  · intro flag perm
    obtain ⟨e1, e2⟩ := resolve_inRoot (mkOpenHow flag perm) fs.dfd name rfl
    exact ⟨rfl, e1, e2⟩
  · intro comps r h
    exact walk_inside _ _ _ _ _ _ (List.prefix_refl _) h
  · intro flag perm k1 f h
    exact OpenFile_ok_inside fs name flag perm fuel k k1 f h
  · intro _ hd hm
    exact ⟨Open_missing fs name k fuel hd hm, ReadFile_missing fs name k fuel hd hm,
      Stat_missing fs name k fuel hd hm, ReadDir_missing fs name k fuel hd hm,
      ResolvePath_missing fs name k fuel hd hm⟩
  · intro _ hd hm ht
    refine ⟨Create_missing fs name k fuel hd hm ht,
      fun data perm hp => WriteFile_missing fs name k fuel hd hm ht data perm hp, ?_⟩
    intro flag perm
    rw [OpenFile_model]
    rcases validHow_cases (mkOpenHow flag perm) with hv | hv
    · left; rw [openat2_missing_dir k fs.dfd name _ hv rfl hd ht hm]
    · right; rw [openat2_invalid k fs.dfd name _ hv]
  · intro data perm hlt hp
    exact WriteFile_badMode fs name k fuel data perm hlt hp

/-- C1 (amended), in the jail `/r`: the link `s` to `/f` opens the jail's own
`f`; the link `afile` to `/out/secret` is not found, for reading or writing; and
writing with the mode bit `os.ModeSetuid` is refused. -/
theorem confined_stays_in_root_witness :
    ["r".toList] <+: ["r".toList, "f".toList] ∧
    FS.ReadFile 1 jail "afile".toList hostTree = some (hostTree, .error ENOENT) ∧
    FS.Stat 1 jail "afile".toList hostTree = some (hostTree, .error ENOENT) ∧
    FS.WriteFile 1 jail "afile".toList [1] 0o600 hostTree = some (hostTree, some ENOENT) ∧
    FS.WriteFile 1 jail "afile".toList [1] (2 ^ 23 + 0o644) hostTree
      = some (hostTree, some EINVAL) :=
  have hd : hostTree.look jail.dfd.loc = some Node.dir := by decide
  have hr : resolveInRoot hostTree jail "afile".toList = .error ENOENT := by decide
  have hz : (Char.ofNat 0) ∉ "afile".toList := by decide
  have h := confined_stays_in_root jail "afile".toList hostTree 0
  ⟨(confined_stays_in_root jail "s".toList hostTree 1).2.2.1 0 0 hostTree
      ⟨["r".toList, "f".toList], 0x80000⟩ (by decide),
    (h.2.2.2.1 hz hd (Or.inl hr)).2.1, (h.2.2.2.1 hz hd (Or.inl hr)).2.2.1,
    (h.2.2.2.2.1 hz hd hr (by decide)).2.1 [1] 0o600 (by decide),
    h.2.2.2.2.2 [1] (2 ^ 23 + 0o644) (by decide) (by decide)⟩

/-- C1 as stated fails: in the jail `/r` the ordinary resolution of `../f` and of
the link `s` (to `/f`) leaves the jail, yet `ReadFile` succeeds on both, returning
the content of the jail's own `f`, `Stat` succeeds, and `WriteFile` to `../g`
creates `g` in the jail. -/
theorem escape_is_rescoped_not_rejected :
    escapes hostTree jail.dfd.loc "../f".toList = true ∧
    FS.ReadFile 1 jail "../f".toList hostTree = some (hostTree, .ok [106, 97, 105, 108]) ∧
    escapes hostTree jail.dfd.loc "s".toList = true ∧
    FS.ReadFile 1 jail "s".toList hostTree = some (hostTree, .ok [106, 97, 105, 108]) ∧
    FS.Stat 1 jail "s".toList hostTree = some (hostTree, .ok ⟨false, 4, 0o644⟩) ∧
    escapes hostTree jail.dfd.loc "../g".toList = true ∧
    (FS.WriteFile 1 jail "../g".toList [1] 0o600 hostTree).map (fun r => r.2) = some none := by
  decide

/-! ## Writing a file and reading it back -/

theorem walkAux_stable (look1 look2 : Loc → Option Node) (root L : Loc)
    (hagree : ∀ l, l ≠ L → look2 l = look1 l)
    (hL2 : ∃ m d, look2 L = some (Node.file m d))
    (hL1 : look1 L = none ∨ ∃ m d, look1 L = some (Node.file m d))
    (k1 k2 : Loc → List Name → Except Errno Found)
    (hk : ∀ cur comps, EndsAt L (k1 cur comps) → k2 cur comps = .ok (Found.obj L)) :
    ∀ (comps : List Name) (cur : Loc), EndsAt L (walkAux look1 root k1 cur comps) →
      walkAux look2 root k2 cur comps = .ok (Found.obj L) := by
  intro comps
  induction comps with
  | nil =>
    intro cur h
    simp only [walkAux] at h ⊢
    rcases h with h | ⟨p, nm, h, _⟩
    · exact h
    · cases h
  | cons c rest ih =>
    intro cur h
    by_cases h1 : c = ['.']
    · subst h1; rw [walkAux_dot] at h ⊢; exact ih cur h
    · by_cases h2 : c = ['.', '.']
      · subst h2; rw [walkAux_dotdot] at h ⊢; exact ih _ h
      · rw [walkAux_name _ _ _ _ _ _ h1 h2] at h ⊢
        by_cases hL : cur ++ [c] = L
        · obtain ⟨m2, d2, e2⟩ := hL2
          rw [hL, e2]
          simp only []
          rcases hL1 with e1 | ⟨m1, d1, e1⟩
          · rw [hL, e1] at h
            simp only [] at h
            by_cases hr : rest = []
            · rw [if_pos hr]
            · rw [if_neg hr] at h
              rcases h with h | ⟨p, nm, h, _⟩ <;> cases h
          · rw [hL, e1] at h
            simp only [] at h
            by_cases hr : rest = []
            · rw [if_pos hr]
            · rw [if_neg hr] at h
              rcases h with h | ⟨p, nm, h, _⟩ <;> cases h
        · rw [hagree _ hL]
          cases hl : look1 (cur ++ [c]) with
          | none =>
            rw [hl] at h; simp only [] at h
            by_cases hr : rest = []
            · rw [if_pos hr] at h
              rcases h with h | ⟨p, nm, h, hp⟩
              · cases h
              · cases h; exact absurd hp hL
            · rw [if_neg hr] at h
              rcases h with h | ⟨p, nm, h, _⟩ <;> cases h
          | some nd =>
            rw [hl] at h
            cases nd with
            | dir => exact ih _ h
            | file m d =>
              simp only [] at h ⊢
              by_cases hr : rest = []
              · rw [if_pos hr] at h
                rcases h with h | ⟨p, nm, h, hp⟩
                · cases h; exact absurd rfl hL
                · cases h
              · rw [if_neg hr] at h
                rcases h with h | ⟨p, nm, h, _⟩ <;> cases h
            | symlink t =>
              simp only [] at h ⊢
              by_cases ht : t = []
              · rw [if_pos ht] at h
                rcases h with h | ⟨p, nm, h, _⟩ <;> cases h
              · rw [if_neg ht] at h ⊢
                exact hk _ _ h

/-- Creating or rewriting the regular file at `L` does not change where a walk
that ended at `L` ends. -/
theorem walk_stable (look1 look2 : Loc → Option Node) (root L : Loc)
    (hagree : ∀ l, l ≠ L → look2 l = look1 l)
    (hL2 : ∃ m d, look2 L = some (Node.file m d))
    (hL1 : look1 L = none ∨ ∃ m d, look1 L = some (Node.file m d)) :
    ∀ (n : Nat) (cur : Loc) (comps : List Name), EndsAt L (walk look1 root n cur comps) →
      walk look2 root n cur comps = .ok (Found.obj L) := by
  intro n
  induction n with
  | zero =>
    intro cur comps h
    exact walkAux_stable look1 look2 root L hagree hL2 hL1 _ _
      (fun _ _ h => by rcases h with h | ⟨p, nm, h, _⟩ <;> cases h) comps cur h
  | succ n ih =>
    intro cur comps h
    exact walkAux_stable look1 look2 root L hagree hL2 hL1 _ _
      (fun cur comps h => ih cur comps h) comps cur h

theorem walkAux_absent (look : Loc → Option Node) (root : Loc)
    (k : Loc → List Name → Except Errno Found)
    (hk : ∀ cur comps p nm, k cur comps = .ok (Found.absent p nm) → look (p ++ [nm]) = none) :
    ∀ (comps : List Name) (cur p : Loc) (nm : Name),
      walkAux look root k cur comps = .ok (Found.absent p nm) → look (p ++ [nm]) = none := by
  intro comps
  induction comps with
  | nil => intro cur p nm h; simp [walkAux] at h
  | cons c rest ih =>
    intro cur p nm h
    by_cases h1 : c = ['.']
    · subst h1; rw [walkAux_dot] at h; exact ih cur p nm h
    · by_cases h2 : c = ['.', '.']
      · subst h2; rw [walkAux_dotdot] at h; exact ih _ p nm h
      · rw [walkAux_name _ _ _ _ _ _ h1 h2] at h
        cases hl : look (cur ++ [c]) with
        | none =>
          rw [hl] at h; simp only [] at h
          by_cases hr : rest = []
          · rw [if_pos hr] at h; cases h; exact hl
          · rw [if_neg hr] at h; cases h
        | some nd =>
          rw [hl] at h
          cases nd with
          | dir => exact ih _ p nm h
          | file m d =>
            simp only [] at h
            by_cases hr : rest = []
            · rw [if_pos hr] at h; cases h
            · rw [if_neg hr] at h; cases h
          | symlink t =>
            simp only [] at h
            by_cases ht : t = []
            · rw [if_pos ht] at h; cases h
            · rw [if_neg ht] at h; exact hk _ _ p nm h

/-- A name that a walk reports missing is missing. -/
theorem walk_absent (look : Loc → Option Node) (root : Loc) :
    ∀ (n : Nat) (cur : Loc) (comps : List Name) (p : Loc) (nm : Name),
      walk look root n cur comps = .ok (Found.absent p nm) → look (p ++ [nm]) = none := by
  intro n
  induction n with
  | zero =>
    intro cur comps p nm h
    exact walkAux_absent look root _ (fun _ _ _ _ h => by cases h) comps cur p nm h
  | succ n ih =>
    intro cur comps p nm h
    exact walkAux_absent look root _ (fun cur comps p nm h => ih cur comps p nm h)
      comps cur p nm h

theorem look_nil (k : Kernel) : k.look [] = some Node.dir := by simp [Kernel.look]

theorem write_file (k : Kernel) (f : File) (data : List Nat) (m : Nat) (d : List Nat)
    (hflags : f.flags = 0x80241) (hl : k.look f.loc = some (Node.file m d)) :
    write k f data = (k.set f.loc (Node.file m (data ++ d.drop data.length)), .ok data.length) := by
  unfold write
  rw [hflags, if_neg (by decide), hl]

theorem readAll_file (k : Kernel) (f : File) (m : Nat) (d : List Nat)
    (hflags : f.flags = 0x80000) (hl : k.look f.loc = some (Node.file m d)) :
    readAll k f = .ok d := by
  unfold readAll
  rw [hflags, if_neg (by decide), hl]

theorem mayOpen_read (k : Kernel) (m : Nat) :
    mayOpen k 0x80000 m = (k.privileged || testFlag m 0o400) := by
  have e1 : (0x80000 &&& O_ACCMODE == O_RDONLY || 0x80000 &&& O_ACCMODE == O_RDWR) = true := by
    decide
  have e2 : (0x80000 &&& O_ACCMODE == O_WRONLY || 0x80000 &&& O_ACCMODE == O_RDWR
      || testFlag 0x80000 O_TRUNC) = false := by decide
  unfold mayOpen
  simp only [e1, e2]
  simp

theorem openExisting_read (k : Kernel) (L : Loc) (m : Nat) (d : List Nat)
    (hl : k.look L = some (Node.file m d)) :
    openExisting k 0x80000 L =
      if (k.privileged || testFlag m 0o400) = true then (k, .ok ⟨L, 0x80000⟩)
      else (k, .error EACCES) := by
  unfold openExisting
  rw [hl]
  simp only []
  rw [if_neg (by decide), if_neg (by decide), mayOpen_read]
  by_cases hp : (k.privileged || testFlag m 0o400) = true
  · rw [if_neg (by simp [hp]), if_neg (by decide), if_pos hp]
  · rw [if_pos (by simpa using hp), if_neg hp]

theorem ReadFile_at_file (fs : FS) (name : Str) (k : Kernel) (L : Loc) (m : Nat)
    (data : List Nat) (fuel : Nat) (hn : name ≠ [])
    (hd : k.look fs.dfd.loc = some Node.dir)
    (hw : walk k.look fs.dfd.loc 40 fs.dfd.loc (pathComps name) = .ok (Found.obj L))
    (hl : k.look L = some (Node.file m data)) :
    FS.ReadFile (fuel + 1) fs name k =
      some (k, if (k.privileged || testFlag m 0o400) = true then .ok data
        else .error EACCES) := by
  have hopen : openat2 k fs.dfd name ⟨0x80000, 0, RESOLVE_IN_ROOT⟩ =
      if (k.privileged || testFlag m 0o400) = true then (k, .ok ⟨L, 0x80000⟩)
      else (k, .error EACCES) := by
    have hnc : testFlag (⟨0x80000, 0, RESOLVE_IN_ROOT⟩ : OpenHow).Flags O_CREAT ≠ true := by
      decide
    rw [openat2_main k fs.dfd name _ (by decide) hn hd (fun h => hnc h.1)]
    obtain ⟨e1, e2⟩ := resolve_inRoot ⟨0x80000, 0, RESOLVE_IN_ROOT⟩ fs.dfd name rfl
    have e3 : openComps ⟨0x80000, 0, RESOLVE_IN_ROOT⟩ name = pathComps name := by
      unfold openComps; rw [if_neg (by decide)]
    rw [e1, e2, e3, hw]
    exact openExisting_read k L m data hl
  by_cases hp : (k.privileged || testFlag m 0o400) = true
  · rw [if_pos hp] at hopen ⊢
    have ho : FS.OpenFile openat2 fs name (O_RDONLY : Nat) 0 (fuel + 1) k
        = some (k, .ok ⟨L, 0x80000⟩) := by
      rw [OpenFile_model, mkOpenHow_read, hopen]
    rw [ReadFile_of_ok _ _ _ _ _ _ ho, readAll_file k ⟨L, 0x80000⟩ m data rfl hl]
  · rw [if_neg hp] at hopen ⊢
    have ho : FS.OpenFile openat2 fs name (O_RDONLY : Nat) 0 (fuel + 1) k
        = some (k, .error EACCES) := by
      rw [OpenFile_model, mkOpenHow_read, hopen]
    rw [ReadFile_of_error _ _ _ _ _ _ ho]

/-- What a successful `FS.WriteFile` did: the walk ended at a location `L` that
held a regular file or nothing, and `L` now holds the data, with the mode the
file had, or, for a new file, the requested mode less the umask. -/
theorem WriteFile_ok_inv (fs : FS) (name : Str) (data : List Nat) (perm : Nat)
    (k k2 : Kernel) (fuel : Nat)
    (h : FS.WriteFile (fuel + 1) fs name data perm k = some (k2, none)) :
    ∃ L m, EndsAt L (walk k.look fs.dfd.loc 40 fs.dfd.loc (splitPath name)) ∧
      name ≠ [] ∧ name.getLast? ≠ some '/' ∧ k.look fs.dfd.loc = some Node.dir ∧
      L ≠ [] ∧ fs.dfd.loc <+: L ∧
      ((k.look L = none ∧ m = (perm % 2 ^ 32) &&& (0o7777 ^^^ (k.umask % 512))) ∨
        ∃ d0, k.look L = some (Node.file m d0)) ∧
      k2.look L = some (Node.file m data) ∧ (∀ l, l ≠ L → k2.look l = k.look l) ∧
      k2.privileged = k.privileged := by
  cases hc : openat2 k fs.dfd name
      (mkOpenHow ((O_WRONLY ||| O_CREAT ||| O_TRUNC : Nat) : Int) perm) with
  | mk k1 r =>
    have ho : FS.OpenFile openat2 fs name ((O_WRONLY ||| O_CREAT ||| O_TRUNC : Nat) : Int)
        perm (fuel + 1) k = some (k1, r) := by rw [OpenFile_model, hc]
    cases r with
    | error e => rw [WriteFile_of_error _ _ _ _ _ _ _ _ ho] at h; cases h
    | ok f =>
      rw [WriteFile_of_ok _ _ _ _ _ _ _ _ ho] at h
      have hin := openat2_ok_inside _ _ _ _ _ _ rfl hc
      rw [mkOpenHow_write] at hc
      have hflags := openat2_ok_flags _ _ _ _ _ _ hc
      simp only [] at hflags
      obtain ⟨hv, hn, hd, ht, h5⟩ := openat2_ok _ _ _ _ _ _ hc
      have hcreat : testFlag 0x80241 O_CREAT = true := by decide
      have htr : name.getLast? ≠ some '/' := fun e => ht ⟨hcreat, e⟩
      obtain ⟨e1, e2⟩ := resolve_inRoot ⟨0x80241, perm % 2 ^ 32, RESOLVE_IN_ROOT⟩ fs.dfd name rfl
      have e3 : openComps ⟨0x80241, perm % 2 ^ 32, RESOLVE_IN_ROOT⟩ name = splitPath name := by
        unfold openComps; rw [if_pos hcreat]
      rw [e1, e2, e3] at h5
      rcases h5 with ⟨parent, nm, hw, _, hf, hk1⟩ | ⟨l, hw, hoe⟩
      · have habs := walk_absent _ _ _ _ _ _ _ hw
        have hne : parent ++ [nm] ≠ [] := append_singleton_ne_nil parent nm
        have hl1 : k1.look f.loc = some (Node.file
            ((perm % 2 ^ 32) &&& (0o7777 ^^^ (k.umask % 512))) []) := by
          rw [hk1, hf, look_set _ _ _ _ hne, if_pos rfl]
        rw [write_file k1 f data _ _ hflags hl1] at h
        simp only [Option.some.injEq, Prod.mk.injEq, and_true] at h
        refine ⟨parent ++ [nm], _, Or.inr ⟨parent, nm, hw, rfl⟩, hn, htr, hd, hne, ?_,
          Or.inl ⟨habs, rfl⟩, ?_, ?_, ?_⟩
        · rw [hf] at hin; exact hin
        · rw [← h, hf, look_set _ _ _ _ hne, if_pos rfl]
          simp
        · intro l hl
          rw [← h, hf, look_set _ _ _ _ hne, if_neg hl, hk1, look_set _ _ _ _ hne, if_neg hl]
        · rw [← h, hk1]; rfl
      · obtain ⟨hf, hst, hkind⟩ := openExisting_ok _ _ _ _ _ hoe
        have htrunc : testFlag 0x80241 O_TRUNC = true := by decide
        have hpath : testFlag 0x80241 O_PATH = false := by decide
        have hfile : ∃ m d, k.look l = some (Node.file m d) := by
          rcases hkind with ⟨hdir, hx⟩ | ⟨m, d, hl, _⟩
          · rcases hx with hx | hx
            · rw [hpath] at hx; cases hx
            · have hx1 : (0x80241 &&& O_ACCMODE != O_RDONLY || testFlag 0x80241 O_TRUNC
                  || testFlag 0x80241 O_CREAT) = true := by decide
              rw [hx1] at hx; cases hx
          · exact ⟨m, d, hl⟩
        obtain ⟨m, d, hl⟩ := hfile
        have hne : l ≠ [] := by
          intro e; rw [e, look_nil] at hl; cases hl
        have hk1 : k1 = k.set l (Node.file m []) := by
          rcases hst with ⟨_, hx⟩ | ⟨m1, d1, hl1, _, hk1⟩
          · rcases hx with hx | hx | hx
            · rw [htrunc] at hx; cases hx
            · rw [hpath] at hx; cases hx
            · rw [hl] at hx; cases hx
          · rw [hl] at hl1; cases hl1; exact hk1
        have hl1 : k1.look f.loc = some (Node.file m []) := by
          rw [hk1, hf, look_set _ _ _ _ hne, if_pos rfl]
        rw [write_file k1 f data _ _ hflags hl1] at h
        simp only [Option.some.injEq, Prod.mk.injEq, and_true] at h
        refine ⟨l, m, Or.inl hw, hn, htr, hd, hne, ?_, Or.inr ⟨d, hl⟩, ?_, ?_, ?_⟩
        · rw [hf] at hin; exact hin
        · rw [← h, hf, look_set _ _ _ _ hne, if_pos rfl]
          simp
        · intro l1 hl1
          rw [← h, hf, look_set _ _ _ _ hne, if_neg hl1, hk1, look_set _ _ _ _ hne, if_neg hl1]
        · rw [← h, hk1]; rfl

theorem mayOpen_write (k : Kernel) (m : Nat) :
    mayOpen k 0x80241 m = (k.privileged || testFlag m 0o200) := by
  have e1 : (0x80241 &&& O_ACCMODE == O_RDONLY || 0x80241 &&& O_ACCMODE == O_RDWR) = false := by
    decide
  have e2 : (0x80241 &&& O_ACCMODE == O_WRONLY || 0x80241 &&& O_ACCMODE == O_RDWR
      || testFlag 0x80241 O_TRUNC) = true := by decide
  unfold mayOpen
  simp only [e1, e2]
  simp

theorem openExisting_write (k : Kernel) (L : Loc) (m : Nat) (d : List Nat)
    (hl : k.look L = some (Node.file m d))
    (hw : (k.privileged || testFlag m 0o200) = true) :
    openExisting k 0x80241 L = (k.set L (Node.file m []), .ok ⟨L, 0x80241⟩) := by
  unfold openExisting
  rw [hl]
  simp only []
  rw [if_neg (by decide), if_neg (by decide), mayOpen_write, if_neg (by simp [hw]),
    if_pos (by decide)]

theorem resolveInRoot_nil (k : Kernel) (fs : FS) :
    resolveInRoot k fs [] = .ok (Found.obj fs.dfd.loc) := by
  simp [resolveInRoot, pathComps, splitPath, splitAux, walk, walkAux]

theorem writableAt_ne_nil (k : Kernel) (fs : FS) (name : Str) (L : Loc)
    (hd : k.look fs.dfd.loc = some Node.dir) (hw : WritableAt k fs name L) : name ≠ [] := by
  intro e
  subst e
  rw [WritableAt, resolveInRoot_nil] at hw
  rcases hw with ⟨p, nm, h, _⟩ | ⟨h, m, d, hl, _⟩
  · cases h
  · cases h
    rw [hd] at hl; cases hl

/-- `FS.WriteFile` succeeds on a path that ends at a missing name of an existing
directory, which it creates, or at a regular file the caller may write. -/
theorem WriteFile_at (fs : FS) (name : Str) (data : List Nat) (perm : Nat) (k : Kernel)
    (L : Loc) (fuel : Nat) (hd : k.look fs.dfd.loc = some Node.dir)
    (hp : perm &&& 0o7777 = perm) (ht : name.getLast? ≠ some '/')
    (hw : WritableAt k fs name L) :
    ∃ k2, FS.WriteFile (fuel + 1) fs name data perm k = some (k2, none) := by
  have hn := writableAt_ne_nil k fs name L hd hw
  have hv := validHow_create 0x80241 perm (Or.inr rfl) hp
  have hcreat : testFlag 0x80241 O_CREAT = true := by decide
  have hmain := openat2_main k fs.dfd name ⟨0x80241, perm % 2 ^ 32, RESOLVE_IN_ROOT⟩ hv hn hd
    (fun h => ht h.2)
  obtain ⟨e1, e2⟩ := resolve_inRoot ⟨0x80241, perm % 2 ^ 32, RESOLVE_IN_ROOT⟩ fs.dfd name rfl
  have e3 : openComps ⟨0x80241, perm % 2 ^ 32, RESOLVE_IN_ROOT⟩ name = pathComps name := by
    unfold openComps; rw [if_pos hcreat, pathComps_of_no_trailing name ht]
  rw [e1, e2, e3] at hmain
  rcases hw with ⟨p, nm, h, hL⟩ | ⟨h, m, d, hl, hmay⟩
  · unfold resolveInRoot at h
    rw [h] at hmain
    simp only [] at hmain
    rw [if_pos hcreat] at hmain
    have ho : FS.OpenFile openat2 fs name ((O_WRONLY ||| O_CREAT ||| O_TRUNC : Nat) : Int)
        perm (fuel + 1) k = some (k.set (p ++ [nm])
          (Node.file ((perm % 2 ^ 32) &&& (0o7777 ^^^ (k.umask % 512))) []),
          .ok ⟨p ++ [nm], 0x80241⟩) := by
      rw [OpenFile_model, mkOpenHow_write, hmain]
    have hl1 : (k.set (p ++ [nm])
        (Node.file ((perm % 2 ^ 32) &&& (0o7777 ^^^ (k.umask % 512))) [])).look
          (⟨p ++ [nm], 0x80241⟩ : File).loc
        = some (Node.file ((perm % 2 ^ 32) &&& (0o7777 ^^^ (k.umask % 512))) []) := by
      rw [look_set _ _ _ _ (append_singleton_ne_nil p nm), if_pos rfl]
    rw [WriteFile_of_ok _ _ _ _ _ _ _ _ ho, write_file _ _ data _ _ rfl hl1]
    exact ⟨_, rfl⟩
  · unfold resolveInRoot at h
    rw [h] at hmain
    simp only [] at hmain
    rw [openExisting_write k L m d hl hmay] at hmain
    have hne : L ≠ [] := by
      intro e; rw [e, look_nil] at hl; cases hl
    have ho : FS.OpenFile openat2 fs name ((O_WRONLY ||| O_CREAT ||| O_TRUNC : Nat) : Int)
        perm (fuel + 1) k = some (k.set L (Node.file m []), .ok ⟨L, 0x80241⟩) := by
      rw [OpenFile_model, mkOpenHow_write, hmain]
    have hl1 : (k.set L (Node.file m [])).look (⟨L, 0x80241⟩ : File).loc
        = some (Node.file m []) := by
      rw [look_set _ _ _ _ hne, if_pos rfl]
    rw [WriteFile_of_ok _ _ _ _ _ _ _ _ ho, write_file _ _ data _ _ rfl hl1]
    exact ⟨_, rfl⟩

/-- C3 (amended): for a path `P` without NUL byte that does not end in a
separator and that, resolved with the root as root directory, ends at a location
`L` which is a name missing from an existing directory or a regular file the
caller may write, and for a `perm` without bits outside 07777:
`WriteFile(P, bytes, perm)` succeeds; it changes nothing but `L`, which lies
inside the root and afterwards holds a regular file with exactly `bytes`, of the
mode the file had or, for a file it created, `perm` less the umask; and a
`ReadFile(P)` that follows returns exactly `bytes`, unless that mode denies the
caller reading, in which case `ReadFile` fails with `EACCES`. -/
theorem WriteFile_then_ReadFile (fs : FS) (name : Str) (data : List Nat) (perm : Nat)
    (k : Kernel) (L : Loc) (fuel fuel2 : Nat)
    (_hnul : (Char.ofNat 0) ∉ name)
    (hd : k.look fs.dfd.loc = some Node.dir)
    (hp : perm &&& 0o7777 = perm) (ht : name.getLast? ≠ some '/')
    (hw : WritableAt k fs name L) :
    ∃ k2 m, FS.WriteFile (fuel + 1) fs name data perm k = some (k2, none) ∧
      fs.dfd.loc <+: L ∧ k2.look L = some (Node.file m data) ∧
      (∀ l, l ≠ L → k2.look l = k.look l) ∧
      ((k.look L = none ∧ m = perm &&& (0o7777 ^^^ (k.umask % 512))) ∨
        ∃ d0, k.look L = some (Node.file m d0)) ∧
      FS.ReadFile (fuel2 + 1) fs name k2 =
        some (k2, if (k.privileged || testFlag m 0o400) = true then .ok data
          else .error EACCES) := by
  obtain ⟨k2, h⟩ := WriteFile_at fs name data perm k L fuel hd hp ht hw
  obtain ⟨L1, m, hend, hn, htr, _, hne, hin, hold, hnew, hframe, hpriv⟩ :=
    WriteFile_ok_inv fs name data perm k k2 fuel h
  have hL : L1 = L := by
    rw [← pathComps_of_no_trailing name ht] at hend
    unfold WritableAt resolveInRoot at hw
    rcases hw with ⟨p, nm, h1, hL⟩ | ⟨h1, _⟩
    · rw [h1] at hend
      rcases hend with h2 | ⟨p2, nm2, h2, e⟩
      · cases h2
      · cases h2; rw [hL, e]
    · rw [h1] at hend
      rcases hend with h2 | ⟨p2, nm2, h2, e⟩
      · cases h2; rfl
      · cases h2
  subst hL
  have hle : perm ≤ 0o7777 := by
    have := Nat.and_le_right (n := perm) (m := 0o7777)
    omega
  have hm : perm % 2 ^ 32 = perm := Nat.mod_eq_of_lt (by omega)
  rw [hm] at hold
  refine ⟨k2, m, h, hin, hnew, hframe, hold, ?_⟩
  have hL1 : k.look L1 = none ∨ ∃ m d, k.look L1 = some (Node.file m d) := by
    rcases hold with ⟨h1, _⟩ | ⟨d0, h1⟩
    · exact Or.inl h1
    · exact Or.inr ⟨m, d0, h1⟩
  have hdL : fs.dfd.loc ≠ L1 := by
    intro e
    rw [← e, hd] at hL1
    rcases hL1 with h1 | ⟨_, _, h1⟩ <;> cases h1
  have hd2 : k2.look fs.dfd.loc = some Node.dir := by rw [hframe _ hdL, hd]
  have hwk := walk_stable k.look k2.look fs.dfd.loc L1 hframe ⟨m, data, hnew⟩ hL1 40
    fs.dfd.loc (splitPath name) hend
  rw [← pathComps_of_no_trailing name htr] at hwk
  rw [← hpriv]
  exact ReadFile_at_file fs name k2 L1 m data fuel2 hn hd2 hwk hnew

/-- C3 (amended), in the jail `/r`: `a/new` is missing from the existing directory
`a`; writing it with mode 0644 creates it and reading it back gives the bytes
written. -/
theorem WriteFile_then_ReadFile_witness :
    hostTree.look ["r".toList, "a".toList, "new".toList] = none ∧
    FS.WriteFile 1 jail "a/new".toList [119, 111] 0o644 hostTree
      = some (hostTreeCreated, none) ∧
    FS.ReadFile 1 jail "a/new".toList hostTreeCreated
      = some (hostTreeCreated, .ok [119, 111]) ∧
    ∃ k2 m, FS.WriteFile 1 jail "a/new".toList [119, 111] 0o644 hostTree = some (k2, none) ∧
      jail.dfd.loc <+: ["r".toList, "a".toList, "new".toList] ∧
      k2.look ["r".toList, "a".toList, "new".toList] = some (Node.file m [119, 111]) ∧
      (∀ l, l ≠ ["r".toList, "a".toList, "new".toList] → k2.look l = hostTree.look l) ∧
      ((hostTree.look ["r".toList, "a".toList, "new".toList] = none ∧
          m = 0o644 &&& (0o7777 ^^^ (hostTree.umask % 512))) ∨
        ∃ d0, hostTree.look ["r".toList, "a".toList, "new".toList] = some (Node.file m d0)) ∧
      FS.ReadFile 1 jail "a/new".toList k2 =
        some (k2, if (hostTree.privileged || testFlag m 0o400) = true then .ok [119, 111]
          else .error EACCES) :=
  ⟨by decide, by decide, by decide,
    WriteFile_then_ReadFile jail "a/new".toList [119, 111] 0o644 hostTree
      ["r".toList, "a".toList, "new".toList] 0 0 (by decide) (by decide) (by decide)
      (by decide) (Or.inl ⟨["r".toList, "a".toList], "new".toList, by decide, rfl⟩)⟩

/-- C3 as stated fails, each time for a non-empty relative path whose parent
directory exists in the jail `/r`: `a` names a directory, so `WriteFile` fails
with `EISDIR` and `ReadFile` does not return the bytes; `WriteFile` of the new
file `a/new` with mode 0200 succeeds while the `ReadFile` that follows fails with
`EACCES`; `ro` is a file of mode 0444, which `WriteFile` may not open
(`EACCES`); a mode with a bit outside 07777 (`os.ModeSetuid`) is refused with
`EINVAL`; `a/new/` ends in a separator (`EISDIR`); and the link `afile` leads to
a missing directory (`ENOENT`). -/
theorem WriteFile_ReadFile_not_always :
    hostTree.look ["r".toList, "a".toList] = some Node.dir ∧
    FS.WriteFile 1 jail "a".toList [119, 111] 0o600 hostTree = some (hostTree, some EISDIR) ∧
    FS.ReadFile 1 jail "a".toList hostTree = some (hostTree, .error EISDIR) ∧
    FS.WriteFile 1 jail "a/new".toList [119, 111] 0o200 hostTree = some (hostTreeNew, none) ∧
    FS.ReadFile 1 jail "a/new".toList hostTreeNew = some (hostTreeNew, .error EACCES) ∧
    FS.WriteFile 1 jail "ro".toList [119, 111] 0o644 hostTreeRO
      = some (hostTreeRO, some EACCES) ∧
    FS.WriteFile 1 jail "a/new".toList [119, 111] (2 ^ 23 + 0o644) hostTree
      = some (hostTree, some EINVAL) ∧
    FS.WriteFile 1 jail "a/new/".toList [119, 111] 0o644 hostTree
      = some (hostTree, some EISDIR) ∧
    FS.WriteFile 1 jail "afile".toList [119, 111] 0o644 hostTree
      = some (hostTree, some ENOENT) := by
  decide

/-! ## Creating directories -/

theorem walkAux_mono (look1 look2 : Loc → Option Node) (root : Loc)
    (hmono : ∀ l nd, look1 l = some nd → look2 l = some nd)
    (k1 k2 : Loc → List Name → Except Errno Found)
    (hk : ∀ cur comps l, k1 cur comps = .ok (Found.obj l) → k2 cur comps = .ok (Found.obj l)) :
    ∀ (comps : List Name) (cur l : Loc),
      walkAux look1 root k1 cur comps = .ok (Found.obj l) →
        walkAux look2 root k2 cur comps = .ok (Found.obj l) := by
  intro comps
  induction comps with
  | nil => intro cur l h; simpa [walkAux] using h
  | cons c rest ih =>
    intro cur l h
    by_cases h1 : c = ['.']
    · subst h1; rw [walkAux_dot] at h ⊢; exact ih cur l h
    · by_cases h2 : c = ['.', '.']
      · subst h2; rw [walkAux_dotdot] at h ⊢; exact ih _ l h
      · rw [walkAux_name _ _ _ _ _ _ h1 h2] at h ⊢
        cases hl : look1 (cur ++ [c]) with
        | none =>
          rw [hl] at h; simp only [] at h
          by_cases hr : rest = []
          · rw [if_pos hr] at h; cases h
          · rw [if_neg hr] at h; cases h
        | some nd =>
          rw [hl] at h
          rw [hmono _ _ hl]
          cases nd with
          | dir => exact ih _ l h
          | file m d => exact h
          | symlink t =>
            simp only [] at h ⊢
            by_cases ht : t = []
            · rw [if_pos ht] at h; cases h
            · rw [if_neg ht] at h ⊢; exact hk _ _ l h

/-- A walk that ended at an object ends at the same object after entries were
added to the tree. -/
theorem walk_mono (look1 look2 : Loc → Option Node) (root : Loc)
    (hmono : ∀ l nd, look1 l = some nd → look2 l = some nd) :
    ∀ (n : Nat) (cur : Loc) (comps : List Name) (l : Loc),
      walk look1 root n cur comps = .ok (Found.obj l) →
        walk look2 root n cur comps = .ok (Found.obj l) := by
  intro n
  induction n with
  | zero =>
    intro cur comps l h
    exact walkAux_mono look1 look2 root hmono _ _ (fun _ _ _ h => by cases h) comps cur l h
  | succ n ih =>
    intro cur comps l h
    exact walkAux_mono look1 look2 root hmono _ _ (fun cur comps l h => ih cur comps l h)
      comps cur l h

theorem Extends.refl (k : Kernel) : Extends k k := fun _ => Or.inl rfl

theorem Extends.trans {k1 k2 k3 : Kernel} (h12 : Extends k1 k2) (h23 : Extends k2 k3) :
    Extends k1 k3 := by
  intro l
  rcases h12 l with a | ⟨a1, a2⟩
  · rcases h23 l with b | ⟨b1, b2⟩
    · exact Or.inl (b.trans a)
    · exact Or.inr ⟨a ▸ b1, b2⟩
  · rcases h23 l with b | ⟨b1, b2⟩
    · exact Or.inr ⟨a1, b.trans a2⟩
    · rw [a2] at b1; cases b1

theorem Extends.mono {k1 k2 : Kernel} (h : Extends k1 k2) :
    ∀ l nd, k1.look l = some nd → k2.look l = some nd := by
  intro l nd hl
  rcases h l with a | ⟨a1, _⟩
  · rw [a, hl]
  · rw [hl] at a1; cases a1

theorem Extends.set_dir (k : Kernel) (l : Loc) (hne : l ≠ []) (habs : k.look l = none) :
    Extends k (k.set l Node.dir) := by
  intro l1
  rw [look_set _ _ _ _ hne]
  by_cases h : l1 = l
  · subst h; rw [if_pos rfl]; exact Or.inr ⟨habs, rfl⟩
  · rw [if_neg h]; exact Or.inl rfl

theorem ite_dot_ne_nil (out : Str) : (if out.length = 0 then ['.'] else out) ≠ [] := by
  by_cases h : out.length = 0
  · rw [if_pos h]; simp
  · rw [if_neg h]; intro e; apply h; rw [e]; rfl

theorem Clean_ne_nil (path : Str) : Clean path ≠ [] := by
  cases path with
  | nil => simp [Clean]
  | cons c rest => exact ite_dot_ne_nil _

theorem Dir_ne_nil (path : Str) : Dir path ≠ [] := Clean_ne_nil _

theorem validHow_parent : validHow ⟨0x290000, 0, RESOLVE_IN_ROOT⟩ = true := by decide

theorem openExisting_parent (k : Kernel) (l : Loc) (hl : k.look l = some Node.dir) :
    openExisting k 0x290000 l = (k, .ok ⟨l, 0x290000⟩) := by
  unfold openExisting
  rw [hl]
  simp only []
  rw [if_pos (by decide)]

/-- What a successful `openParentOf` found. -/
theorem openParentOf_ok (fs : FS) (name : Str) (k k1 : Kernel) (D : File) (fuel : Nat)
    (h : FS.openParentOf (fuel + 1) fs name k = some (k1, .ok D)) :
    k1 = k ∧ D = ⟨D.loc, 0x290000⟩ ∧ fs.dfd.loc <+: D.loc ∧ k.look D.loc = some Node.dir ∧
      k.look fs.dfd.loc = some Node.dir ∧
      walk k.look fs.dfd.loc 40 fs.dfd.loc (pathComps (Dir name)) = .ok (Found.obj D.loc) := by
  unfold FS.openParentOf at h
  rw [OpenFile_model, mkOpenHow_parent] at h
  simp only [Option.some.injEq] at h
  have hin := openat2_ok_inside _ _ _ _ _ _ rfl h
  obtain ⟨hv, hn, hd, ht, h5⟩ := openat2_ok _ _ _ _ _ _ h
  obtain ⟨e1, e2⟩ := resolve_inRoot ⟨0x290000, 0, RESOLVE_IN_ROOT⟩ fs.dfd (Dir name) rfl
  have e3 : openComps ⟨0x290000, 0, RESOLVE_IN_ROOT⟩ (Dir name) = pathComps (Dir name) := by
    unfold openComps; rw [if_neg (by decide)]
  rw [e1, e2, e3] at h5
  rcases h5 with ⟨parent, nm, _, hc, _, _⟩ | ⟨l, hw, hoe⟩
  · exact absurd hc (by decide)
  · obtain ⟨hf, hst, hkind⟩ := openExisting_ok _ _ _ _ _ hoe
    have hk1 : k1 = k := by
      rcases hst with ⟨hk, _⟩ | ⟨_, _, _, hx, _⟩
      · exact hk
      · exact absurd hx (by decide)
    have hdir : k.look l = some Node.dir := by
      rcases hkind with ⟨hdir, _⟩ | ⟨_, _, _, hx, _⟩
      · exact hdir
      · exact absurd hx (by decide)
    subst hf
    exact ⟨hk1, rfl, hin, hdir, hd, hw⟩

theorem openParentOf_error (fs : FS) (name : Str) (k k1 : Kernel) (e : Errno) (fuel : Nat)
    (h : FS.openParentOf (fuel + 1) fs name k = some (k1, .error e)) :
    k1 = k ∧ e ∈ [EINVAL, ENOENT, ENOTDIR, ELOOP, EISDIR, EACCES] := by
  unfold FS.openParentOf at h
  rw [OpenFile_model] at h
  simp only [Option.some.injEq] at h
  exact openat2_error_set _ _ _ _ _ _ h

/-- A parent that opened still opens, as the same directory, after entries were
added to the tree. -/
theorem openParentOf_mono (fs : FS) (name : Str) (k k2 : Kernel) (D : File) (fuel fuel2 : Nat)
    (hmono : ∀ l nd, k.look l = some nd → k2.look l = some nd)
    (h : FS.openParentOf (fuel + 1) fs name k = some (k, .ok D)) :
    FS.openParentOf (fuel2 + 1) fs name k2 = some (k2, .ok D) := by
  obtain ⟨_, hD, _, hdir, hd, hw⟩ := openParentOf_ok fs name k k D fuel h
  unfold FS.openParentOf
  rw [OpenFile_model, mkOpenHow_parent]
  have hnc : testFlag (⟨0x290000, 0, RESOLVE_IN_ROOT⟩ : OpenHow).Flags O_CREAT ≠ true := by
    decide
  rw [openat2_main k2 fs.dfd (Dir name) _ validHow_parent (Dir_ne_nil name)
    (hmono _ _ hd) (fun h => hnc h.1)]
  obtain ⟨e1, e2⟩ := resolve_inRoot ⟨0x290000, 0, RESOLVE_IN_ROOT⟩ fs.dfd (Dir name) rfl
  have e3 : openComps ⟨0x290000, 0, RESOLVE_IN_ROOT⟩ (Dir name) = pathComps (Dir name) := by
    unfold openComps; rw [if_neg (by decide)]
  rw [e1, e2, e3, walk_mono _ _ _ hmono _ _ _ _ hw]
  simp only []
  rw [openExisting_parent k2 D.loc (hmono _ _ hdir), ← hD]

/-! ## The leaf handed to `unlinkat`, `symlinkat` and `mkdirat` -/

theorem Base_cases (name : Str) :
    Base name = ['/'] ∨ (Base name ≠ [] ∧ '/' ∉ Base name) := by
  unfold Base
  by_cases h : name = []
  · rw [if_pos h]; right; decide
  · rw [if_neg h]
    simp only []
    split
    · left; rfl
    next hp =>
      right
      refine ⟨hp, ?_⟩
      intro hm
      rw [List.mem_reverse] at hm
      have := List.mem_takeWhile_imp hm
      simp [IsPathSeparator] at this

theorem splitAux_noSep (s : Str) : ∀ (acc : Str), '/' ∉ s →
    splitAux s acc = if acc ++ s = [] then [] else [acc ++ s] := by
  induction s with
  | nil => intro acc _; simp [splitAux]
  | cons c cs ih =>
    intro acc h
    have hc : c ≠ '/' := fun e => h (by simp [e])
    have hcs : '/' ∉ cs := fun e => h (List.mem_cons_of_mem _ e)
    rw [splitAux, if_neg hc, ih _ hcs]
    simp

theorem splitPath_single (s : Str) (hne : s ≠ []) (h : '/' ∉ s) : splitPath s = [s] := by
  unfold splitPath
  rw [splitAux_noSep s [] h]
  simp [hne]

theorem walk_dot (look : Loc → Option Node) (root cur : Loc) :
    walk look root 40 cur [['.']] = .ok (Found.obj cur) := by
  show walkAux look root (walk look root 39) cur [['.']] = _
  rw [walkAux_dot, walkAux]

/-- What `filename_parentat` finds for a leaf that `filepath.Base` returned: the
root for `/`, the dot kinds for `.` and `..`, and otherwise the entry of that
name in the directory of the descriptor. -/
theorem parentAt_Base_cases (k : Kernel) (D : File) (name : Str) (x : Last)
    (h : parentAt k D (Base name) = .ok x) :
    (x = Last.root ∧ Base name = ['/']) ∨ (x = Last.dot ∧ Base name = ['.']) ∨
      (x = Last.dotdot ∧ Base name = ['.', '.']) ∨
      (x = Last.norm D.loc (Base name) ∧ Base name ≠ ['/'] ∧ Base name ≠ ['.'] ∧
        Base name ≠ ['.', '.']) := by
  rcases Base_cases name with hb | ⟨hne, hns⟩
  · rw [hb] at h ⊢
    unfold parentAt at h
    rw [if_neg (by simp)] at h
    by_cases h2 : k.look D.loc = some Node.dir
    · rw [if_neg (by simp [h2])] at h
      have : (splitPath ['/']).getLast? = none := by decide
      rw [this] at h
      cases h
      exact Or.inl ⟨rfl, rfl⟩
    · rw [if_pos (by simpa using h2)] at h; cases h
  · unfold parentAt at h
    rw [if_neg hne] at h
    by_cases h2 : k.look D.loc = some Node.dir
    · rw [if_neg (by simp [h2])] at h
      rw [splitPath_single _ hne hns] at h
      have hh : (Base name).head? ≠ some '/' := by
        intro e
        apply hns
        cases hB : Base name with
        | nil => rw [hB] at e; cases e
        | cons a t => rw [hB] at e; simp at e; simp [e]
      simp only [List.getLast?_singleton, List.dropLast_single, List.nil_append] at h
      rw [if_neg hh, walk_dot] at h
      simp only [] at h
      by_cases h3 : Base name = ['.']
      · rw [if_pos h3] at h; cases h
        exact Or.inr (Or.inl ⟨rfl, h3⟩)
      · rw [if_neg h3] at h
        by_cases h4 : Base name = ['.', '.']
        · rw [if_pos h4] at h; cases h
          exact Or.inr (Or.inr (Or.inl ⟨rfl, h4⟩))
        · rw [if_neg h4] at h
          cases h
          refine Or.inr (Or.inr (Or.inr ⟨rfl, ?_, h3, h4⟩))
          intro e
          apply hns
          rw [e]; simp
    · rw [if_pos (by simpa using h2)] at h; cases h

theorem parentAt_Base (k : Kernel) (D : File) (name : Str) (p : Loc) (nm : Name)
    (h : parentAt k D (Base name) = .ok (Last.norm p nm)) :
    p = D.loc ∧ nm = Base name ∧ Base name ≠ ['/'] ∧ Base name ≠ ['.'] ∧
      Base name ≠ ['.', '.'] := by
  rcases parentAt_Base_cases k D name _ h with ⟨h1, _⟩ | ⟨h1, _⟩ | ⟨h1, _⟩ | ⟨h1, h2⟩
  · cases h1
  · cases h1
  · cases h1
  · cases h1; exact ⟨rfl, rfl, h2⟩

theorem parentAt_error_set (k : Kernel) (D : File) (leaf : Str) (e : Errno)
    (h : parentAt k D leaf = .error e) :
    e ∈ [EINVAL, ENOENT, ENOTDIR, ELOOP, EISDIR, EACCES] := by
  unfold parentAt at h
  by_cases h1 : leaf = []
  · rw [if_pos h1] at h; cases h; decide
  · rw [if_neg h1] at h
    by_cases h2 : k.look D.loc = some Node.dir
    · rw [if_neg (by simp [h2])] at h
      cases hg : (splitPath leaf).getLast? with
      | none => rw [hg] at h; cases h
      | some last =>
        rw [hg] at h
        simp only [] at h
        cases hw : walk k.look [] 40 (if leaf.head? = some '/' then [] else D.loc)
            ((splitPath leaf).dropLast ++ [['.']]) with
        | error e1 => rw [hw] at h; cases h; exact walk_error_set _ _ _ _ _ _ hw
        | ok fnd =>
          rw [hw] at h
          cases fnd with
          | absent p nm => cases h; decide
          | obj p =>
            simp only [] at h
            split_ifs at h
    · rw [if_pos (by simpa using h2)] at h; cases h; decide

/-- When `mkdirat` on a leaf that `filepath.Base` returned reports `EEXIST`, the
leaf is `/`, `.` or `..`, or an entry of that name exists in the directory. -/
theorem mkdirat_Base_eexist (k k1 : Kernel) (D : File) (name : Str) (mode : Nat)
    (h : mkdirat k D (Base name) mode = (k1, some EEXIST)) :
    Base name = ['/'] ∨ Base name = ['.'] ∨ Base name = ['.', '.'] ∨
      ∃ nd, k.look (D.loc ++ [Base name]) = some nd := by
  cases hp : parentAt k D (Base name) with
  | error e =>
    have := parentAt_error_set k D _ e hp
    unfold mkdirat at h
    rw [hp] at h
    cases h
    exact absurd this (by decide)
  | ok x =>
    rcases parentAt_Base_cases k D name x hp with
      ⟨_, h2⟩ | ⟨_, h2⟩ | ⟨_, h2⟩ | ⟨h1, _⟩
    · exact Or.inl h2
    · exact Or.inr (Or.inl h2)
    · exact Or.inr (Or.inr (Or.inl h2))
    · subst h1
      unfold mkdirat at h
      rw [hp] at h
      simp only [] at h
      cases hl : k.look (D.loc ++ [Base name]) with
      | none => rw [hl] at h; cases h
      | some nd => exact Or.inr (Or.inr (Or.inr ⟨nd, rfl⟩))

theorem Mkdir_of_parent_error (fuel : Nat) (fs : FS) (name : Str) (perm : Nat)
    (k k1 : Kernel) (e : Errno)
    (h : FS.openParentOf fuel fs name k = some (k1, .error e)) :
    FS.Mkdir fuel fs name perm k = some (k1, some e) := by
  unfold FS.Mkdir; rw [h]

theorem Mkdir_of_parent_ok (fuel : Nat) (fs : FS) (name : Str) (perm : Nat)
    (k k1 : Kernel) (D : File)
    (h : FS.openParentOf fuel fs name k = some (k1, .ok D)) :
    FS.Mkdir fuel fs name perm k = some (mkdirat k1 D (Base name) (uint32 perm)) := by
  unfold FS.Mkdir; rw [h]

theorem openParentOf_some (fs : FS) (name : Str) (k : Kernel) (fuel : Nat) :
    ∃ k1 r, FS.openParentOf (fuel + 1) fs name k = some (k1, r) := by
  unfold FS.openParentOf
  rw [OpenFile_model]
  exact ⟨_, _, rfl⟩

theorem parentAt_mono (k k2 : Kernel) (D : File) (leaf : Str) (x : Last)
    (hmono : ∀ l nd, k.look l = some nd → k2.look l = some nd)
    (h : parentAt k D leaf = .ok x) : parentAt k2 D leaf = .ok x := by
  unfold parentAt at h ⊢
  by_cases h1 : leaf = []
  · rw [if_pos h1] at h; cases h
  · rw [if_neg h1] at h ⊢
    by_cases h2 : k.look D.loc = some Node.dir
    · rw [if_neg (by simp [h2])] at h
      rw [if_neg (by simp [hmono _ _ h2])]
      cases hg : (splitPath leaf).getLast? with
      | none => rw [hg] at h; exact h
      | some last =>
        rw [hg] at h
        simp only [] at h ⊢
        cases hw : walk k.look [] 40 (if leaf.head? = some '/' then [] else D.loc)
            ((splitPath leaf).dropLast ++ [['.']]) with
        | error e => rw [hw] at h; cases h
        | ok fnd =>
          rw [hw] at h
          cases fnd with
          | absent p nm => cases h
          | obj p =>
            rw [walk_mono _ _ _ hmono _ _ _ _ hw]
            exact h
    · rw [if_pos (by simpa using h2)] at h; cases h

/-- What `mkdirat` did. -/
theorem mkdirat_inv (k : Kernel) (D : File) (leaf : Str) (mode : Nat) (k1 : Kernel)
    (r : Option Errno) (h : mkdirat k D leaf mode = (k1, r)) :
    (k1 = k ∧ r ≠ none) ∨
      (r = none ∧ ∃ p nm, parentAt k D leaf = .ok (Last.norm p nm) ∧
        k.look (p ++ [nm]) = none ∧ k1 = k.set (p ++ [nm]) Node.dir) := by
  unfold mkdirat at h
  split at h
  · cases h; exact Or.inl ⟨rfl, by simp⟩
  next p nm hp =>
    split at h
    next hl => cases h; exact Or.inr ⟨rfl, p, nm, hp, hl, rfl⟩
    next => cases h; exact Or.inl ⟨rfl, by simp⟩
  · cases h; exact Or.inl ⟨rfl, by simp⟩

theorem mkdirat_exists (k : Kernel) (D : File) (leaf : Str) (mode : Nat) (p : Loc) (nm : Name)
    (nd : Node) (hp : parentAt k D leaf = .ok (Last.norm p nm))
    (hl : k.look (p ++ [nm]) = some nd) : mkdirat k D leaf mode = (k, some EEXIST) := by
  unfold mkdirat
  rw [hp]
  simp only []
  rw [hl]

/-- The result of `FS.Mkdir`: an error with the state unchanged, or a new
directory at a name that was missing from the directory the parent opened as. -/
theorem Mkdir_inv (fs : FS) (name : Str) (perm : Nat) (k k1 : Kernel) (r : Option Errno)
    (fuel : Nat) (h : FS.Mkdir (fuel + 1) fs name perm k = some (k1, r)) :
    (k1 = k ∧ r ≠ none ∧
      (r = some EEXIST → ∃ D, FS.openParentOf (fuel + 1) fs name k = some (k, .ok D) ∧
        mkdirat k D (Base name) (uint32 perm) = (k, some EEXIST))) ∨
      (r = none ∧ ∃ D p nm, FS.openParentOf (fuel + 1) fs name k = some (k, .ok D) ∧
        parentAt k D (Base name) = .ok (Last.norm p nm) ∧ k.look (p ++ [nm]) = none ∧
        k1 = k.set (p ++ [nm]) Node.dir) := by
  obtain ⟨k0, r0, ho⟩ := openParentOf_some fs name k fuel
  cases r0 with
  | error e =>
    rw [Mkdir_of_parent_error _ _ _ _ _ _ _ ho] at h
    obtain ⟨hk, he⟩ := openParentOf_error fs name k k0 e fuel ho
    cases h
    refine Or.inl ⟨hk, by simp, ?_⟩
    intro hx
    cases hx
    exact absurd he (by decide)
  | ok D =>
    rw [Mkdir_of_parent_ok _ _ _ _ _ _ _ ho] at h
    obtain ⟨hk, _⟩ := openParentOf_ok fs name k k0 D fuel ho
    subst hk
    simp only [Option.some.injEq] at h
    rcases mkdirat_inv _ _ _ _ _ _ h with ⟨h1, h2⟩ | ⟨h1, p, nm, hp, hl, hk1⟩
    · refine Or.inl ⟨h1, h2, ?_⟩
      intro hx
      subst hx; subst h1
      exact ⟨D, ho, h⟩
    · exact Or.inr ⟨h1, D, p, nm, ho, hp, hl, hk1⟩

theorem Mkdir_extends (fs : FS) (name : Str) (perm : Nat) (k k1 : Kernel) (r : Option Errno)
    (fuel : Nat) (h : FS.Mkdir (fuel + 1) fs name perm k = some (k1, r)) : Extends k k1 := by
  rcases Mkdir_inv fs name perm k k1 r fuel h with ⟨h1, _⟩ | ⟨_, D, p, nm, _, _, hl, hk1⟩
  · rw [h1]; exact Extends.refl k
  · rw [hk1]; exact Extends.set_dir k _ (append_singleton_ne_nil p nm) hl

/-- After `FS.Mkdir` returned success or `EEXIST`, the parent opens as a
directory inside the root and `mkdirat` on the leaf reports `EEXIST`. -/
theorem Mkdir_settled (fs : FS) (name : Str) (perm : Nat) (k k1 : Kernel) (fuel : Nat)
    (h : FS.Mkdir (fuel + 1) fs name perm k = some (k1, none) ∨
      FS.Mkdir (fuel + 1) fs name perm k = some (k1, some EEXIST)) :
    ∃ D, FS.openParentOf (fuel + 1) fs name k1 = some (k1, .ok D) ∧
      fs.dfd.loc <+: D.loc ∧ k1.look D.loc = some Node.dir ∧
      mkdirat k1 D (Base name) (uint32 perm) = (k1, some EEXIST) := by
  rcases h with h | h
  · rcases Mkdir_inv fs name perm k k1 none fuel h with
      ⟨_, h2, _⟩ | ⟨_, D, p, nm, ho, hp, hl, hk1⟩
    · exact absurd rfl h2
    · have hext : Extends k k1 := by
        rw [hk1]; exact Extends.set_dir k _ (append_singleton_ne_nil p nm) hl
      have ho1 := openParentOf_mono fs name k k1 D fuel fuel hext.mono ho
      obtain ⟨_, _, hin, hdir, _, _⟩ := openParentOf_ok fs name k1 k1 D fuel ho1
      refine ⟨D, ho1, hin, hdir, ?_⟩
      refine mkdirat_exists k1 D (Base name) _ p nm Node.dir
        (parentAt_mono k k1 D _ _ hext.mono hp) ?_
      rw [hk1, look_set _ _ _ _ (append_singleton_ne_nil p nm), if_pos rfl]
  · rcases Mkdir_inv fs name perm k k1 (some EEXIST) fuel h with
      ⟨h1, _, h3⟩ | ⟨h1, _⟩
    · obtain ⟨D, ho, hm⟩ := h3 rfl
      subst h1
      obtain ⟨_, _, hin, hdir, _, _⟩ := openParentOf_ok fs name k1 k1 D fuel ho
      exact ⟨D, ho, hin, hdir, hm⟩
    · cases h1

theorem MkdirAll_rel {σ : Type} (mkdir : Str → Nat → σ → Option (σ × Option Errno))
    (R : σ → σ → Prop) (hrefl : ∀ s, R s s) (htrans : ∀ a b c, R a b → R b c → R a c)
    (hm : ∀ p m s s1 r, mkdir p m s = some (s1, r) → R s s1) :
    ∀ (fuel : Nat) (path : Str) (perm : Nat) (s s1 : σ) (r : Option Errno),
      MkdirAll mkdir fuel path perm s = some (s1, r) → R s s1 := by
  intro fuel
  induction fuel with
  | zero => intro path perm s s1 r h; simp [MkdirAll] at h
  | succ fuel ih =>
    intro path perm s s1 r h
    rw [MkdirAll] at h
    by_cases hb : path = [] ∨ path = ['.'] ∨ path = ['/']
    · rw [if_pos hb] at h; cases h; exact hrefl s
    · rw [if_neg hb] at h
      cases h1 : mkdir path perm s with
      | none => rw [h1] at h; cases h
      | some x =>
        obtain ⟨sa, err⟩ := x
        rw [h1] at h
        simp only [] at h
        have ra := hm _ _ _ _ _ h1
        by_cases he : err = none ∨ err = some EEXIST
        · rw [if_pos he] at h; cases h; exact ra
        · rw [if_neg he] at h
          cases h2 : MkdirAll mkdir fuel (Dir path) perm sa with
          | none => rw [h2] at h; cases h
          | some y =>
            obtain ⟨sb, r2⟩ := y
            rw [h2] at h
            have rb := ih _ _ _ _ _ h2
            cases r2 with
            | some e2 => cases h; exact htrans _ _ _ ra rb
            | none =>
              simp only [] at h
              cases h3 : mkdir path perm sb with
              | none => rw [h3] at h; cases h
              | some z =>
                obtain ⟨sc, r3⟩ := z
                rw [h3] at h
                have rc := hm _ _ _ _ _ h3
                cases r3 with
                | none => cases h; exact htrans _ _ _ ra (htrans _ _ _ rb rc)
                | some e3 =>
                  simp only [] at h
                  by_cases h4 : e3 = EEXIST
                  · rw [if_pos h4] at h; cases h
                    exact htrans _ _ _ ra (htrans _ _ _ rb rc)
                  · rw [if_neg h4] at h; cases h
                    exact htrans _ _ _ ra (htrans _ _ _ rb rc)

/-- A successful `MkdirAll` on a path that is not a base case ended with a call
of `mkdir` on that path that returned success or `EEXIST`. -/
theorem MkdirAll_ok_last {σ : Type} (mkdir : Str → Nat → σ → Option (σ × Option Errno))
    (fuel : Nat) (path : Str) (perm : Nat) (s s1 : σ)
    (h : MkdirAll mkdir fuel path perm s = some (s1, none)) :
    (path = [] ∨ path = ['.'] ∨ path = ['/']) ∨
      ∃ s0, mkdir path perm s0 = some (s1, none) ∨ mkdir path perm s0 = some (s1, some EEXIST) := by
  cases fuel with
  | zero => simp [MkdirAll] at h
  | succ fuel =>
    rw [MkdirAll] at h
    by_cases hb : path = [] ∨ path = ['.'] ∨ path = ['/']
    · exact Or.inl hb
    · rw [if_neg hb] at h
      right
      cases h1 : mkdir path perm s with
      | none => rw [h1] at h; cases h
      | some x =>
        obtain ⟨sa, err⟩ := x
        rw [h1] at h
        simp only [] at h
        by_cases he : err = none ∨ err = some EEXIST
        · rw [if_pos he] at h; cases h
          rcases he with he | he <;> subst he
          · exact ⟨s, Or.inl h1⟩
          · exact ⟨s, Or.inr h1⟩
        · rw [if_neg he] at h
          cases h2 : MkdirAll mkdir fuel (Dir path) perm sa with
          | none => rw [h2] at h; cases h
          | some y =>
            obtain ⟨sb, r2⟩ := y
            rw [h2] at h
            cases r2 with
            | some e2 => cases h
            | none =>
              simp only [] at h
              cases h3 : mkdir path perm sb with
              | none => rw [h3] at h; cases h
              | some z =>
                obtain ⟨sc, r3⟩ := z
                rw [h3] at h
                cases r3 with
                | none => cases h; exact ⟨sb, Or.inl h3⟩
                | some e3 =>
                  simp only [] at h
                  by_cases h4 : e3 = EEXIST
                  · rw [if_pos h4] at h; cases h
                    exact ⟨sb, Or.inr (h4 ▸ h3)⟩
                  · rw [if_neg h4] at h; cases h

/-- C6 (amended): if `MkdirAll(P, mode)` returns success, then nothing that
existed was changed and every entry it added is a directory; and unless `P` is
the empty path, `.` or `/`, afterwards the parent `Dir(P)` opens as a directory
`D` inside the root and `mkdirat` of the leaf `Base(P)` in it reports `EEXIST`:
unless the leaf is `/`, `.` or `..`, an entry of that name exists in `D`, the
directory `MkdirAll` made or whatever (a directory, a regular file, a symbolic
link) had the name before. -/
theorem MkdirAll_success (fs : FS) (path : Str) (perm : Nat) (k k1 : Kernel) (fuel : Nat)
    (h : FS.MkdirAll (fuel + 1) fs path perm k = some (k1, none)) :
    Extends k k1 ∧
      ((path = [] ∨ path = ['.'] ∨ path = ['/']) ∨
        ∃ D, FS.openParentOf (fuel + 1) fs path k1 = some (k1, .ok D) ∧
          fs.dfd.loc <+: D.loc ∧ k1.look D.loc = some Node.dir ∧
          mkdirat k1 D (Base path) (uint32 perm) = (k1, some EEXIST) ∧
          (Base path = ['/'] ∨ Base path = ['.'] ∨ Base path = ['.', '.'] ∨
            ∃ nd, k1.look (D.loc ++ [Base path]) = some nd ∧
              (nd = Node.dir ∨ k.look (D.loc ++ [Base path]) = some nd))) := by
  unfold FS.MkdirAll at h
  have hext : Extends k k1 :=
    MkdirAll_rel (FS.Mkdir (fuel + 1) fs) Extends Extends.refl
      (fun _ _ _ h1 h2 => Extends.trans h1 h2)
      (fun p m s s1 r hm => Mkdir_extends fs p m s s1 r fuel hm) _ _ _ _ _ _ h
  refine ⟨hext, ?_⟩
  rcases MkdirAll_ok_last (FS.Mkdir (fuel + 1) fs) _ path perm k k1 h with hb | ⟨s0, hs⟩
  · exact Or.inl hb
  · obtain ⟨D, ho, hin, hdir, hm⟩ := Mkdir_settled fs path perm s0 k1 fuel hs
    refine Or.inr ⟨D, ho, hin, hdir, hm, ?_⟩
    rcases mkdirat_Base_eexist k1 k1 D path _ hm with h1 | h1 | h1 | ⟨nd, hnd⟩
    · exact Or.inl h1
    · exact Or.inr (Or.inl h1)
    · exact Or.inr (Or.inr (Or.inl h1))
    · refine Or.inr (Or.inr (Or.inr ⟨nd, hnd, ?_⟩))
      rcases hext (D.loc ++ [Base path]) with e | ⟨_, e⟩
      · right; rw [← e, hnd]
      · left; rw [hnd] at e; cases e; rfl

/-- C6 (amended), in the jail `/r`: `MkdirAll("x/y")` makes `x` and `x/y`, after
which `x` opens as a directory and `mkdirat` of `y` in it reports `EEXIST`. -/
theorem MkdirAll_success_witness :
    FS.MkdirAll 1 jail "x/y".toList 0o700 hostTree = some (hostTreeXY, none) ∧
    Extends hostTree hostTreeXY ∧
      (("x/y".toList = [] ∨ "x/y".toList = ['.'] ∨ "x/y".toList = ['/']) ∨
        ∃ D, FS.openParentOf 1 jail "x/y".toList hostTreeXY = some (hostTreeXY, .ok D) ∧
          jail.dfd.loc <+: D.loc ∧ hostTreeXY.look D.loc = some Node.dir ∧
          mkdirat hostTreeXY D (Base "x/y".toList) (uint32 0o700)
            = (hostTreeXY, some EEXIST) ∧
          (Base "x/y".toList = ['/'] ∨ Base "x/y".toList = ['.'] ∨
            Base "x/y".toList = ['.', '.'] ∨
            ∃ nd, hostTreeXY.look (D.loc ++ [Base "x/y".toList]) = some nd ∧
              (nd = Node.dir ∨ hostTree.look (D.loc ++ [Base "x/y".toList]) = some nd))) :=
  have h : FS.MkdirAll 1 jail "x/y".toList 0o700 hostTree = some (hostTreeXY, none) := by
    decide
  ⟨h, MkdirAll_success jail "x/y".toList 0o700 hostTree hostTreeXY 0 h⟩

/-- C6 as stated fails: in the jail `/r`, `f` is a regular file; `MkdirAll("f")`
returns success, changes nothing, and afterwards `f` is still a regular file, not
a directory. -/
theorem MkdirAll_nil_on_regular_file :
    FS.MkdirAll 1 jail "f".toList 0o700 hostTree = some (hostTree, none) ∧
    hostTree.look ["r".toList, "f".toList] = some (Node.file 0o644 [106, 97, 105, 108]) ∧
    FS.Stat 1 jail "f".toList hostTree = some (hostTree, .ok ⟨false, 4, 0o644⟩) := by
  decide

/-! ## The leaf handed to `unlinkat`, `symlinkat` and `mkdirat`: what changes -/

theorem symlinkat_inv (k : Kernel) (old : Str) (D : File) (leaf : Str) (k1 : Kernel)
    (r : Option Errno) (h : symlinkat k old D leaf = (k1, r)) :
    k1 = k ∨ ∃ p nm, parentAt k D leaf = .ok (Last.norm p nm) ∧
      k1 = k.set (p ++ [nm]) (Node.symlink old) := by
  unfold symlinkat at h
  by_cases h0 : old = []
  · rw [if_pos h0] at h; cases h; exact Or.inl rfl
  · rw [if_neg h0] at h
    split at h
    · cases h; exact Or.inl rfl
    next p nm hp =>
      split at h
      next hl =>
        split_ifs at h
        · cases h; exact Or.inl rfl
        · cases h; exact Or.inr ⟨p, nm, hp, rfl⟩
      next => cases h; exact Or.inl rfl
    · cases h; exact Or.inl rfl

theorem unlinkat_inv (k : Kernel) (D : File) (leaf : Str) (flags : Nat) (k1 : Kernel)
    (r : Option Errno) (h : unlinkat k D leaf flags = (k1, r)) :
    (k1 = k ∧ r ≠ none) ∨
      (r = none ∧ ∃ p nm, parentAt k D leaf = .ok (Last.norm p nm) ∧
        k1 = k.del (p ++ [nm])) := by
  unfold unlinkat at h
  by_cases hf : flags = AT_REMOVEDIR
  · rw [if_pos hf] at h
    split at h
    · cases h; exact Or.inl ⟨rfl, by simp⟩
    · cases h; exact Or.inl ⟨rfl, by simp⟩
    · cases h; exact Or.inl ⟨rfl, by simp⟩
    · cases h; exact Or.inl ⟨rfl, by simp⟩
    next p nm hp =>
      split at h
      · cases h; exact Or.inl ⟨rfl, by simp⟩
      · split_ifs at h
        · cases h; exact Or.inr ⟨rfl, p, nm, hp, rfl⟩
        · cases h; exact Or.inl ⟨rfl, by simp⟩
      · cases h; exact Or.inl ⟨rfl, by simp⟩
  · rw [if_neg hf] at h
    by_cases hz : flags = 0
    · rw [if_pos hz] at h
      split at h
      · cases h; exact Or.inl ⟨rfl, by simp⟩
      next p nm hp =>
        split at h
        · cases h; exact Or.inl ⟨rfl, by simp⟩
        · cases h; exact Or.inl ⟨rfl, by simp⟩
        · split_ifs at h
          · cases h; exact Or.inl ⟨rfl, by simp⟩
          · cases h; exact Or.inr ⟨rfl, p, nm, hp, rfl⟩
      · cases h; exact Or.inl ⟨rfl, by simp⟩
    · rw [if_neg hz] at h
      cases h; exact Or.inl ⟨rfl, by simp⟩

theorem Symlink_of_parent_error (fuel : Nat) (fs : FS) (oldname newname : Str)
    (k k1 : Kernel) (e : Errno)
    (h : FS.openParentOf fuel fs newname k = some (k1, .error e)) :
    FS.Symlink fuel fs oldname newname k = some (k1, some e) := by
  unfold FS.Symlink; rw [h]

theorem Symlink_of_parent_ok (fuel : Nat) (fs : FS) (oldname newname : Str)
    (k k1 : Kernel) (D : File)
    (h : FS.openParentOf fuel fs newname k = some (k1, .ok D)) :
    FS.Symlink fuel fs oldname newname k = some (symlinkat k1 oldname D (Base newname)) := by
  unfold FS.Symlink; rw [h]

theorem Remove_of_parent_error (fuel : Nat) (fs : FS) (name : Str)
    (k k1 : Kernel) (e : Errno)
    (h : FS.openParentOf fuel fs name k = some (k1, .error e)) :
    FS.Remove fuel fs name k = some (k1, some e) := by
  unfold FS.Remove; rw [h]

theorem Remove_of_parent_ok (fuel : Nat) (fs : FS) (name : Str)
    (k k1 : Kernel) (D : File)
    (h : FS.openParentOf fuel fs name k = some (k1, .ok D)) :
    FS.Remove fuel fs name k =
      match unlinkat k1 D (Base name) 0 with
      | (k2, some _) => some (unlinkat k2 D (Base name) AT_REMOVEDIR)
      | (k2, none) => some (k2, none) := by
  unfold FS.Remove; rw [h]

theorem leafFrame_of_change (fs : FS) (name : Str) (k k1 : Kernel) (D : File) (fuel : Nat)
    (p : Loc) (nm : Name)
    (ho : FS.openParentOf (fuel + 1) fs name k = some (k, .ok D))
    (hp : parentAt k D (Base name) = .ok (Last.norm p nm))
    (hk : ∀ l, l ≠ p ++ [nm] → k1.look l = k.look l) : LeafFrame fuel fs name k k1 := by
  obtain ⟨_, _, hin, hdir, _, _⟩ := openParentOf_ok fs name k k D fuel ho
  obtain ⟨e1, e2, h1, h2, h3⟩ := parentAt_Base k D name p nm hp
  subst e1; subst e2
  exact Or.inr ⟨D, ho, hin, hdir, h1, h2, h3, hk⟩

theorem Mkdir_leafFrame (fs : FS) (name : Str) (perm : Nat) (k k1 : Kernel)
    (r : Option Errno) (fuel : Nat)
    (h : FS.Mkdir (fuel + 1) fs name perm k = some (k1, r)) : LeafFrame fuel fs name k k1 := by
  rcases Mkdir_inv fs name perm k k1 r fuel h with ⟨h1, _⟩ | ⟨_, D, p, nm, ho, hp, _, hk1⟩
  · exact Or.inl h1
  · refine leafFrame_of_change fs name k k1 D fuel p nm ho hp ?_
    intro l hl
    rw [hk1, look_set _ _ _ _ (append_singleton_ne_nil p nm), if_neg hl]

theorem Symlink_leafFrame (fs : FS) (oldname name : Str) (k k1 : Kernel)
    (r : Option Errno) (fuel : Nat)
    (h : FS.Symlink (fuel + 1) fs oldname name k = some (k1, r)) :
    LeafFrame fuel fs name k k1 := by
  obtain ⟨k0, r0, ho⟩ := openParentOf_some fs name k fuel
  cases r0 with
  | error e =>
    rw [Symlink_of_parent_error _ _ _ _ _ _ _ ho] at h
    obtain ⟨hk, _⟩ := openParentOf_error fs name k k0 e fuel ho
    cases h
    exact Or.inl hk
  | ok D =>
    rw [Symlink_of_parent_ok _ _ _ _ _ _ _ ho] at h
    obtain ⟨hk, _⟩ := openParentOf_ok fs name k k0 D fuel ho
    subst hk
    simp only [Option.some.injEq] at h
    rcases symlinkat_inv _ _ _ _ _ _ h with h1 | ⟨p, nm, hp, hk1⟩
    · exact Or.inl h1
    · refine leafFrame_of_change fs name k0 k1 D fuel p nm ho hp ?_
      intro l hl
      rw [hk1, look_set _ _ _ _ (append_singleton_ne_nil p nm), if_neg hl]

theorem Remove_leafFrame (fs : FS) (name : Str) (k k1 : Kernel)
    (r : Option Errno) (fuel : Nat)
    (h : FS.Remove (fuel + 1) fs name k = some (k1, r)) : LeafFrame fuel fs name k k1 := by
  obtain ⟨k0, r0, ho⟩ := openParentOf_some fs name k fuel
  cases r0 with
  | error e =>
    rw [Remove_of_parent_error _ _ _ _ _ _ ho] at h
    obtain ⟨hk, _⟩ := openParentOf_error fs name k k0 e fuel ho
    cases h
    exact Or.inl hk
  | ok D =>
    rw [Remove_of_parent_ok _ _ _ _ _ _ ho] at h
    obtain ⟨hk, _⟩ := openParentOf_ok fs name k k0 D fuel ho
    subst hk
    cases hu : unlinkat k0 D (Base name) 0 with
    | mk k2 r2 =>
      rw [hu] at h
      rcases unlinkat_inv _ _ _ _ _ _ hu with ⟨h1, h2⟩ | ⟨h1, p, nm, hp, hk2⟩
      · subst h1
        cases r2 with
        | none => exact absurd rfl h2
        | some e2 =>
          simp only [Option.some.injEq] at h
          rcases unlinkat_inv _ _ _ _ _ _ h with ⟨h3, _⟩ | ⟨_, p, nm, hp, hk1⟩
          · exact Or.inl h3
          · refine leafFrame_of_change fs name k2 k1 D fuel p nm ho hp ?_
            intro l hl
            rw [hk1, look_del _ _ _ (append_singleton_ne_nil p nm), if_neg hl]
      · subst h1
        simp only [Option.some.injEq, Prod.mk.injEq] at h
        refine leafFrame_of_change fs name k0 k1 D fuel p nm ho hp ?_
        intro l hl
        rw [← h.1, hk2, look_del _ _ _ (append_singleton_ne_nil p nm), if_neg hl]

/-- C8 (amended): `filepath.Base(name)` is `/` or a non-empty string without a
separator, which may be `.` or `..`; `Mkdir`, `Symlink` and `Remove` change
nothing when it is `/`, `.` or `..`, and otherwise change at most the one entry
of that name in the directory that `FS.openParentOf(name)` returned, which lies
inside the root. -/
theorem leaf_touches_one_entry (name : Str) :
    (Base name = ['/'] ∨ (Base name ≠ [] ∧ '/' ∉ Base name)) ∧
    (∀ fuel fs perm k k1 r,
      FS.Mkdir (fuel + 1) fs name perm k = some (k1, r) → LeafFrame fuel fs name k k1) ∧
    (∀ fuel fs oldname k k1 r,
      FS.Symlink (fuel + 1) fs oldname name k = some (k1, r) → LeafFrame fuel fs name k k1) ∧
    (∀ fuel fs k k1 r,
      FS.Remove (fuel + 1) fs name k = some (k1, r) → LeafFrame fuel fs name k k1) :=
  ⟨Base_cases name,
    fun fuel fs perm k k1 r h => Mkdir_leafFrame fs name perm k k1 r fuel h,
    fun fuel fs oldname k k1 r h => Symlink_leafFrame fs oldname name k k1 r fuel h,
    fun fuel fs k k1 r h => Remove_leafFrame fs name k k1 r fuel h⟩

/-- C8 (amended), in the jail `/r`: removing `a/file` changes at most the entry
`file` of the directory `a`, which is what `openParentOf("a/file")` returns. -/
theorem leaf_touches_one_entry_witness :
    FS.Remove 1 jail "a/file".toList hostTree
      = some (hostTree.del ["r".toList, "a".toList, "file".toList], none) ∧
    FS.openParentOf 1 jail "a/file".toList hostTree
      = some (hostTree, .ok ⟨["r".toList, "a".toList], 0x290000⟩) ∧
    LeafFrame 0 jail "a/file".toList hostTree
      (hostTree.del ["r".toList, "a".toList, "file".toList]) :=
  have h : FS.Remove 1 jail "a/file".toList hostTree
      = some (hostTree.del ["r".toList, "a".toList, "file".toList], none) := by decide
  ⟨h, by decide, (leaf_touches_one_entry "a/file".toList).2.2.2 0 jail hostTree _ none h⟩

/-- C8 as stated fails: the leaf of `..` and of `a/..` is `..`, and the leaf of
`/` is `/`, which is a separator and an absolute path; `Mkdir` hands them to
`mkdirat`, which answers `EEXIST`. -/
theorem Base_may_be_dotdot_or_root :
    Base "..".toList = "..".toList ∧ Base "a/..".toList = "..".toList ∧
    Base "/".toList = "/".toList ∧ '/' ∈ Base "/".toList ∧
    FS.Mkdir 1 jail "..".toList 0o700 hostTree = some (hostTree, some EEXIST) ∧
    FS.Mkdir 1 jail "/".toList 0o700 hostTree = some (hostTree, some EEXIST) := by
  decide

/-! ## The trailing separator -/

/-- Effect of the trailing separator on `Remove`: in the jail `/r`, `e` is an
empty directory and `e/` names it (`Stat` succeeds), but `Remove("e/")` fails with `ENOENT` and
removes nothing, because it looks for an entry `e` inside `e`; `Remove("e")`
succeeds and a `Stat("e")` that follows fails with `ENOENT`. -/
theorem Remove_trailing_separator :
    hostTree.look ["r".toList, "e".toList] = some Node.dir ∧
    hostTree.isEmptyDir ["r".toList, "e".toList] = true ∧
    FS.Stat 1 jail "e/".toList hostTree = some (hostTree, .ok ⟨true, 0, 0⟩) ∧
    FS.Remove 1 jail "e/".toList hostTree = some (hostTree, some ENOENT) ∧
    FS.Remove 1 jail "e".toList hostTree
      = some (hostTree.del ["r".toList, "e".toList], none) ∧
    FS.Stat 1 jail "e".toList (hostTree.del ["r".toList, "e".toList])
      = some (hostTree.del ["r".toList, "e".toList], .error ENOENT) := by
  decide

/-- Effect of the trailing separator on `MkdirAll`: in the jail `/r`, which has
no `x`, `MkdirAll("x/")` succeeds and makes the directory `x` and also a directory `x/x`, although
`filepath.Clean` of `x/` is `x`. -/
theorem MkdirAll_trailing_separator :
    Clean "x/".toList = "x".toList ∧
    hostTree.look ["r".toList, "x".toList] = none ∧
    FS.MkdirAll 1 jail "x/".toList 0o700 hostTree = some (hostTreeXX, none) ∧
    hostTreeXX.look ["r".toList, "x".toList] = some Node.dir ∧
    hostTreeXX.look ["r".toList, "x".toList, "x".toList] = some Node.dir ∧
    FS.MkdirAll 1 jail "x".toList 0o700 hostTree
      = some (hostTree.set ["r".toList, "x".toList] Node.dir, none) := by
  decide

/-! ## `MkdirAll` is idempotent and adds only directories -/

theorem openParentOf_fuel (fs : FS) (name : Str) (k : Kernel) (fuel fuel2 : Nat) :
    FS.openParentOf (fuel + 1) fs name k = FS.openParentOf (fuel2 + 1) fs name k := by
  unfold FS.openParentOf
  rw [OpenFile_model, OpenFile_model]

theorem Mkdir_fuel (fs : FS) (name : Str) (perm : Nat) (k : Kernel) (fuel fuel2 : Nat) :
    FS.Mkdir (fuel + 1) fs name perm k = FS.Mkdir (fuel2 + 1) fs name perm k := by
  obtain ⟨k0, r0, ho⟩ := openParentOf_some fs name k fuel
  have ho2 : FS.openParentOf (fuel2 + 1) fs name k = some (k0, r0) := by
    rw [← openParentOf_fuel fs name k fuel fuel2]; exact ho
  cases r0 with
  | error e =>
    rw [Mkdir_of_parent_error _ _ _ _ _ _ _ ho, Mkdir_of_parent_error _ _ _ _ _ _ _ ho2]
  | ok D =>
    rw [Mkdir_of_parent_ok _ _ _ _ _ _ _ ho, Mkdir_of_parent_ok _ _ _ _ _ _ _ ho2]

theorem Mkdir_eexist_of_settled (fs : FS) (name : Str) (perm : Nat) (k : Kernel) (D : File)
    (fuel : Nat) (ho : FS.openParentOf (fuel + 1) fs name k = some (k, .ok D))
    (hm : mkdirat k D (Base name) (uint32 perm) = (k, some EEXIST)) :
    FS.Mkdir (fuel + 1) fs name perm k = some (k, some EEXIST) := by
  rw [Mkdir_of_parent_ok _ _ _ _ _ _ _ ho, hm]

theorem MkdirAll_of_eexist {σ : Type} (mkdir : Str → Nat → σ → Option (σ × Option Errno))
    (fuel : Nat) (path : Str) (perm : Nat) (s : σ)
    (h : mkdir path perm s = some (s, some EEXIST)) :
    MkdirAll mkdir (fuel + 1) path perm s = some (s, none) := by
  rw [MkdirAll]
  by_cases hb : path = [] ∨ path = ['.'] ∨ path = ['/']
  · rw [if_pos hb]
  · rw [if_neg hb, h]
    simp

theorem MkdirAll_of_base {σ : Type} (mkdir : Str → Nat → σ → Option (σ × Option Errno))
    (fuel : Nat) (path : Str) (perm : Nat) (s : σ)
    (hb : path = [] ∨ path = ['.'] ∨ path = ['/']) :
    MkdirAll mkdir (fuel + 1) path perm s = some (s, none) := by
  rw [MkdirAll, if_pos hb]

theorem changedAtLeaves_refl (fuel : Nat) (fs : FS) (path : Str) (k : Kernel) :
    ChangedAtLeaves fuel fs path k k := fun _ h => absurd rfl h

theorem changedAtLeaves_trans {fuel : Nat} {fs : FS} {path : Str} {k1 k2 k3 : Kernel}
    (h12 : ChangedAtLeaves fuel fs path k1 k2) (h23 : ChangedAtLeaves fuel fs path k2 k3)
    (hext : Extends k2 k3) : ChangedAtLeaves fuel fs path k1 k3 := by
  intro l hl
  by_cases h : k3.look l = k2.look l
  · obtain ⟨i, D, ho, e⟩ := h12 l (by rw [← h]; exact hl)
    exact ⟨i, D, openParentOf_mono fs _ k2 k3 D fuel fuel hext.mono ho, e⟩
  · exact h23 l h

theorem changedAtLeaves_of_leaf {fuel : Nat} {fs : FS} {path : Str} {k k1 : Kernel}
    (h : LeafFrame fuel fs path k k1) (hext : Extends k k1) :
    ChangedAtLeaves fuel fs path k k1 := by
  intro l hl
  rcases h with h | ⟨D, ho, _, _, _, _, _, hframe⟩
  · rw [h] at hl; exact absurd rfl hl
  · refine ⟨0, D, openParentOf_mono fs path k k1 D fuel fuel hext.mono ho, ?_⟩
    by_contra hne
    exact hl (hframe l hne)

theorem changedAtLeaves_of_dir {fuel : Nat} {fs : FS} {path : Str} {k k1 : Kernel}
    (h : ChangedAtLeaves fuel fs (Dir path) k k1) : ChangedAtLeaves fuel fs path k k1 := by
  intro l hl
  obtain ⟨i, D, ho, e⟩ := h l hl
  refine ⟨i + 1, D, ?_, ?_⟩
  · rw [Function.iterate_succ_apply]; exact ho
  · rw [Function.iterate_succ_apply]; exact e

theorem MkdirAll_extends (fs : FS) (fuel0 fuel : Nat) (path : Str) (perm : Nat)
    (k k1 : Kernel) (r : Option Errno)
    (h : MkdirAll (FS.Mkdir (fuel0 + 1) fs) fuel path perm k = some (k1, r)) :
    Extends k k1 :=
  MkdirAll_rel (FS.Mkdir (fuel0 + 1) fs) Extends Extends.refl
    (fun _ _ _ h1 h2 => Extends.trans h1 h2)
    (fun p m s s1 r hm => Mkdir_extends fs p m s s1 r fuel0 hm) _ _ _ _ _ _ h

theorem MkdirAll_changedAtLeaves (fs : FS) (fuel0 : Nat) :
    ∀ (fuel : Nat) (path : Str) (perm : Nat) (k k1 : Kernel) (r : Option Errno),
      MkdirAll (FS.Mkdir (fuel0 + 1) fs) fuel path perm k = some (k1, r) →
        ChangedAtLeaves fuel0 fs path k k1 := by
  intro fuel
  induction fuel with
  | zero => intro path perm k k1 r h; simp [MkdirAll] at h
  | succ fuel ih =>
    intro path perm k k1 r h
    rw [MkdirAll] at h
    by_cases hb : path = [] ∨ path = ['.'] ∨ path = ['/']
    · rw [if_pos hb] at h; cases h; exact changedAtLeaves_refl fuel0 fs path k
    · rw [if_neg hb] at h
      cases h1 : FS.Mkdir (fuel0 + 1) fs path perm k with
      | none => rw [h1] at h; cases h
      | some x =>
        obtain ⟨sa, err⟩ := x
        rw [h1] at h
        simp only [] at h
        have ea : Extends k sa := Mkdir_extends fs path perm k sa err fuel0 h1
        have ra : ChangedAtLeaves fuel0 fs path k sa :=
          changedAtLeaves_of_leaf (Mkdir_leafFrame fs path perm k sa err fuel0 h1) ea
        by_cases he : err = none ∨ err = some EEXIST
        · rw [if_pos he] at h; cases h; exact ra
        · rw [if_neg he] at h
          cases h2 : MkdirAll (FS.Mkdir (fuel0 + 1) fs) fuel (Dir path) perm sa with
          | none => rw [h2] at h; cases h
          | some y =>
            obtain ⟨sb, r2⟩ := y
            rw [h2] at h
            have eb : Extends sa sb := MkdirAll_extends fs fuel0 fuel _ perm sa sb r2 h2
            have rb : ChangedAtLeaves fuel0 fs path sa sb :=
              changedAtLeaves_of_dir (ih _ _ _ _ _ h2)
            have rab : ChangedAtLeaves fuel0 fs path k sb := changedAtLeaves_trans ra rb eb
            cases r2 with
            | some e2 => cases h; exact rab
            | none =>
              simp only [] at h
              cases h3 : FS.Mkdir (fuel0 + 1) fs path perm sb with
              | none => rw [h3] at h; cases h
              | some z =>
                obtain ⟨sc, r3⟩ := z
                rw [h3] at h
                have ec : Extends sb sc := Mkdir_extends fs path perm sb sc r3 fuel0 h3
                have rc : ChangedAtLeaves fuel0 fs path sb sc :=
                  changedAtLeaves_of_leaf (Mkdir_leafFrame fs path perm sb sc r3 fuel0 h3) ec
                have rabc : ChangedAtLeaves fuel0 fs path k sc :=
                  changedAtLeaves_trans rab rc ec
                cases r3 with
                | none => cases h; exact rabc
                | some e3 =>
                  simp only [] at h
                  by_cases h4 : e3 = EEXIST
                  · rw [if_pos h4] at h; cases h; exact rabc
                  · rw [if_neg h4] at h; cases h; exact rabc

/-- A path that does not end in a separator is what `filepath.Dir` cleans,
followed by `filepath.Base` of it: the pair splits the path at its last
separator. -/
theorem Dir_Base_split (path : Str) (hne : path ≠ []) (hsep : path.getLast? ≠ some '/') :
    ∃ A, path = A ++ Base path ∧ Dir path = Clean A := by
  refine ⟨(path.reverse.dropWhile (fun x => !IsPathSeparator x)).reverse, ?_, rfl⟩
  have hr : path.reverse ≠ [] := by simpa using hne
  obtain ⟨c, t, hct⟩ := List.exists_cons_of_ne_nil hr
  have hc : c ≠ '/' := by
    intro e
    apply hsep
    rw [← List.head?_reverse, hct, e]
    rfl
  have hd : path.reverse.dropWhile IsPathSeparator = path.reverse := by
    rw [hct]
    exact List.dropWhile_cons_of_neg (by simp [IsPathSeparator, hc])
  have htk : path.reverse.takeWhile (fun x => !IsPathSeparator x) ≠ [] := by
    rw [hct, List.takeWhile_cons_of_pos (by simp [IsPathSeparator, hc])]
    simp
  have hb : Base path = (path.reverse.takeWhile (fun x => !IsPathSeparator x)).reverse := by
    unfold Base
    rw [if_neg hne]
    simp only [hd, List.reverse_reverse]
    rw [if_neg (by simpa using htk)]
  rw [hb, ← List.reverse_append, List.takeWhile_append_dropWhile, List.reverse_reverse]

/-- C5 (amended): for a path `P` that does not end in a separator, `MkdirAll` is
idempotent: a `MkdirAll(P)` that succeeds is followed by a second `MkdirAll(P)`
that also succeeds and leaves the filesystem unchanged.  The first call changes
nothing that existed, and what it adds are directories at names that were
missing, each of them the entry `Base(Q)` of the directory that
`FS.openParentOf(Q)` returns, for a path `Q` among `P`, `Dir(P)`,
`Dir(Dir(P))`, ...: no entry is added or changed anywhere else.  Unless `P` is
the empty path, `.` or `/`, or its leaf is `.` or `..`, afterwards the entry
`Base(P)` of the directory `FS.openParentOf(P)` returns exists: a directory, or
the non-directory that had the name before.  The pair splits `P` at its last
separator: `P` is a string `A` followed by `Base(P)`, and `Dir(P)` is
`Clean(A)`. -/
theorem MkdirAll_idempotent (fs : FS) (path : Str) (perm : Nat) (k k1 : Kernel)
    (fuel fuel2 : Nat) (hsep : path.getLast? ≠ some '/')
    (h : FS.MkdirAll (fuel + 1) fs path perm k = some (k1, none)) :
    FS.MkdirAll (fuel2 + 1) fs path perm k1 = some (k1, none) ∧
      Extends k k1 ∧ ChangedAtLeaves fuel fs path k k1 ∧
      ((path = [] ∨ path = ['.'] ∨ path = ['/']) ∨
        Base path = ['.'] ∨ Base path = ['.', '.'] ∨
        ∃ D nd, FS.openParentOf (fuel + 1) fs path k1 = some (k1, .ok D) ∧
          k1.look (D.loc ++ [Base path]) = some nd ∧
          (nd = Node.dir ∨ (nd ≠ Node.dir ∧ k.look (D.loc ++ [Base path]) = some nd))) ∧
      (path = [] ∨ ∃ A, path = A ++ Base path ∧ Dir path = Clean A) := by
  have hsplit : path = [] ∨ ∃ A, path = A ++ Base path ∧ Dir path = Clean A := by
    by_cases hne : path = []
    · exact Or.inl hne
    · exact Or.inr (Dir_Base_split path hne hsep)
  unfold FS.MkdirAll at h ⊢
  have hext : Extends k k1 := MkdirAll_extends fs fuel _ path perm k k1 none h
  refine ⟨?_, hext, MkdirAll_changedAtLeaves fs fuel _ path perm k k1 none h, ?_, hsplit⟩
  · rcases MkdirAll_ok_last (FS.Mkdir (fuel + 1) fs) _ path perm k k1 h with hb | ⟨s0, hs⟩
    · exact MkdirAll_of_base _ _ _ _ _ hb
    · obtain ⟨D, ho, _, _, hm⟩ := Mkdir_settled fs path perm s0 k1 fuel hs
      apply MkdirAll_of_eexist
      rw [Mkdir_fuel fs path perm k1 fuel2 fuel]
      exact Mkdir_eexist_of_settled fs path perm k1 D fuel ho hm
  · rcases MkdirAll_ok_last (FS.Mkdir (fuel + 1) fs) _ path perm k k1 h with hb | ⟨s0, hs⟩
    · exact Or.inl hb
    · obtain ⟨D, ho, _, _, hm⟩ := Mkdir_settled fs path perm s0 k1 fuel hs
      rcases mkdirat_Base_eexist k1 k1 D path _ hm with h1 | h1 | h1 | ⟨nd, hnd⟩
      · rcases hsplit with hp | ⟨A, hA, _⟩
        · exact Or.inl (Or.inl hp)
        · left; right; right
          have hl : path.getLast? = some '/' := by
            rw [hA, h1]; simp
          exact absurd hl hsep
      · exact Or.inr (Or.inl h1)
      · exact Or.inr (Or.inr (Or.inl h1))
      · refine Or.inr (Or.inr (Or.inr ⟨D, nd, ho, hnd, ?_⟩))
        by_cases hdir : nd = Node.dir
        · exact Or.inl hdir
        · right
          refine ⟨hdir, ?_⟩
          rcases hext (D.loc ++ [Base path]) with e | ⟨_, e⟩
          · rw [← e, hnd]
          · rw [hnd] at e; cases e; exact absurd rfl hdir

/-- C5 (amended), in the jail `/r`: after `MkdirAll("x/y")` made `x` and `x/y`, a
second `MkdirAll("x/y")` succeeds and changes nothing. -/
theorem MkdirAll_idempotent_witness :
    FS.MkdirAll 1 jail "x/y".toList 0o700 hostTree = some (hostTreeXY, none) ∧
    FS.MkdirAll 1 jail "x/y".toList 0o700 hostTreeXY = some (hostTreeXY, none) ∧
    Extends hostTree hostTreeXY ∧ ChangedAtLeaves 0 jail "x/y".toList hostTree hostTreeXY ∧
      (("x/y".toList = [] ∨ "x/y".toList = ['.'] ∨ "x/y".toList = ['/']) ∨
        Base "x/y".toList = ['.'] ∨ Base "x/y".toList = ['.', '.'] ∨
        ∃ D nd, FS.openParentOf 1 jail "x/y".toList hostTreeXY = some (hostTreeXY, .ok D) ∧
          hostTreeXY.look (D.loc ++ [Base "x/y".toList]) = some nd ∧
          (nd = Node.dir ∨
            (nd ≠ Node.dir ∧ hostTree.look (D.loc ++ [Base "x/y".toList]) = some nd))) ∧
      ("x/y".toList = [] ∨
        ∃ A, "x/y".toList = A ++ Base "x/y".toList ∧ Dir "x/y".toList = Clean A) :=
  have h : FS.MkdirAll 1 jail "x/y".toList 0o700 hostTree = some (hostTreeXY, none) := by
    decide
  ⟨h, MkdirAll_idempotent jail "x/y".toList 0o700 hostTree hostTreeXY 0 0 (by decide) h⟩

/-- C5 as stated fails: in the jail `/r`, `afile` is a symbolic link whose target
is missing inside the jail; `MkdirAll("afile")` succeeds and changes nothing, so
no directory exists afterwards at `filepath.Clean("afile")`, which is `afile`:
the link is still there and `Stat` fails with `ENOENT`. -/
theorem MkdirAll_nil_on_dangling_link :
    Clean "afile".toList = "afile".toList ∧
    FS.MkdirAll 1 jail "afile".toList 0o700 hostTree = some (hostTree, none) ∧
    hostTree.look ["r".toList, "afile".toList] = some (Node.symlink "/out/secret".toList) ∧
    FS.Stat 1 jail "afile".toList hostTree = some (hostTree, .error ENOENT) := by
  decide

/-! ## Removing an entry -/

theorem walkAux_del (look1 look2 : Loc → Option Node) (root L : Loc) (c : Name)
    (hc1 : c ≠ ['.']) (hc2 : c ≠ ['.', '.'])
    (hagree : ∀ l, l ≠ L → look2 l = look1 l) (hL : look2 L = none)
    (k1 k2 : Loc → List Name → Except Errno Found)
    (hk : ∀ cur cp D, k1 cur (cp ++ [['.']]) = .ok (Found.obj D) → D ++ [c] = L →
      Missing (k2 cur (cp ++ [c]))) :
    ∀ (cp : List Name) (cur D : Loc),
      walkAux look1 root k1 cur (cp ++ [['.']]) = .ok (Found.obj D) → D ++ [c] = L →
        Missing (walkAux look2 root k2 cur (cp ++ [c])) := by
  intro cp
  induction cp with
  | nil =>
    intro cur D h hD
    simp only [List.nil_append] at h ⊢
    rw [walkAux_dot, walkAux] at h
    cases h
    rw [walkAux_name _ _ _ _ _ _ hc1 hc2, hD, hL]
    exact Or.inr ⟨_, _, rfl⟩
  | cons x rest ih =>
    intro cur D h hD
    simp only [List.cons_append] at h ⊢
    by_cases h1 : x = ['.']
    · subst h1; rw [walkAux_dot] at h ⊢; exact ih cur D h hD
    · by_cases h2 : x = ['.', '.']
      · subst h2; rw [walkAux_dotdot] at h ⊢; exact ih _ D h hD
      · rw [walkAux_name _ _ _ _ _ _ h1 h2] at h ⊢
        have hne1 : rest ++ [['.']] ≠ [] := by simp
        have hne2 : rest ++ [c] ≠ [] := by simp
        by_cases hx : cur ++ [x] = L
        · rw [hx, hL]
          simp only []
          rw [if_neg hne2]
          exact Or.inl rfl
        · rw [hagree _ hx]
          cases hl : look1 (cur ++ [x]) with
          | none => rw [hl] at h; simp only [] at h; rw [if_neg hne1] at h; cases h
          | some nd =>
            rw [hl] at h
            cases nd with
            | dir => exact ih _ D h hD
            | file m d => simp only [] at h; rw [if_neg hne1] at h; cases h
            | symlink t =>
              simp only [] at h ⊢
              by_cases ht : t = []
              · rw [if_pos ht] at h; cases h
              · rw [if_neg ht] at h ⊢
                rw [← List.append_assoc] at h ⊢
                exact hk _ _ D h hD

/-- After the entry `c` of the directory that the components `cp` lead to was
removed, the walk along `cp` and then `c` does not find it. -/
theorem walk_del (look1 look2 : Loc → Option Node) (root L : Loc) (c : Name)
    (hc1 : c ≠ ['.']) (hc2 : c ≠ ['.', '.'])
    (hagree : ∀ l, l ≠ L → look2 l = look1 l) (hL : look2 L = none) :
    ∀ (n : Nat) (cur : Loc) (cp : List Name) (D : Loc),
      walk look1 root n cur (cp ++ [['.']]) = .ok (Found.obj D) → D ++ [c] = L →
        Missing (walk look2 root n cur (cp ++ [c])) := by
  intro n
  induction n with
  | zero =>
    intro cur cp D h hD
    exact walkAux_del look1 look2 root L c hc1 hc2 hagree hL _ _
      (fun _ _ _ h _ => by cases h) cp cur D h hD
  | succ n ih =>
    intro cur cp D h hD
    exact walkAux_del look1 look2 root L c hc1 hc2 hagree hL _ _
      (fun cur cp D h hD => ih cur cp D h hD) cp cur D h hD

theorem parentAt_ordinary (k : Kernel) (D : File) (leaf : Str)
    (hd : k.look D.loc = some Node.dir) (hne : leaf ≠ []) (hns : '/' ∉ leaf)
    (h1 : leaf ≠ ['.']) (h2 : leaf ≠ ['.', '.']) :
    parentAt k D leaf = .ok (Last.norm D.loc leaf) := by
  unfold parentAt
  rw [if_neg hne, if_neg (by simp [hd]), splitPath_single _ hne hns]
  have hh : leaf.head? ≠ some '/' := by
    intro e
    apply hns
    cases leaf with
    | nil => cases e
    | cons a t => simp at e; simp [e]
  simp only [List.getLast?_singleton, List.dropLast_single, List.nil_append]
  rw [if_neg hh, walk_dot]
  simp only []
  rw [if_neg h1, if_neg h2]

theorem getLast_ne_sep (leaf : Str) (hns : '/' ∉ leaf) : leaf.getLast? ≠ some '/' := by
  intro e
  exact hns (List.mem_of_mem_getLast? (Option.mem_def.mpr e))

theorem unlinkat_removable (k : Kernel) (D : File) (leaf : Str)
    (hd : k.look D.loc = some Node.dir) (hne : leaf ≠ []) (hns : '/' ∉ leaf)
    (h1 : leaf ≠ ['.']) (h2 : leaf ≠ ['.', '.']) (hr : Removable k (D.loc ++ [leaf])) :
    (match unlinkat k D leaf 0 with
      | (k2, some _) => some (unlinkat k2 D leaf AT_REMOVEDIR)
      | (k2, none) => some (k2, none)) = some (k.del (D.loc ++ [leaf]), none) := by
  have hp := parentAt_ordinary k D leaf hd hne hns h1 h2
  have hz : (0 : Nat) ≠ AT_REMOVEDIR := by decide
  rcases hr with ⟨m, d, hl⟩ | ⟨t, hl⟩ | ⟨hl, he⟩
  · have : unlinkat k D leaf 0 = (k.del (D.loc ++ [leaf]), none) := by
      unfold unlinkat
      rw [if_neg hz, if_pos rfl, hp]
      simp only []
      rw [hl]
      simp only []
      rw [if_neg (getLast_ne_sep leaf hns)]
    rw [this]
  · have : unlinkat k D leaf 0 = (k.del (D.loc ++ [leaf]), none) := by
      unfold unlinkat
      rw [if_neg hz, if_pos rfl, hp]
      simp only []
      rw [hl]
      simp only []
      rw [if_neg (getLast_ne_sep leaf hns)]
    rw [this]
  · have e0 : unlinkat k D leaf 0 = (k, some EISDIR) := by
      unfold unlinkat
      rw [if_neg hz, if_pos rfl, hp]
      simp only []
      rw [hl]
    have e1 : unlinkat k D leaf AT_REMOVEDIR = (k.del (D.loc ++ [leaf]), none) := by
      unfold unlinkat
      rw [if_pos rfl, hp]
      simp only []
      rw [hl]
      simp only []
      rw [if_pos he]
    rw [e0]
    simp only []
    rw [e1]

theorem prefix_snoc_ne (root D : Loc) (c : Name) (h : root <+: D) : root ≠ D ++ [c] := by
  intro e
  have := h.length_le
  have h2 : root.length = D.length + 1 := by rw [e]; simp
  omega

/-- C4 (amended): for a path `P` whose last segment `Base(P)` is an ordinary name
(not `/`, `.` or `..`), with `P` split by the kernel into the components `cp` and
that name, if `Dir(P)` opens as the directory `D` that the components `cp` lead
to, and the entry of that name in `D` is a regular file, a symbolic link or an
empty directory, then `Remove(P)` succeeds and removes exactly that entry, and a
`Stat(P)` that follows fails with `ENOENT`. -/
theorem Remove_then_Stat (fs : FS) (P : Str) (k : Kernel) (D : File) (cp : List Name)
    (fuel fuel2 : Nat)
    (hD : FS.openParentOf (fuel + 1) fs P k = some (k, .ok D))
    (hB : Base P ≠ ['/'] ∧ Base P ≠ ['.'] ∧ Base P ≠ ['.', '.'])
    (hP : pathComps P = cp ++ [Base P])
    (hW : walk k.look fs.dfd.loc 40 fs.dfd.loc (cp ++ [['.']]) = .ok (Found.obj D.loc))
    (hE : Removable k (D.loc ++ [Base P])) :
    FS.Remove (fuel + 1) fs P k = some (k.del (D.loc ++ [Base P]), none) ∧
      FS.Stat (fuel2 + 1) fs P (k.del (D.loc ++ [Base P]))
        = some (k.del (D.loc ++ [Base P]), .error ENOENT) ∧
      ∀ l, l ≠ D.loc ++ [Base P] → (k.del (D.loc ++ [Base P])).look l = k.look l := by
  obtain ⟨_, _, hin, hdir, hroot, _⟩ := openParentOf_ok fs P k k D fuel hD
  obtain ⟨hne, hns⟩ : Base P ≠ [] ∧ '/' ∉ Base P := by
    rcases Base_cases P with h | h
    · exact absurd h hB.1
    · exact h
  have hLne : D.loc ++ [Base P] ≠ [] := append_singleton_ne_nil _ _
  refine ⟨?_, ?_, ?_⟩
  · rw [Remove_of_parent_ok _ _ _ _ _ _ hD]
    exact unlinkat_removable k D (Base P) hdir hne hns hB.2.1 hB.2.2 hE
  · apply Stat_missing
    · rw [look_del _ _ _ hLne, if_neg (prefix_snoc_ne _ _ _ hin)]
      exact hroot
    · unfold missingInRoot resolveInRoot
      rw [hP]
      refine walk_del k.look _ fs.dfd.loc (D.loc ++ [Base P]) (Base P) hB.2.1 hB.2.2 ?_ ?_
        40 fs.dfd.loc cp D.loc hW rfl
      · intro l hl
        rw [look_del _ _ _ hLne, if_neg hl]
      · rw [look_del _ _ _ hLne, if_pos rfl]
  · intro l hl
    rw [look_del _ _ _ hLne, if_neg hl]

/-- C4 (amended), in the jail `/r`: `Remove("a/file")` removes the regular file
and `Stat("a/file")` then fails with `ENOENT`. -/
theorem Remove_then_Stat_witness :
    FS.Remove 1 jail "a/file".toList hostTree
        = some (hostTree.del (["r".toList, "a".toList] ++ [Base "a/file".toList]), none) ∧
      FS.Stat 1 jail "a/file".toList
          (hostTree.del (["r".toList, "a".toList] ++ [Base "a/file".toList]))
        = some (hostTree.del (["r".toList, "a".toList] ++ [Base "a/file".toList]),
            .error ENOENT) ∧
      ∀ l, l ≠ ["r".toList, "a".toList] ++ [Base "a/file".toList] →
        (hostTree.del (["r".toList, "a".toList] ++ [Base "a/file".toList])).look l
          = hostTree.look l :=
  Remove_then_Stat jail "a/file".toList hostTree ⟨["r".toList, "a".toList], 0x290000⟩
    ["a".toList] 0 0 (by decide) (by decide) (by decide) (by decide)
    (Or.inl ⟨0o600, [104, 105], by decide⟩)

/-- C4 as stated fails: in the jail `/r`, `e/.` names the empty directory `e`
(`Stat` succeeds and reports a directory), but `Remove("e/.")` fails with
`EINVAL` and removes nothing: `unlinkat` and `rmdir` refuse the leaf `.`. -/
theorem Remove_dot_fails :
    hostTree.look ["r".toList, "e".toList] = some Node.dir ∧
    hostTree.isEmptyDir ["r".toList, "e".toList] = true ∧
    FS.Stat 1 jail "e/.".toList hostTree = some (hostTree, .ok ⟨true, 0, 0⟩) ∧
    FS.Remove 1 jail "e/.".toList hostTree = some (hostTree, some EINVAL) := by
  decide

end Securefs
